import Mathlib

/-!
# Silver Lobster: the dungeon generator of `world generation.cpp`

A shallow embedding of `Generator` (rooms, exit, mazes, region connection,
dead-end removal) and theorems about it.

Conventions of the embedding.

* C++ `int` is `Int`; `/` and `%` are the truncating `Int.tdiv` and `Int.tmod`.
* `Region` is an unsigned integer type declared in `world.hpp`, which is not
  among the sources.  Region labels are kept in `Nat`; the width of the type is
  the parameter `bits`, and `++` on a region is taken modulo `2 ^ bits`.
* A failed `assert` and every undefined behaviour the generator can reach
  (an empty range handed to the random source, a connector drawn from an empty
  map, `at` on a missing key, a `!=` loop that steps over its bound) ends the run
  with a `Fault`.
* Loops that are `while` loops in the source carry a fuel bound computed from
  the state; running out of it is the fault `Fault.fuel`, and the theorems
  show that it does not happen.
-/

namespace SilverLobster

/-! ## Data model -/

/-- Modelled from the spec: the cell kinds of section 3 (`Tile` of `world.hpp`). -/
inductive Tile where
  | wall
  | room
  | path
  | closed_door
  | stairs
  deriving DecidableEq, Repr, Inhabited

/-- The sentinel `null_region = ~Region{}`: all `bits` bits of a region label set. -/
def null_region (bits : Nat) : Nat := 2 ^ bits - 1

/-- The point type `gfx::Point` of the graphics library. -/
structure Point where
  x : Int
  y : Int
  deriving DecidableEq, Repr

/-- The size type `gfx::Size` of the graphics library. -/
structure Size where
  w : Int
  h : Int
  deriving DecidableEq, Repr

/-- The rectangle type `gfx::Rect` of the graphics library: origin and size. -/
structure Rect where
  p : Point
  s : Size
  deriving DecidableEq, Repr

instance : Add Point := ⟨fun a b => ⟨a.x + b.x, a.y + b.y⟩⟩

/-- Scaling of a point, `p * k`. -/
def Point.scale (p : Point) (k : Int) : Point := ⟨p.x * k, p.y * k⟩

/-- Componentwise truncating division of a point, `p / k`. -/
def Point.div (p : Point) (k : Int) : Point := ⟨p.x.tdiv k, p.y.tdiv k⟩

/-- The conversion `Size::point()`. -/
def Size.point (s : Size) : Point := ⟨s.w, s.h⟩

instance : Sub Size := ⟨fun a b => ⟨a.w - b.w, a.h - b.h⟩⟩

/-- Whether the rectangle covers the cell `q`. -/
def Rect.contains (r : Rect) (q : Point) : Bool :=
  decide (r.p.x ≤ q.x ∧ q.x < r.p.x + r.s.w ∧ r.p.y ≤ q.y ∧ q.y < r.p.y + r.s.h)

/-- The test `Rect::intersects` of the graphics library: the two rectangles
have a cell in common. -/
def Rect.intersects (a b : Rect) : Bool :=
  decide (max a.p.x b.p.x < min (a.p.x + a.s.w) (b.p.x + b.s.w) ∧
    max a.p.y b.p.y < min (a.p.y + a.s.h) (b.p.y + b.s.h))

/-- The dense two-dimensional array behind `gfx::Surface<T>`: `w * h` cells,
row by row. -/
structure Surface (α : Type) where
  w : Nat
  h : Nat
  cells : List α

namespace Surface

variable {α : Type}

/-- The storage has exactly `w * h` cells. -/
def WF (s : Surface α) : Prop := s.cells.length = s.w * s.h

instance (s : Surface α) : Decidable s.WF := by
  unfold WF
  infer_instance

/-- The accessor `Surface::width()`. -/
def width (s : Surface α) : Int := s.w

/-- The accessor `Surface::height()`. -/
def height (s : Surface α) : Int := s.h

/-- The accessor `Surface::size()`. -/
def size (s : Surface α) : Size := ⟨s.w, s.h⟩

/-- The accessor `Surface::rect()`: the whole surface. -/
def rect (s : Surface α) : Rect := ⟨⟨0, 0⟩, s.size⟩

/-- The test `Surface::contains(pos)`. -/
def contains (s : Surface α) (p : Point) : Bool :=
  decide (0 ≤ p.x ∧ p.x < s.w ∧ 0 ≤ p.y ∧ p.y < s.h)

/-- Position of a cell in the row-major storage. -/
def index (s : Surface α) (p : Point) : Nat := p.y.toNat * s.w + p.x.toNat

/-- Reading `Surface::ref(pos)`.  Outside the surface the source has undefined
behaviour; the model reads the default value there. -/
def ref [Inhabited α] (s : Surface α) (p : Point) : α :=
  if s.contains p then s.cells.getD (s.index p) default else default

/-- Writing `Surface::ref(pos) = v`.  Outside the surface the source has
undefined behaviour; the model drops the write. -/
def set (s : Surface α) (p : Point) (v : α) : Surface α :=
  if s.contains p then { s with cells := s.cells.set (s.index p) v } else s

/-- Overwrite, from storage position `i` on, the cells whose position satisfies `f`. -/
def fillFrom (f : Nat → Bool) (v : α) : Nat → List α → List α
  | _, [] => []
  | i, c :: cs => (if f i then v else c) :: fillFrom f v (i + 1) cs

/-- The call `gfx::fill(s.view(rect), v)`: every cell of the surface inside `rect`
becomes `v`. -/
def fill (s : Surface α) (r : Rect) (v : α) : Surface α :=
  { s with cells := fillFrom (fun i => r.contains ⟨(i % s.w : Nat), (i / s.w : Nat)⟩) v 0 s.cells }

end Surface

/-- Modelled from the spec: the directions of `dir point.hpp` that the generator
uses, the four cardinals in clockwise order and `none`. -/
inductive Dir where
  | up
  | right
  | down
  | left
  | none
  deriving DecidableEq, Repr

/-- Modelled from the spec: the list `cardinal_dirs` of `dir point.hpp`. -/
def cardinal_dirs : List Dir := [Dir.up, Dir.right, Dir.down, Dir.left]

/-- Modelled from the spec: `toPoint` of `dir point.hpp`, the unit step of a
direction (the y axis points down). -/
def toPoint : Dir → Point
  | Dir.up => ⟨0, -1⟩
  | Dir.right => ⟨1, 0⟩
  | Dir.down => ⟨0, 1⟩
  | Dir.left => ⟨-1, 0⟩
  | Dir.none => ⟨0, 0⟩

/-- Modelled from the spec: `rotateCW90` of `dir point.hpp`, a quarter turn clockwise. -/
def rotateCW90 : Dir → Dir
  | Dir.up => Dir.right
  | Dir.right => Dir.down
  | Dir.down => Dir.left
  | Dir.left => Dir.up
  | Dir.none => Dir.none

/-- Modelled from the spec: `fromCardinalIndex` of `dir point.hpp`. -/
def fromCardinalIndex (i : Nat) : Dir :=
  match i % 4 with
  | 0 => Dir.up
  | 1 => Dir.right
  | 2 => Dir.down
  | _ => Dir.left

/-- Modelled from the spec: the direction set `DirSet` of `dir set.hpp`, one flag
per cardinal direction. -/
structure DirSet where
  up : Bool
  right : Bool
  down : Bool
  left : Bool
  deriving DecidableEq, Repr

namespace DirSet

/-- The empty direction set. -/
def empty : DirSet := ⟨false, false, false, false⟩

/-- The member function `DirSet::set(dir)`. -/
def set (s : DirSet) : Dir → DirSet
  | Dir.up => { s with up := true }
  | Dir.right => { s with right := true }
  | Dir.down => { s with down := true }
  | Dir.left => { s with left := true }
  | Dir.none => s

/-- The member function `DirSet::test(dir)`. -/
def test (s : DirSet) : Dir → Bool
  | Dir.up => s.up
  | Dir.right => s.right
  | Dir.down => s.down
  | Dir.left => s.left
  | Dir.none => false

/-- The member function `DirSet::any()`. -/
def any (s : DirSet) : Bool := s.up || s.right || s.down || s.left

/-- The member function `DirSet::anyCardinal()`. -/
def anyCardinal (s : DirSet) : Bool := s.up || s.right || s.down || s.left

/-- The member function `DirSet::count()`. -/
def count (s : DirSet) : Nat := (cardinal_dirs.filter s.test).length

end DirSet

/-- The ways a run of the generator can end without a result. -/
inductive Fault where
  /-- An `assert` failed; the argument is its line in `world generation.cpp`. -/
  | assertion (line : Nat)
  /-- The random source was asked for a value from an empty range. -/
  | rngRange
  /-- Lines 232 to 235: a connector was drawn from an empty connector map. -/
  | noConnector
  /-- The call `mapping.at(region)` found no entry. -/
  | outOfRange
  /-- Line 240: the first element of an empty region set was taken. -/
  | emptySet
  /-- A loop with a `!=` or `<=` bound can never meet it. -/
  | overrun
  /-- The fuel of a modelled `while` loop ran out. -/
  | fuel
  deriving DecidableEq, Repr

/-! ## The random source -/

/-- Modelled from the spec: the seeded random source of `rng.hpp`.  Its state is
the sequence of raw draws and the number already consumed; every operation
takes the next raw draws and reduces them to the requested range. -/
structure RNG where
  stream : Nat → Nat
  pos : Nat

namespace RNG

/-- The next raw draw. -/
def next (r : RNG) : Nat × RNG := (r.stream r.pos, { r with pos := r.pos + 1 })

/-- Modelled from the spec: uniform index selection over `count` values,
`std::uniform_int_distribution{0, count - 1}` applied to the source. -/
def index (r : RNG) (count : Nat) : Nat × RNG := ((r.next).1 % count, (r.next).2)

/-- Modelled from the spec: `percent(p)` is true with probability `p / 100`. -/
def percent (r : RNG) (p : Int) : Bool × RNG := (decide (((r.next).1 % 100 : Nat) < p), (r.next).2)

/-- An odd integer of `[lo, hi]` chosen by one raw draw; the range must hold one. -/
def oddInt (r : RNG) (lo hi : Int) : Except Fault (Int × RNG) :=
  let first := if lo.tmod 2 = 0 then lo + 1 else lo
  if hi < first then Except.error Fault.rngRange
  else Except.ok (first + 2 * (((r.next).1 % ((hi - first).tdiv 2 + 1).toNat : Nat) : Int), (r.next).2)

/-- Modelled from the spec: `oddSize(min, max)` returns a size whose width and
height are each independently drawn odd integers in `[min, max]`. -/
def oddSize (r : RNG) (min max : Int) : Except Fault (Size × RNG) :=
  match r.oddInt min max with
  | Except.error f => Except.error f
  | Except.ok (w, r1) =>
    match r1.oddInt min max with
    | Except.error f => Except.error f
    | Except.ok (h, r2) => Except.ok (⟨w, h⟩, r2)

/-- Modelled from the spec: `oddPoint(bound)` returns a point whose coordinates
are odd integers in `[0, bound)`. -/
def oddPoint (r : RNG) (bound : Size) : Except Fault (Point × RNG) :=
  match r.oddInt 0 (bound.w - 1) with
  | Except.error f => Except.error f
  | Except.ok (x, r1) =>
    match r1.oddInt 0 (bound.h - 1) with
    | Except.error f => Except.error f
    | Except.ok (y, r2) => Except.ok (⟨x, y⟩, r2)

end RNG

/-! ## The generator -/

/-- The parameters `GenParams`. -/
structure GenParams where
  roomSizeMin : Int
  roomSizeMax : Int
  roomDensity : Int
  pathStraightness : Int
  connectionRedundancy : Int
  deriving DecidableEq, Repr

/-- Modelled from the spec: the world aggregate of `world.hpp`, the tile grid,
the region grid and the room list. -/
structure World where
  tiles : Surface Tile
  regions : Surface Nat
  rooms : List Rect

/-- The state of a `Generator`: its members and `started`, the function-local
static of `startRegion`, which outlives the generator object. -/
structure Generator where
  rng : RNG
  tiles : Surface Tile
  regions : Surface Nat
  rooms : List Rect
  currentRegion : Nat
  started : Bool

/-- The values taken by the loop variable of `for (int i = start; i != stop; i += step)`;
`none` when the variable never meets `stop`. -/
def loopNe (start stop : Int) (step : Nat) : Option (List Int) :=
  if start ≤ stop ∧ (stop - start) % (step : Int) = 0 then
    some ((List.range ((stop - start).toNat / step)).map (fun k => start + ((k * step : Nat) : Int)))
  else none

section Gen

variable (bits : Nat)

/-- The constructor `Generator(seed, world)`: `stream` is the draw sequence of
the seed, `started` the value of the static latch when the generator is built. -/
def Generator.new (stream : Nat → Nat) (world : World) (started : Bool) : Generator :=
  { rng := ⟨stream, 0⟩, tiles := world.tiles, regions := world.regions, rooms := world.rooms,
    currentRegion := null_region bits, started := started }

/-- The member function `startRegion` (lines 58 to 63). -/
def startRegion (g : Generator) : Except Fault Generator :=
  let next := (g.currentRegion + 1) % 2 ^ bits
  if g.started && next == 0 then Except.error (Fault.assertion 61)
  else Except.ok { g with currentRegion := next, started := true }

/-- The member function `carve(pos, tile)` (lines 65 to 68). -/
def carve (g : Generator) (pos : Point) (tile : Tile) : Generator :=
  { g with tiles := g.tiles.set pos tile, regions := g.regions.set pos g.currentRegion }

/-- The member function `carve(rect, tile)` (lines 70 to 73). -/
def carveRect (g : Generator) (rect : Rect) (tile : Tile) : Generator :=
  { g with tiles := g.tiles.fill rect tile, regions := g.regions.fill rect g.currentRegion }

/-! ### Rooms -/

/-- One pass through the body of the loop of `placeRooms` (lines 85 to 101). -/
def roomAttempt (params : GenParams) (g : Generator) : Except Fault Generator :=
  match g.rng.oddSize params.roomSizeMin params.roomSizeMax with
  | Except.error f => Except.error f
  | Except.ok (size, rng1) =>
    match rng1.oddPoint (g.tiles.size - size) with
    | Except.error f => Except.error f
    | Except.ok (pos, rng2) =>
      if g.rooms.any (fun room => Rect.intersects ⟨pos, size⟩ room) then
        Except.ok { g with rng := rng2 }
      else
        match startRegion bits { g with rng := rng2, rooms := g.rooms ++ [⟨pos, size⟩] } with
        | Except.error f => Except.error f
        | Except.ok g1 => Except.ok (carveRect g1 ⟨pos, size⟩ Tile.room)

/-- The loop `for (int d = params.roomDensity; d--; )` of `placeRooms`. -/
def placeRoomsLoop (params : GenParams) : Nat → Generator → Except Fault Generator
  | 0, g => Except.ok g
  | d + 1, g =>
    match roomAttempt bits params g with
    | Except.error f => Except.error f
    | Except.ok g1 => placeRoomsLoop params d g1

/-- The member function `placeRooms` (lines 77 to 103). -/
def placeRooms (params : GenParams) (g : Generator) : Except Fault Generator :=
  if params.roomSizeMin.tmod 2 ≠ 1 then Except.error (Fault.assertion 78)
  else if params.roomSizeMax.tmod 2 ≠ 1 then Except.error (Fault.assertion 79)
  else if ¬ params.roomSizeMin ≤ g.tiles.width - 2 then Except.error (Fault.assertion 80)
  else if ¬ params.roomSizeMin ≤ g.tiles.height - 2 then Except.error (Fault.assertion 81)
  else if ¬ params.roomDensity > 0 then Except.error (Fault.assertion 82)
  else placeRoomsLoop bits params params.roomDensity.toNat g

/-- The member function `placeExit` (lines 105 to 109). -/
def placeExit (g : Generator) : Except Fault Generator :=
  match g.rooms with
  | [] => Except.error (Fault.assertion 106)
  | room :: _ => Except.ok { g with tiles := g.tiles.set (room.p + (room.s.point).div 2) Tile.stairs }

/-! ### Mazes -/

/-- The loop `while (!dirs.test(dir)) dir = rotateCW90(dir)` of `randomDir`; four
turns come back to the first direction. -/
def rotateUntil (dirs : DirSet) : Nat → Dir → Dir
  | 0, dir => dir
  | n + 1, dir => if dirs.test dir then dir else rotateUntil dirs n (rotateCW90 dir)

/-- The member function `randomDir` (lines 113 to 121). -/
def randomDir (g : Generator) (dirs : DirSet) : Except Fault (Dir × Generator) :=
  if !dirs.anyCardinal then Except.error (Fault.assertion 114)
  else Except.ok (rotateUntil dirs 4 (fromCardinalIndex (g.rng.index 4).1), { g with rng := (g.rng.index 4).2 })

/-- The member function `canCarve` (lines 123 to 126). -/
def canCarve (g : Generator) (pos : Point) (dir : Dir) : Bool :=
  if !g.tiles.contains (pos + (toPoint dir).scale 3) then false
  else g.tiles.ref (pos + (toPoint dir).scale 2) == Tile.wall

/-- The set `unmadeCells` built by lines 138 to 144. -/
def unmadeCells (g : Generator) (cell : Point) : DirSet :=
  cardinal_dirs.foldl (fun s dir => if canCarve g cell dir then s.set dir else s) DirSet.empty

/-- The choice of direction of lines 147 to 154. -/
def chooseDir (params : GenParams) (g : Generator) (unmade : DirSet) (lastDir : Dir) :
    Except Fault (Dir × Generator) :=
  match randomDir g unmade with
  | Except.error f => Except.error f
  | Except.ok (dir, g1) =>
    if lastDir ≠ Dir.none ∧ unmade.test lastDir = true then
      Except.ok (if (g1.rng.percent params.pathStraightness).1 then lastDir else dir,
        { g1 with rng := (g1.rng.percent params.pathStraightness).2 })
    else Except.ok (dir, g1)

/-- The loop `while (!cells.empty())` of `growMaze` (lines 136 to 165); the head
of the list is the back of the vector `cells`. -/
def growMazeLoop (params : GenParams) : Nat → Generator → List Point → Dir → Except Fault Generator
  | _, g, [], _ => Except.ok g
  | 0, _, _ :: _, _ => Except.error Fault.fuel
  | n + 1, g, cell :: rest, lastDir =>
    if (unmadeCells g cell).any then
      match chooseDir params g (unmadeCells g cell) lastDir with
      | Except.error f => Except.error f
      | Except.ok (dir, g1) =>
        growMazeLoop params n
          (carve (carve g1 (cell + toPoint dir) Tile.path) (cell + (toPoint dir).scale 2) Tile.path)
          ((cell + (toPoint dir).scale 2) :: cell :: rest) dir
    else growMazeLoop params n g rest Dir.none

/-- The member function `growMaze` (lines 128 to 166). -/
def growMaze (params : GenParams) (g : Generator) (start : Point) : Except Fault Generator :=
  match startRegion bits g with
  | Except.error f => Except.error f
  | Except.ok g1 => growMazeLoop params (2 * g1.tiles.cells.length + 1) (carve g1 start Tile.path) [start] Dir.none

/-- The body of the outer loop of `growMazes`: the row `y`. -/
def growMazesRow (params : GenParams) (g : Generator) (y : Int) : Except Fault Generator :=
  match loopNe 1 g.tiles.width 2 with
  | none => Except.error Fault.overrun
  | some xs =>
    xs.foldlM (fun g1 x => if g1.tiles.ref ⟨x, y⟩ = Tile.wall then growMaze bits params g1 ⟨x, y⟩ else Except.ok g1) g

/-- The member function `growMazes` (lines 168 to 176). -/
def growMazes (params : GenParams) (g : Generator) : Except Fault Generator :=
  match loopNe 1 g.tiles.height 2 with
  | none => Except.error Fault.overrun
  | some ys => ys.foldlM (growMazesRow bits params) g

/-! ### Connections -/

/-- The type `RegionSet`, a `std::set<Region>`. -/
abbrev RegionSet := Finset Nat

/-- The type `ConnectorMap`: the entries of the `std::unordered_map` in the order
in which the map is traversed, taken to be the order of insertion. -/
abbrev ConnectorMap := List (Point × RegionSet)

/-- The type `RegionMap`, a `std::unordered_map<Region, Region>`. -/
abbrev RegionMap := Nat → Option Nat

/-- The type `BigRegionSet`, a `std::unordered_set<Region>`. -/
abbrev BigRegionSet := Finset Nat

/-- The set `connectorRegions` built by lines 194 to 200 for the cell `pos`. -/
def connectorRegions (g : Generator) (pos : Point) : RegionSet :=
  cardinal_dirs.foldl
    (fun s dir => if g.regions.ref (pos + toPoint dir) ≠ null_region bits
      then insert (g.regions.ref (pos + toPoint dir)) s else s) ∅

/-- The body of the inner loop of `findConnectors` (lines 193 to 203). -/
def findConnectorsCell (g : Generator) (y : Int) (connectors : ConnectorMap) (x : Int) : ConnectorMap :=
  if g.tiles.ref ⟨x, y⟩ ≠ Tile.wall then connectors
  else if (connectorRegions bits g ⟨x, y⟩).card ≥ 2 then
    connectors ++ [(⟨x, y⟩, connectorRegions bits g ⟨x, y⟩)]
  else connectors

/-- The body of the outer loop of `findConnectors`: the row `y`. -/
def findConnectorsRow (g : Generator) (connectors : ConnectorMap) (y : Int) : Except Fault ConnectorMap :=
  match loopNe 1 (g.tiles.width - 1) 1 with
  | none => Except.error Fault.overrun
  | some xs => Except.ok (xs.foldl (findConnectorsCell bits g y) connectors)

/-- The member function `findConnectors` (lines 189 to 207). -/
def findConnectors (g : Generator) : Except Fault ConnectorMap :=
  match loopNe 1 (g.tiles.height - 1) 1 with
  | none => Except.error Fault.overrun
  | some ys => ys.foldlM (findConnectorsRow bits g) []

/-- The static member function `applyMapping` (lines 209 to 215). -/
def applyMapping (mapping : RegionMap) (regions : RegionSet) : Except Fault RegionSet :=
  if ∀ r ∈ regions, (mapping r).isSome = true then
    Except.ok (regions.image (fun r => (mapping r).getD 0))
  else Except.error Fault.outOfRange

/-- The static member function `close` (lines 217 to 219). -/
def close (a b : Point) : Bool := decide (|a.x - b.x| < 2 ∧ |a.y - b.y| < 2)

/-- The local variables of `connectRegions` together with the generator. -/
structure ConnectState where
  gen : Generator
  connectors : ConnectorMap
  mergeMapping : RegionMap
  openRegions : BigRegionSet

/-- The values of `r` in `for (Region r = 0; r <= currentRegion; ++r)`; the loop
has no end when `currentRegion` is the largest value of the type. -/
def regionRange (g : Generator) : Option (List Nat) :=
  if g.currentRegion % 2 ^ bits = 2 ^ bits - 1 then none else some (List.range (g.currentRegion + 1))

/-- Lines 222 to 229: the connectors, the identity mapping and the set of all regions. -/
def connectInit (g : Generator) : Except Fault ConnectState :=
  match findConnectors bits g with
  | Except.error f => Except.error f
  | Except.ok connectors =>
    match regionRange bits g with
    | none => Except.error Fault.overrun
    | some rs =>
      Except.ok
        { gen := g, connectors := connectors,
          mergeMapping := rs.foldl (fun m r => fun k => if k = r ∧ m k = none then some r else m k) (fun _ => none),
          openRegions := rs.foldl (fun o r => insert r o) ∅ }

/-- Lines 243 to 248: every region that maps into `sources` is mapped to `dest`. -/
def mergeRegions (sources : RegionSet) (dest : Nat) (rs : List Nat) (mapping : RegionMap) :
    Except Fault RegionMap :=
  rs.foldlM (fun m r =>
    match m r with
    | none => Except.error Fault.outOfRange
    | some merged => Except.ok (if merged ∈ sources then (fun k => if k = r then some dest else m k) else m))
    mapping

/-- The sweep over the connectors of lines 254 to 270. -/
def sweep (params : GenParams) (conPos : Point) (mapping : RegionMap) :
    ConnectorMap → Generator → Except Fault (ConnectorMap × Generator)
  | [], g => Except.ok ([], g)
  | con :: rest, g =>
    if close con.1 conPos then sweep params conPos mapping rest g
    else
      match applyMapping mapping con.2 with
      | Except.error f => Except.error f
      | Except.ok merged =>
        if merged.card > 1 then
          match sweep params conPos mapping rest g with
          | Except.error f => Except.error f
          | Except.ok (kept, g1) => Except.ok (con :: kept, g1)
        else
          sweep params conPos mapping rest
            { g with
              rng := (g.rng.percent params.connectionRedundancy).2,
              tiles := if (g.rng.percent params.connectionRedundancy).1
                then g.tiles.set con.1 Tile.closed_door else g.tiles }

/-- One pass through the body of the loop of `connectRegions` (lines 232 to 270). -/
def connectStep (params : GenParams) (s : ConnectState) : Except Fault ConnectState :=
  match s.connectors.get? (s.gen.rng.index s.connectors.length).1 with
  | none => Except.error Fault.noConnector
  | some con =>
    match applyMapping s.mergeMapping con.2 with
    | Except.error f => Except.error f
    | Except.ok resolved =>
      match resolved.min with
      | none => Except.error Fault.emptySet
      | some dest =>
        match regionRange bits s.gen with
        | none => Except.error Fault.overrun
        | some rs =>
          match mergeRegions (resolved.erase dest) dest rs s.mergeMapping with
          | Except.error f => Except.error f
          | Except.ok mapping =>
            match sweep params con.1 mapping s.connectors
                { s.gen with
                  rng := (s.gen.rng.index s.connectors.length).2,
                  tiles := s.gen.tiles.set con.1 Tile.closed_door } with
            | Except.error f => Except.error f
            | Except.ok (connectors, g) =>
              Except.ok
                { gen := g, connectors := connectors, mergeMapping := mapping,
                  openRegions := s.openRegions \ resolved.erase dest }

/-- The loop `while (openRegions.size() > 1)` of `connectRegions`. -/
def connectLoop (params : GenParams) : Nat → ConnectState → Except Fault ConnectState
  | fuel, s =>
    if s.openRegions.card > 1 then
      match fuel with
      | 0 => Except.error Fault.fuel
      | n + 1 =>
        match connectStep bits params s with
        | Except.error f => Except.error f
        | Except.ok s1 => connectLoop params n s1
    else Except.ok s

/-- The member function `connectRegions` (lines 221 to 272). -/
def connectRegions (params : GenParams) (g : Generator) : Except Fault Generator :=
  match connectInit bits g with
  | Except.error f => Except.error f
  | Except.ok s =>
    match connectLoop bits params s.openRegions.card s with
    | Except.error f => Except.error f
    | Except.ok s1 => Except.ok s1.gen

/-! ### Dead ends -/

/-- The set `exits` built by lines 286 to 291 for the cell `pos`. -/
def exits (tiles : Surface Tile) (pos : Point) : DirSet :=
  cardinal_dirs.foldl (fun s dir => if tiles.ref (pos + toPoint dir) ≠ Tile.wall then s.set dir else s)
    DirSet.empty

/-- The body of the inner loop of `removeDeadEnds` (lines 284 to 296) on the
tile grid and the flag `done`. -/
def deadEndCell (y : Int) (st : Surface Tile × Bool) (x : Int) : Surface Tile × Bool :=
  if st.1.ref ⟨x, y⟩ = Tile.wall then st
  else if (exits st.1 ⟨x, y⟩).count = 1 then (st.1.set ⟨x, y⟩ Tile.wall, false)
  else st

/-- The body of the outer loop of a pass of `removeDeadEnds`: the row `y`. -/
def deadEndRow (st : Surface Tile × Bool) (y : Int) : Except Fault (Surface Tile × Bool) :=
  match loopNe 1 (st.1.width - 1) 1 with
  | none => Except.error Fault.overrun
  | some xs => Except.ok (xs.foldl (deadEndCell y) st)

/-- One pass of `removeDeadEnds` (lines 280 to 298): the grid after the pass and
the flag `done`. -/
def deadEndPass (tiles : Surface Tile) : Except Fault (Surface Tile × Bool) :=
  match loopNe 1 (tiles.height - 1) 1 with
  | none => Except.error Fault.overrun
  | some ys => ys.foldlM deadEndRow (tiles, true)

/-- The loop `while (!done)` of `removeDeadEnds`. -/
def deadEndLoop : Nat → Surface Tile → Except Fault (Surface Tile)
  | 0, _ => Except.error Fault.fuel
  | n + 1, tiles =>
    match deadEndPass tiles with
    | Except.error f => Except.error f
    | Except.ok (tiles1, done) => if done then Except.ok tiles1 else deadEndLoop n tiles1

/-- The member function `removeDeadEnds` (lines 276 to 300) on the tile grid. -/
def removeDeadEndsTiles (tiles : Surface Tile) : Except Fault (Surface Tile) :=
  deadEndLoop (tiles.cells.length + 1) tiles

/-- The member function `removeDeadEnds` (lines 276 to 300). -/
def removeDeadEnds (g : Generator) : Except Fault Generator :=
  match removeDeadEndsTiles g.tiles with
  | Except.error f => Except.error f
  | Except.ok tiles => Except.ok { g with tiles := tiles }

/-! ### The pipeline -/

/-- Lines 42 and 43 of `generate`: the reset of both grids and of the room list. -/
def reset (g : Generator) : Generator :=
  { carveRect g g.tiles.rect Tile.wall with rooms := [] }

/-- Lines 42 to 46 of `generate`: the phases before the regions are connected. -/
def carvePhases (params : GenParams) (g : Generator) : Except Fault Generator :=
  match placeRooms bits params (reset g) with
  | Except.error f => Except.error f
  | Except.ok g1 =>
    match placeExit g1 with
    | Except.error f => Except.error f
    | Except.ok g2 => growMazes bits params g2

/-- The member function `generate` (lines 41 to 49). -/
def generate (params : GenParams) (g : Generator) : Except Fault Generator :=
  match carvePhases bits params g with
  | Except.error f => Except.error f
  | Except.ok g3 =>
    match connectRegions bits params g3 with
    | Except.error f => Except.error f
    | Except.ok g4 => removeDeadEnds g4

/-- The function `initializeWorld` (lines 305 to 311) on the world it creates. -/
def initializeWorld (size : Size) : Except Fault World :=
  if ¬ (size.w > 1 ∧ size.w.tmod 2 = 1) then Except.error (Fault.assertion 306)
  else if ¬ (size.h > 1 ∧ size.h.tmod 2 = 1) then Except.error (Fault.assertion 307)
  else Except.ok
    { tiles := ⟨size.w.toNat, size.h.toNat, List.replicate (size.w.toNat * size.h.toNat) default⟩,
      regions := ⟨size.w.toNat, size.h.toNat, List.replicate (size.w.toNat * size.h.toNat) default⟩,
      rooms := [] }

/-- The parameters that `generateTerrain` passes to the generator (lines 314 to 320). -/
def terrainParams : GenParams :=
  { roomSizeMin := 3, roomSizeMax := 9, roomDensity := 200, pathStraightness := 100,
    connectionRedundancy := 2 }

/-- The function `generateTerrain` (lines 313 to 323): `engine` gives the draw
sequence of a seed, `started` is the static latch of `startRegion` at the call. -/
def generateTerrain (engine : Nat → Nat → Nat) (seed : Nat) (world : World) (started : Bool) :
    Except Fault Generator :=
  generate bits terrainParams (Generator.new bits (engine seed) world started)

/-! ## Predicates used by the theorems -/

/-- A world as `initializeWorld` creates it: both grids have full storage and
the same size. -/
def World.WF (w : World) : Prop :=
  w.tiles.WF ∧ w.regions.WF ∧ w.regions.w = w.tiles.w ∧ w.regions.h = w.tiles.h

instance (w : World) : Decidable w.WF := by
  unfold World.WF
  infer_instance

/-- The fault of a run, if it ended in one. -/
def faultOf {α : Type} : Except Fault α → Option Fault
  | Except.ok _ => none
  | Except.error f => some f

/-- The result of a run, or `d` when it ended in a fault. -/
def resultOr {α : Type} (d : α) : Except Fault α → α
  | Except.ok a => a
  | Except.error _ => d

/-- The draw sequence that starts with the listed values and goes on with zeros. -/
def drawsOf (l : List Nat) : Nat → Nat := fun i => l.getD i 0

/-- The number of cardinal neighbours of `pos` that are not wall. -/
def openNeighbours (tiles : Surface Tile) (pos : Point) : Nat :=
  (cardinal_dirs.filter (fun dir => decide (tiles.ref (pos + toPoint dir) ≠ Tile.wall))).length

/-- The number of cells of the grid that are not wall. -/
def nonWallCount (tiles : Surface Tile) : Nat :=
  tiles.cells.countP (fun c => decide (c ≠ Tile.wall))

/-- Every cell of the outer border is wall. -/
def BorderWall (tiles : Surface Tile) : Prop :=
  ∀ x < tiles.w, ∀ y < tiles.h, (x = 0 ∨ x + 1 = tiles.w ∨ y = 0 ∨ y + 1 = tiles.h) →
    tiles.ref ⟨(x : Nat), (y : Nat)⟩ = Tile.wall

instance (tiles : Surface Tile) : Decidable (BorderWall tiles) := by
  unfold BorderWall
  infer_instance

/-- The relation between the state before and after part of a pass of `removeDeadEnds`:
the grid keeps its size, every cell keeps its tile or becomes wall, and either nothing
changed or the flag `done` is cleared and fewer cells are open. -/
def PassRel (a b : Surface Tile × Bool) : Prop :=
  b.1.w = a.1.w ∧ b.1.h = a.1.h ∧ (a.1.WF → b.1.WF) ∧
    (∀ q, b.1.ref q = a.1.ref q ∨ b.1.ref q = Tile.wall) ∧
    (b = a ∨ (b.2 = false ∧ (a.1.WF → nonWallCount b.1 < nonWallCount a.1)))

/-- The size of a room drawn with the parameters `params`: both sides odd and within
`[roomSizeMin, roomSizeMax]`. -/
def SizeOK (params : GenParams) (r : Rect) : Prop :=
  r.s.w % 2 = 1 ∧ r.s.h % 2 = 1 ∧ params.roomSizeMin ≤ r.s.w ∧ r.s.w ≤ params.roomSizeMax ∧
    params.roomSizeMin ≤ r.s.h ∧ r.s.h ≤ params.roomSizeMax

/-- The invariant of the room list: no two entries intersect and every entry has a size
allowed by the parameters. -/
def RoomsOK (params : GenParams) (rooms : List Rect) : Prop :=
  rooms.Pairwise (fun a b => Rect.intersects a b = false) ∧ ∀ r ∈ rooms, SizeOK params r

/-- The place of a room as `placeRooms` draws it: origin and size odd, at least one cell,
strictly inside the outer border of the grid. -/
def RoomGeom (tiles : Surface Tile) (r : Rect) : Prop :=
  r.p.x % 2 = 1 ∧ r.p.y % 2 = 1 ∧ r.s.w % 2 = 1 ∧ r.s.h % 2 = 1 ∧
    1 ≤ r.p.x ∧ 1 ≤ r.p.y ∧ 1 ≤ r.s.w ∧ 1 ≤ r.s.h ∧
    r.p.x + r.s.w < tiles.w ∧ r.p.y + r.s.h < tiles.h

/-- The invariant of the carving phases (rooms, exit, mazes) of one `generate` run, for a
region type of any width: the region counter is a value of the type, open cells carry ids up
to the counter, wall cells inside the grid carry `null_region`, the counter is at most the
number of open cells minus 1 once a region was started, no cell holds a door, and some open
cell carries the id of the counter. -/
structure CarveInv (bits : Nat) (g : Generator) : Prop where
  tilesWF : g.tiles.WF
  regionsWF : g.regions.WF
  sameW : g.regions.w = g.tiles.w
  sameH : g.regions.h = g.tiles.h
  bounded : g.currentRegion < 2 ^ bits
  roomGeom : ∀ r ∈ g.rooms, RoomGeom g.tiles r
  roomOpen : ∀ r ∈ g.rooms, ∀ p, r.contains p = true → g.tiles.ref p ≠ Tile.wall
  regionLe : ∀ p, g.tiles.ref p ≠ Tile.wall → g.regions.ref p ≤ g.currentRegion
  wallNull : ∀ p, g.tiles.contains p = true → g.tiles.ref p = Tile.wall →
    g.regions.ref p = null_region bits
  counted : (g.currentRegion = null_region bits ∧ nonWallCount g.tiles = 0) ∨
    (g.started = true ∧ g.currentRegion + 1 ≤ nonWallCount g.tiles)
  noDoor : ∀ p, g.tiles.ref p ≠ Tile.closed_door
  marked : nonWallCount g.tiles = 0 ∨
    ∃ p, g.tiles.ref p ≠ Tile.wall ∧ g.regions.ref p = g.currentRegion

/-- The invariant of `placeRooms`: the carving invariant, and every open cell lies in a room
of the list. -/
def PlaceInv (bits : Nat) (g : Generator) : Prop :=
  CarveInv bits g ∧ ∀ p, g.tiles.ref p ≠ Tile.wall → ∃ r ∈ g.rooms, r.contains p = true

/-- The corridor invariant of the mazes: when the cell next to an odd cell is open, the odd
cell one step further is open as well. -/
def KInv (g : Generator) : Prop :=
  ∀ (c : Point) (d : Dir), d ≠ Dir.none → c.x % 2 = 1 → c.y % 2 = 1 →
    g.tiles.ref (c + toPoint d) ≠ Tile.wall → g.tiles.ref (c + (toPoint d).scale 2) ≠ Tile.wall

/-- The frame of the maze phase: from `a` to `b` the room list and the size of the grid stay,
and every cell that is open in `a` keeps its tile. -/
def MazeRel (a b : Generator) : Prop :=
  b.rooms = a.rooms ∧ b.tiles.w = a.tiles.w ∧ b.tiles.h = a.tiles.h ∧
    ∀ p, a.tiles.ref p ≠ Tile.wall → b.tiles.ref p = a.tiles.ref p

/-- The invariant of the loop of `growMaze`, started from the generator `g0`. -/
def MazeLoopInv (bits : Nat) (g0 g : Generator) (stack : List Point) : Prop :=
  CarveInv bits g ∧ KInv g ∧
    (g.started = true ∧ g.currentRegion + 1 ≤ nonWallCount g.tiles) ∧
    (∀ c ∈ stack, g.tiles.contains c = true ∧ c.x % 2 = 1 ∧ c.y % 2 = 1 ∧
      g.tiles.ref c ≠ Tile.wall) ∧
    MazeRel g0 g

/-- Parameters for which every room that can be drawn fits the grid: the assertions of
`placeRooms`, `roomSizeMin ≤ roomSizeMax`, and `roomSizeMax` at most the grid size minus 2. -/
def ParamsFit (params : GenParams) (tiles : Surface Tile) : Prop :=
  params.roomSizeMin % 2 = 1 ∧ 0 < params.roomSizeMin ∧ params.roomSizeMax % 2 = 1 ∧
    params.roomSizeMin ≤ params.roomSizeMax ∧ params.roomSizeMax ≤ (tiles.w : Int) - 2 ∧
    params.roomSizeMax ≤ (tiles.h : Int) - 2 ∧ 0 < params.roomDensity

instance (params : GenParams) (tiles : Surface Tile) : Decidable (ParamsFit params tiles) := by
  unfold ParamsFit
  infer_instance

/-! ## Example inputs -/

/-- A world of 9 by 7 cells as `initializeWorld` creates it. -/
def exampleWorld : World :=
  { tiles := ⟨9, 7, List.replicate 63 Tile.wall⟩, regions := ⟨9, 7, List.replicate 63 0⟩,
    rooms := [] }

/-- Parameters for rooms of 3 by 3 cells, two placement attempts. -/
def exampleParams : GenParams :=
  { roomSizeMin := 3, roomSizeMax := 3, roomDensity := 2, pathStraightness := 100,
    connectionRedundancy := 0 }

/-- Draws that put rooms at (5, 3) and (1, 1), grow two corridors and take the connector
at (4, 1) first. -/
def exampleDraws : Nat → Nat := drawsOf [0, 0, 2, 1, 0, 0, 0, 0, 3, 2, 0, 7, 1, 8]

/-- Draws that put rooms at (5, 3) and (1, 1), grow two corridors and take the connectors
at (3, 4) and (5, 2). -/
def isolatingDraws : Nat → Nat := drawsOf [0, 0, 2, 1, 0, 0, 0, 0, 3, 2, 7, 7, 1, 8]

/-- A world of 5 by 5 cells as `initializeWorld` creates it. -/
def smallWorld : World :=
  { tiles := ⟨5, 5, List.replicate 25 Tile.wall⟩, regions := ⟨5, 5, List.replicate 25 0⟩,
    rooms := [] }

/-! ## The loop of `connectRegions` as a step relation -/

/-- The states of the loop `while (openRegions.size() > 1)` of `connectRegions`:
`LoopReach bits params s0 k s` says that the loop, started in `s0`, is in state `s` after `k`
completed passes. -/
inductive LoopReach (bits : Nat) (params : GenParams) (s0 : ConnectState) :
    Nat → ConnectState → Prop
  | start : LoopReach bits params s0 0 s0
  | step {k : Nat} {s s' : ConnectState} :
      LoopReach bits params s0 k s → 1 < s.openRegions.card →
      connectStep bits params s = Except.ok s' → LoopReach bits params s0 (k + 1) s'

/-- The invariant of the loop of `connectRegions`: the mapping is defined only on the region
ids up to `currentRegion`, its values are open regions, no open region is missing from a
non-empty set, and every connector of the map resolves to at least two regions. -/
def ConnInv (s : ConnectState) : Prop :=
  (∀ k v, s.mergeMapping k = some v → k ≤ s.gen.currentRegion ∧ v ∈ s.openRegions) ∧
    s.openRegions.Nonempty ∧
    ∀ con ∈ s.connectors, ∀ m, applyMapping s.mergeMapping con.2 = Except.ok m → 2 ≤ m.card

/-- The generator after the carving phases on the example world with the example draws. -/
def exampleCarved : Generator :=
  resultOr (Generator.new 16 exampleDraws exampleWorld false)
    (carvePhases 16 exampleParams (Generator.new 16 exampleDraws exampleWorld false))

/-- The generator after the carving phases on the example world with the isolating draws. -/
def isolatingCarved : Generator :=
  resultOr (Generator.new 16 isolatingDraws exampleWorld false)
    (carvePhases 16 exampleParams (Generator.new 16 isolatingDraws exampleWorld false))

/-- A loop state without connectors, mapping and open regions. -/
def blankConnectState (g : Generator) : ConnectState :=
  { gen := g, connectors := [], mergeMapping := fun _ => none, openRegions := ∅ }

/-- The loop of `connectRegions` on `exampleCarved`: the state on entry. -/
def exampleLoop0 : ConnectState :=
  resultOr (blankConnectState exampleCarved) (connectInit 16 exampleCarved)

/-- The loop of `connectRegions` on `exampleCarved`: the state after one pass. -/
def exampleLoop1 : ConnectState :=
  resultOr (blankConnectState exampleCarved) (connectStep 16 exampleParams exampleLoop0)

/-- The loop of `connectRegions` on `isolatingCarved`: the state on entry. -/
def isolatingLoop0 : ConnectState :=
  resultOr (blankConnectState isolatingCarved) (connectInit 16 isolatingCarved)

/-- The loop of `connectRegions` on `isolatingCarved`: the state after one pass. -/
def isolatingLoop1 : ConnectState :=
  resultOr (blankConnectState isolatingCarved) (connectStep 16 exampleParams isolatingLoop0)

/-- The loop of `connectRegions` on `isolatingCarved`: the state after two passes. -/
def isolatingLoop2 : ConnectState :=
  resultOr (blankConnectState isolatingCarved) (connectStep 16 exampleParams isolatingLoop1)

/-- The frame of `connectRegions`: from `a` to `b` the room list, the region grid, the
region counter and the size of the grid stay, and a cell either keeps its tile or was wall and
is now a closed door. -/
def DoorRel (a b : Generator) : Prop :=
  b.rooms = a.rooms ∧ b.regions = a.regions ∧ b.currentRegion = a.currentRegion ∧
    b.tiles.w = a.tiles.w ∧ b.tiles.h = a.tiles.h ∧ (a.tiles.WF → b.tiles.WF) ∧
    ∀ p, b.tiles.ref p = a.tiles.ref p ∨
      (a.tiles.ref p = Tile.wall ∧ b.tiles.ref p = Tile.closed_door)

/-- The generator after `generate` on the example world with the example draws. -/
def exampleGenerated : Generator :=
  resultOr (Generator.new 16 exampleDraws exampleWorld false)
    (generate 16 exampleParams (Generator.new 16 exampleDraws exampleWorld false))

/-- A world of 5 by 3 cells as `initializeWorld` creates it. -/
def tinyWorld : World :=
  { tiles := ⟨5, 3, List.replicate 15 Tile.wall⟩, regions := ⟨5, 3, List.replicate 15 0⟩,
    rooms := [] }

/-- Parameters for rooms of a single cell, one placement attempt. -/
def tinyParams : GenParams :=
  { roomSizeMin := 1, roomSizeMax := 1, roomDensity := 1, pathStraightness := 100,
    connectionRedundancy := 0 }

/-- The generator after `generate` on the tiny world with all draws zero. -/
def tinyGenerated : Generator :=
  resultOr (Generator.new 16 (drawsOf []) tinyWorld false)
    (generate 16 tinyParams (Generator.new 16 (drawsOf []) tinyWorld false))

/-- The invariant of `removeDeadEnds` for a room: the grid `st` has full storage and the size
of `t`, and the cells of the room have the tiles they have in `t`. -/
def RoomKept (room : Rect) (t : Surface Tile) (st : Surface Tile × Bool) : Prop :=
  st.1.WF ∧ st.1.w = t.w ∧ st.1.h = t.h ∧ ∀ p, room.contains p = true → st.1.ref p = t.ref p

/-- Parameters whose largest room, 5 by 5, is as large as the 5 by 5 world. -/
def wideParams : GenParams :=
  { roomSizeMin := 3, roomSizeMax := 5, roomDensity := 2, pathStraightness := 100,
    connectionRedundancy := 0 }

/-- A world of 11 by 11 cells as `initializeWorld` creates it. -/
def terrainWorld : World :=
  { tiles := ⟨11, 11, List.replicate 121 Tile.wall⟩, regions := ⟨11, 11, List.replicate 121 0⟩,
    rooms := [] }

/-- An example engine: the draw sequence of the seed `s` is `s`, `s + 1`, `s + 2`, and so on. -/
def terrainEngine : Nat → Nat → Nat := fun s i => s + i

/-- The generator after a first `generateTerrain` on the 11 by 11 world with seed 42. -/
def terrainFirst : Generator :=
  resultOr (Generator.new 16 (terrainEngine 42) terrainWorld false)
    (generateTerrain 16 terrainEngine 42 terrainWorld false)

/-- The measure of the loop of `growMaze`: twice the number of wall cells plus the height of
the stack. -/
def mazeMeasure (g : Generator) (stack : List Point) : Nat :=
  2 * (g.tiles.cells.length - nonWallCount g.tiles) + stack.length

/-- The number of cells of the grid that are wall. -/
def wallCount (tiles : Surface Tile) : Nat :=
  tiles.cells.countP (fun c => decide (c = Tile.wall))

/-- A generator on a 5 by 5 grid with a corridor of three path cells and a single room cell. -/
def corridorGenerator : Generator :=
  { rng := ⟨drawsOf [], 0⟩,
    tiles := ⟨5, 5,
      [Tile.wall, Tile.wall, Tile.wall, Tile.wall, Tile.wall,
       Tile.wall, Tile.path, Tile.path, Tile.path, Tile.wall,
       Tile.wall, Tile.wall, Tile.wall, Tile.path, Tile.wall,
       Tile.wall, Tile.wall, Tile.room, Tile.path, Tile.wall,
       Tile.wall, Tile.wall, Tile.wall, Tile.wall, Tile.wall]⟩,
    regions := ⟨5, 5, List.replicate 25 0⟩, rooms := [], currentRegion := 0, started := false }

/-- The direction that `randomDir` returns when the next raw draw is `draw`; `none` when its
assertion fails. -/
def randomDirOf (dirs : DirSet) (draw : Nat) : Option Dir :=
  match randomDir ⟨⟨fun _ => draw, 0⟩, ⟨0, 0, []⟩, ⟨0, 0, []⟩, [], 0, false⟩ dirs with
  | Except.ok (dir, _) => some dir
  | Except.error _ => none

/-- The number of the four initial indices for which `randomDir` returns `dir`. -/
def randomDirHits (dirs : DirSet) (dir : Dir) : Nat :=
  ((List.range 4).filter (fun i => decide (randomDirOf dirs i = some dir))).length

/-- A quarter turn against the clock: three quarter turns clockwise. -/
def rotateCCW90 (dir : Dir) : Dir := rotateCW90 (rotateCW90 (rotateCW90 dir))

/-- The number of directions in a row, going against the clock from `dir`, that are not in
`dirs`: the initial directions that `randomDir` rotates on to `dir`. -/
def gapBefore (dirs : DirSet) (dir : Dir) : Nat :=
  if dirs.test (rotateCCW90 dir) then 0
  else if dirs.test (rotateCCW90 (rotateCCW90 dir)) then 1
  else if dirs.test (rotateCCW90 (rotateCCW90 (rotateCCW90 dir))) then 2
  else 3

/-- The merge-mapping invariant of the loop of `connectRegions`: the mapping is defined on
the region ids up to `currentRegion`, every value of the mapping maps to itself, the open
regions are the values of the mapping, and every connector of the map resolves to at least
two regions. -/
def MergeInv (s : ConnectState) : Prop :=
  (∀ r, r ≤ s.gen.currentRegion → ∃ v, s.mergeMapping r = some v) ∧
    (∀ k v, s.mergeMapping k = some v → s.mergeMapping v = some v) ∧
    (∀ v, v ∈ s.openRegions ↔ ∃ k, s.mergeMapping k = some v) ∧
    ∀ con ∈ s.connectors, ∃ m, applyMapping s.mergeMapping con.2 = Except.ok m ∧ 2 ≤ m.card

/-! ## The maze phase as a step relation -/

/-- The states of `growMazes`, started in the generator `g0` with the stack `s0` and the last
direction `d0`: `MazesReach bits params g0 s0 d0 k g stack last` says that `k` calls of
`growMaze` later the generator is `g`, the vector `cells` is `stack` (head at the back) and
`lastDir` is `last`.  Between two maze runs the stack is empty.  A run begins at a wall cell
with odd coordinates (lines 169 to 172, 132 to 134; the order of the scan is not recorded), a
pass of the loop carves in the direction chosen by lines 147 to 154 or pops the stack. -/
inductive MazesReach (bits : Nat) (params : GenParams) (g0 : Generator) (s0 : List Point)
    (d0 : Dir) : Nat → Generator → List Point → Dir → Prop
  | init : MazesReach bits params g0 s0 d0 0 g0 s0 d0
  | begin {k : Nat} {g g1 : Generator} {last : Dir} (x y : Int) :
      MazesReach bits params g0 s0 d0 k g [] last →
      1 ≤ x → x < g.tiles.width → x % 2 = 1 → 1 ≤ y → y < g.tiles.height → y % 2 = 1 →
      g.tiles.ref ⟨x, y⟩ = Tile.wall → startRegion bits g = Except.ok g1 →
      MazesReach bits params g0 s0 d0 (k + 1) (carve g1 ⟨x, y⟩ Tile.path) [⟨x, y⟩] Dir.none
  | step {k : Nat} {g g1 : Generator} {cell : Point} {rest : List Point} {last dir : Dir} :
      MazesReach bits params g0 s0 d0 k g (cell :: rest) last →
      (unmadeCells g cell).any = true →
      chooseDir params g (unmadeCells g cell) last = Except.ok (dir, g1) →
      MazesReach bits params g0 s0 d0 k
        (carve (carve g1 (cell + toPoint dir) Tile.path) (cell + (toPoint dir).scale 2) Tile.path)
        ((cell + (toPoint dir).scale 2) :: cell :: rest) dir
  | pop {k : Nat} {g : Generator} {cell : Point} {rest : List Point} {last : Dir} :
      MazesReach bits params g0 s0 d0 k g (cell :: rest) last →
      (unmadeCells g cell).any = false →
      MazesReach bits params g0 s0 d0 k g rest Dir.none

/-- The cell lies strictly inside the outer border of the grid. -/
def StrictlyInside (tiles : Surface Tile) (p : Point) : Prop :=
  1 ≤ p.x ∧ p.x + 1 < tiles.w ∧ 1 ≤ p.y ∧ p.y + 1 < tiles.h

/-- From `a` to `b` every open cell keeps its tile and its region id. -/
def Keeps (a b : Generator) : Prop :=
  ∀ p, a.tiles.ref p ≠ Tile.wall →
    b.tiles.ref p = a.tiles.ref p ∧ b.regions.ref p = a.regions.ref p

/-- The invariant of the maze phase: the carving and the corridor invariant, a started
region, a stack of open cells with odd coordinates that carry the current region id, a grid
of odd size and a border of wall. -/
def MazesInv (bits : Nat) (g : Generator) (stack : List Point) : Prop :=
  CarveInv bits g ∧ KInv g ∧
    (g.started = true ∧ g.currentRegion + 1 ≤ nonWallCount g.tiles) ∧
    (∀ c ∈ stack, g.tiles.contains c = true ∧ c.x % 2 = 1 ∧ c.y % 2 = 1 ∧
      g.tiles.ref c ≠ Tile.wall ∧ g.regions.ref c = g.currentRegion) ∧
    g.tiles.w % 2 = 1 ∧ g.tiles.h % 2 = 1 ∧ BorderWall g.tiles

/-- What the maze phase does from `a` to `b` with `k` maze runs begun in between: the room
list and the size of the grid stay, open cells keep tile and region id, the region counter
grows by `k`, and the cells opened carry ids from the counter of `a` to that of `b`. -/
def MazesRel (a b : Generator) (k : Nat) : Prop :=
  b.rooms = a.rooms ∧ b.tiles.w = a.tiles.w ∧ b.tiles.h = a.tiles.h ∧ Keeps a b ∧
    b.currentRegion = a.currentRegion + k ∧
    ∀ p, a.tiles.ref p = Tile.wall → b.tiles.ref p ≠ Tile.wall →
      a.currentRegion ≤ b.regions.ref p ∧ b.regions.ref p ≤ b.currentRegion

/-- The generator after `generate` on the example world with the example draws and a region
type of 3 bits. -/
def narrowGenerated : Generator :=
  resultOr (Generator.new 3 exampleDraws exampleWorld false)
    (generate 3 exampleParams (Generator.new 3 exampleDraws exampleWorld false))

/-- The generator after `placeRooms` on the example world with the example draws and a region
type of 2 bits, whose four values the four regions of the run use up. -/
def fullPlaced : Generator :=
  resultOr (Generator.new 2 exampleDraws exampleWorld false)
    (placeRooms 2 exampleParams (reset (Generator.new 2 exampleDraws exampleWorld false)))

/-- The generator after `placeExit` on `fullPlaced`. -/
def fullExit : Generator := resultOr fullPlaced (placeExit fullPlaced)
end Gen

/-! ## The grid storage -/

namespace Surface
variable {α : Type}

theorem set_w (s : Surface α) (p : Point) (v : α) : (s.set p v).w = s.w := by
  unfold set; split <;> rfl

theorem set_h (s : Surface α) (p : Point) (v : α) : (s.set p v).h = s.h := by
  unfold set; split <;> rfl

theorem set_WF (s : Surface α) (p : Point) (v : α) (hwf : s.WF) : (s.set p v).WF := by
  unfold set WF at *; split <;> simp [hwf]

theorem contains_set (s : Surface α) (p q : Point) (v : α) : (s.set p v).contains q = s.contains q := by
  simp [contains, set_w, set_h]

theorem contains_iff (s : Surface α) (p : Point) :
    s.contains p = true ↔ 0 ≤ p.x ∧ p.x < s.w ∧ 0 ≤ p.y ∧ p.y < s.h := by
  simp [contains]

theorem index_div (s : Surface α) (p : Point) (hp : s.contains p = true) :
    s.index p / s.w = p.y.toNat ∧ s.index p % s.w = p.x.toNat := by
  rw [contains_iff] at hp
  have hx : p.x.toNat < s.w := by omega
  unfold index
  constructor
  · rw [Nat.add_comm, Nat.add_mul_div_right _ _ (by omega), Nat.div_eq_of_lt hx, Nat.zero_add]
  · rw [Nat.add_comm, Nat.add_mul_mod_self_right, Nat.mod_eq_of_lt hx]

theorem index_inj (s : Surface α) (p q : Point) (hp : s.contains p = true) (hq : s.contains q = true)
    (h : s.index p = s.index q) : p = q := by
  have h1 := index_div s p hp
  have h2 := index_div s q hq
  rw [h] at h1
  rw [contains_iff] at hp hq
  have hy : p.y.toNat = q.y.toNat := by rw [← h1.1, h2.1]
  have hx : p.x.toNat = q.x.toNat := by rw [← h1.2, h2.2]
  cases p; cases q
  simp only [Point.mk.injEq]
  simp only at hp hq hx hy
  omega

theorem index_lt (s : Surface α) (p : Point) (hwf : s.WF) (hp : s.contains p = true) :
    s.index p < s.cells.length := by
  rw [hwf]
  rw [contains_iff] at hp
  unfold index
  have hx : p.x.toNat < s.w := by omega
  have hy : p.y.toNat + 1 ≤ s.h := by omega
  calc p.y.toNat * s.w + p.x.toNat < p.y.toNat * s.w + s.w := by omega
    _ = (p.y.toNat + 1) * s.w := by ring
    _ ≤ s.h * s.w := Nat.mul_le_mul_right _ hy
    _ = s.w * s.h := Nat.mul_comm _ _

theorem ref_set [Inhabited α] (s : Surface α) (p q : Point) (v : α) (hwf : s.WF) :
    (s.set p v).ref q = if s.contains p = true ∧ p = q then v else s.ref q := by
  by_cases hp : s.contains p = true
  · by_cases hq : s.contains q = true
    · simp only [ref, contains_set, hq, if_true, hp, true_and]
      simp only [set, hp, if_true, index]
      rw [List.getD_eq_getElem?_getD, List.getD_eq_getElem?_getD, List.getElem?_set]
      by_cases hpq : p = q
      · subst hpq
        have := index_lt s p hwf hp
        simp [index] at this
        simp [this]
      · have hne : s.index p ≠ s.index q := fun h => hpq (index_inj s p q hp hq h)
        simp only [index] at hne
        simp [hne, hpq]
    · have hpq : p ≠ q := fun h => hq (h ▸ hp)
      simp [ref, contains_set, hq, hpq]
  · simp [set, hp]

theorem ref_set_self [Inhabited α] (s : Surface α) (p : Point) (v : α) (hwf : s.WF)
    (hp : s.contains p = true) : (s.set p v).ref p = v := by
  rw [ref_set s p p v hwf]; simp [hp]

theorem ref_set_ne [Inhabited α] (s : Surface α) (p q : Point) (v : α) (hwf : s.WF)
    (hpq : p ≠ q) : (s.set p v).ref q = s.ref q := by
  rw [ref_set s p q v hwf]; simp [hpq]

theorem ref_set_cases [Inhabited α] (s : Surface α) (p q : Point) (v : α) :
    (s.set p v).ref q = s.ref q ∨ (s.set p v).ref q = v := by
  by_cases hc : s.contains p = true
  · by_cases hqc : s.contains q = true
    · simp only [ref, contains_set, hqc, if_true]
      simp only [set, hc, if_true]
      have hidx : ∀ (l : List α), (index { s with cells := l } q) = s.index q := fun _ => rfl
      rw [hidx, List.getD_eq_getElem?_getD, List.getD_eq_getElem?_getD, List.getElem?_set]
      split
      · split
        · exact Or.inr rfl
        · rename_i h1 h2
          left
          have : s.cells[s.index q]? = none := by
            rw [List.getElem?_eq_none_iff]
            omega
          rw [this]
      · exact Or.inl rfl
    · left
      simp [ref, contains_set, hqc]
  · left
    simp only [set, hc]
    rfl

theorem ref_of_not_contains [Inhabited α] (s : Surface α) (p : Point) (hp : s.contains p = false) :
    s.ref p = default := by
  simp [ref, hp]

theorem length_fillFrom (f : Nat → Bool) (v : α) (i : Nat) (l : List α) :
    (fillFrom f v i l).length = l.length := by
  induction l generalizing i with
  | nil => rfl
  | cons c cs ih => simp [fillFrom, ih]

theorem getElem?_fillFrom (f : Nat → Bool) (v : α) (i j : Nat) (l : List α) :
    (fillFrom f v i l)[j]? = (l[j]?).map (fun c => if f (i + j) then v else c) := by
  induction l generalizing i j with
  | nil => simp [fillFrom]
  | cons c cs ih =>
    cases j with
    | zero => simp [fillFrom]
    | succ j =>
      simp only [fillFrom, List.getElem?_cons_succ, ih]
      have : i + 1 + j = i + (j + 1) := by omega
      rw [this]

theorem fill_w (s : Surface α) (r : Rect) (v : α) : (s.fill r v).w = s.w := rfl

theorem fill_h (s : Surface α) (r : Rect) (v : α) : (s.fill r v).h = s.h := rfl

theorem fill_WF (s : Surface α) (r : Rect) (v : α) (hwf : s.WF) : (s.fill r v).WF := by
  unfold WF fill at *
  simp [length_fillFrom, hwf]

theorem contains_fill (s : Surface α) (r : Rect) (v : α) (q : Point) :
    (s.fill r v).contains q = s.contains q := rfl

theorem ref_fill [Inhabited α] (s : Surface α) (r : Rect) (v : α) (q : Point) :
    (s.fill r v).ref q = if s.contains q = true ∧ r.contains q = true then
      (if s.index q < s.cells.length then v else default) else s.ref q := by
  by_cases hq : s.contains q = true
  · have hd := index_div s q hq
    have hq2 := (contains_iff s q).1 hq
    have hpt : (⟨((s.index q % s.w : Nat) : Int), ((s.index q / s.w : Nat) : Int)⟩ : Point) = q := by
      rw [hd.1, hd.2]
      cases q
      simp only [Point.mk.injEq]
      simp only at hq2
      omega
    simp only [ref, contains_fill, hq, if_true, true_and]
    have hidx : (s.fill r v).index q = s.index q := rfl
    rw [hidx]
    simp only [fill, List.getD_eq_getElem?_getD, getElem?_fillFrom, Nat.zero_add, hpt]
    by_cases hlt : s.index q < s.cells.length
    · simp [hlt]
    · have : s.cells[s.index q]? = none := by simp; omega
      simp [this, hlt]
  · simp [ref, contains_fill, hq]

theorem ref_fill_of_WF [Inhabited α] (s : Surface α) (r : Rect) (v : α) (q : Point) (hwf : s.WF) :
    (s.fill r v).ref q = if s.contains q = true ∧ r.contains q = true then v else s.ref q := by
  rw [ref_fill]
  by_cases hq : s.contains q = true
  · have : s.index q < s.cells.length := by
      rw [hwf]
      have hq2 := (contains_iff s q).1 hq
      have hx : q.x.toNat < s.w := by omega
      have hy : q.y.toNat + 1 ≤ s.h := by omega
      unfold index
      calc q.y.toNat * s.w + q.x.toNat < q.y.toNat * s.w + s.w := by omega
        _ = (q.y.toNat + 1) * s.w := by ring
        _ ≤ s.h * s.w := Nat.mul_le_mul_right _ hy
        _ = s.w * s.h := Nat.mul_comm _ _
    simp [this]
  · simp [hq]

theorem fill_full (s : Surface α) (w h : Nat) (v : α) (hwf : s.WF) (hw : s.w = w) (hh : s.h = h) :
    s.fill ⟨⟨0, 0⟩, ⟨w, h⟩⟩ v = ⟨w, h, List.replicate (w * h) v⟩ := by
  subst hw hh
  unfold fill
  congr 1
  apply List.ext_getElem?
  intro j
  rw [getElem?_fillFrom]
  by_cases hj : j < s.w * s.h
  · have hpos : 0 < s.w := by
      rcases Nat.eq_zero_or_pos s.w with h0 | h0
      · rw [h0] at hj; simp at hj
      · exact h0
    have h1 : j % s.w < s.w := Nat.mod_lt _ hpos
    have h2 : j / s.w < s.h := (Nat.div_lt_iff_lt_mul hpos).2 (by rw [Nat.mul_comm]; exact hj)
    have hc : Rect.contains ⟨⟨0, 0⟩, ⟨(s.w : Int), (s.h : Int)⟩⟩ ⟨((0 + j) % s.w : Nat), ((0 + j) / s.w : Nat)⟩ = true := by
      simp only [Rect.contains, Nat.zero_add, decide_eq_true_eq, Int.zero_add]
      refine ⟨Int.ofNat_nonneg _, ?_, Int.ofNat_nonneg _, ?_⟩
      · exact_mod_cast h1
      · exact_mod_cast h2
    have hl : j < s.cells.length := by rw [hwf]; exact hj
    simp only [hc, if_true]
    rw [List.getElem?_eq_getElem hl]
    simp [hj]
  · have hl : ¬ j < s.cells.length := by rw [hwf]; exact hj
    have h1 : s.cells[j]? = none := by simp; omega
    rw [h1]
    simp
    omega

end Surface
/-! ## Runs and their results -/

theorem eq_ok_of_faultOf {α : Type} (d : α) (x : Except Fault α) (h : faultOf x = none) :
    x = Except.ok (resultOr d x) := by
  cases x with
  | error f => simp [faultOf] at h
  | ok a => rfl

/-! ## Determinism -/

theorem reset_new (bits : Nat) (stream : Nat → Nat) (started : Bool) (w : World) (hwf : w.WF) :
    reset (Generator.new bits stream w started) =
      { rng := ⟨stream, 0⟩,
        tiles := ⟨w.tiles.w, w.tiles.h, List.replicate (w.tiles.w * w.tiles.h) Tile.wall⟩,
        regions := ⟨w.tiles.w, w.tiles.h, List.replicate (w.tiles.w * w.tiles.h) (null_region bits)⟩,
        rooms := [], currentRegion := null_region bits, started := started } := by
  obtain ⟨ht, hr, hrw, hrh⟩ := hwf
  simp only [reset, carveRect, Generator.new, Surface.rect, Surface.size]
  rw [Surface.fill_full w.tiles _ _ _ ht rfl rfl, Surface.fill_full w.regions _ _ _ hr hrw hrh]

/-- Two runs that find the static latch of `startRegion` at the same value `started` agree:
for every draw sequence (the sequence of a seed), every parameter set and every two well-formed
worlds of equal grid size, whatever tiles, region ids and rooms they held before, a freshly
constructed generator ends `generate` in the same way on both: the same tile grid, region grid
and room list, or the same fault.  So does `generateTerrain` for every engine and seed. -/
theorem generate_deterministic (bits : Nat) (params : GenParams) (stream : Nat → Nat)
    (engine : Nat → Nat → Nat) (seed : Nat) (started : Bool) (w1 w2 : World)
    (h1 : w1.WF) (h2 : w2.WF) (hw : w1.tiles.w = w2.tiles.w) (hh : w1.tiles.h = w2.tiles.h) :
    generate bits params (Generator.new bits stream w1 started) =
        generate bits params (Generator.new bits stream w2 started) ∧
      generateTerrain bits engine seed w1 started = generateTerrain bits engine seed w2 started := by
  have key : ∀ (ps : GenParams) (st : Nat → Nat),
      generate bits ps (Generator.new bits st w1 started) =
        generate bits ps (Generator.new bits st w2 started) := by
    intro ps st
    simp only [generate, carvePhases]
    rw [reset_new bits st started w1 h1, reset_new bits st started w2 h2, hw, hh]
  exact ⟨key params stream, key terrainParams (engine seed)⟩

/-- An instance of `generate_deterministic`: a 5 by 5 world full of rooms and one full of
paths, with different region ids and room lists. -/
theorem generate_deterministic_witness :
    (World.WF ⟨⟨5, 5, List.replicate 25 Tile.room⟩, ⟨5, 5, List.replicate 25 5⟩, []⟩ ∧
      World.WF ⟨⟨5, 5, List.replicate 25 Tile.path⟩, ⟨5, 5, List.replicate 25 0⟩,
        [⟨⟨1, 1⟩, ⟨1, 1⟩⟩]⟩) ∧
    (generate 16 ⟨3, 3, 2, 100, 0⟩ (Generator.new 16 (drawsOf [1, 2, 3])
          ⟨⟨5, 5, List.replicate 25 Tile.room⟩, ⟨5, 5, List.replicate 25 5⟩, []⟩ false) =
        generate 16 ⟨3, 3, 2, 100, 0⟩ (Generator.new 16 (drawsOf [1, 2, 3])
          ⟨⟨5, 5, List.replicate 25 Tile.path⟩, ⟨5, 5, List.replicate 25 0⟩,
            [⟨⟨1, 1⟩, ⟨1, 1⟩⟩]⟩ false) ∧
      generateTerrain 16 (fun s i => s + i) 42
          ⟨⟨5, 5, List.replicate 25 Tile.room⟩, ⟨5, 5, List.replicate 25 5⟩, []⟩ false =
        generateTerrain 16 (fun s i => s + i) 42
          ⟨⟨5, 5, List.replicate 25 Tile.path⟩, ⟨5, 5, List.replicate 25 0⟩,
            [⟨⟨1, 1⟩, ⟨1, 1⟩⟩]⟩ false) :=
  ⟨⟨by decide, by decide⟩,
    generate_deterministic 16 _ _ _ _ false _ _ (by decide) (by decide) rfl rfl⟩

/-! ## Loop ranges -/

theorem loopNe_one (a b : Int) (h : a ≤ b) :
    ∃ xs, loopNe a b 1 = some xs ∧ ∀ x, x ∈ xs ↔ a ≤ x ∧ x < b := by
  refine ⟨(List.range ((b - a).toNat / 1)).map (fun k => a + ((k * 1 : Nat) : Int)), ?_, ?_⟩
  · simp [loopNe, h]
  · intro x
    simp only [List.mem_map, List.mem_range, Nat.div_one, Nat.mul_one]
    constructor
    · rintro ⟨k, hk, rfl⟩
      omega
    · intro hx
      exact ⟨(x - a).toNat, by omega, by omega⟩

/-! ## Dead ends -/

theorem exits_count (tiles : Surface Tile) (pos : Point) :
    (exits tiles pos).count = openNeighbours tiles pos := by
  simp only [exits, openNeighbours, DirSet.count, cardinal_dirs, List.foldl_cons, List.foldl_nil]
  by_cases h1 : tiles.ref (pos + toPoint Dir.up) = Tile.wall <;>
  by_cases h2 : tiles.ref (pos + toPoint Dir.right) = Tile.wall <;>
  by_cases h3 : tiles.ref (pos + toPoint Dir.down) = Tile.wall <;>
  by_cases h4 : tiles.ref (pos + toPoint Dir.left) = Tile.wall <;>
  simp [h1, h2, h3, h4, DirSet.set, DirSet.test, DirSet.empty, List.filter]

theorem nonWallCount_set_wall (t : Surface Tile) (p : Point) (hwf : t.WF)
    (hp : t.ref p ≠ Tile.wall) : nonWallCount (t.set p Tile.wall) < nonWallCount t := by
  have hc : t.contains p = true := by
    by_contra hc
    simp [Surface.ref, hc] at hp
    exact hp rfl
  have hlt := Surface.index_lt t p hwf hc
  have hget : t.cells[t.index p] ≠ Tile.wall := by
    simp only [Surface.ref, hc, if_true, List.getD_eq_getElem?_getD, List.getElem?_eq_getElem hlt,
      Option.getD_some] at hp
    exact hp
  simp only [nonWallCount, Surface.set, hc, if_true]
  rw [List.countP_set _ _ _ _ hlt]
  have hpos : 0 < List.countP (fun c => decide (c ≠ Tile.wall)) t.cells :=
    List.countP_pos_iff.2 ⟨_, List.getElem_mem hlt, by simpa using hget⟩
  have h1 : (decide (t.cells[t.index p] ≠ Tile.wall)) = true := by simpa using hget
  have h2 : (decide (Tile.wall ≠ Tile.wall)) = false := by decide
  simp only [h1, h2, if_true]
  simp only [Bool.false_eq_true, if_false, Nat.add_zero]
  omega

theorem PassRel.refl (a : Surface Tile × Bool) : PassRel a a :=
  ⟨rfl, rfl, id, fun _ => Or.inl rfl, Or.inl rfl⟩

theorem PassRel.walls {a b : Surface Tile × Bool} (h : PassRel a b) (q : Point)
    (hq : a.1.ref q = Tile.wall) : b.1.ref q = Tile.wall := by
  rcases h.2.2.2.1 q with h1 | h1
  · rw [h1]; exact hq
  · exact h1

theorem PassRel.trans {a b c : Surface Tile × Bool} (h1 : PassRel a b) (h2 : PassRel b c) :
    PassRel a c := by
  obtain ⟨hw1, hh1, hwf1, hm1, hd1⟩ := h1
  obtain ⟨hw2, hh2, hwf2, hm2, hd2⟩ := h2
  refine ⟨hw2.trans hw1, hh2.trans hh1, fun h => hwf2 (hwf1 h), fun q => ?_, ?_⟩
  · rcases hm2 q with e2 | e2
    · rcases hm1 q with e1 | e1
      · exact Or.inl (e2.trans e1)
      · exact Or.inr (e2.trans e1)
    · exact Or.inr e2
  rcases hd2 with rfl | ⟨hf2, hlt2⟩
  · exact hd1
  · right
    refine ⟨hf2, fun hwf => ?_⟩
    rcases hd1 with rfl | ⟨_, hlt1⟩
    · exact hlt2 hwf
    · exact lt_trans (hlt2 (hwf1 hwf)) (hlt1 hwf)

theorem deadEndCell_rel (y x : Int) (st : Surface Tile × Bool) :
    PassRel st (deadEndCell y st x) := by
  unfold deadEndCell
  split
  · exact PassRel.refl st
  · rename_i hne
    split
    · refine ⟨Surface.set_w _ _ _, Surface.set_h _ _ _, Surface.set_WF _ _ _,
        fun q => Surface.ref_set_cases _ _ _ _, ?_⟩
      · right
        exact ⟨rfl, fun hwf => nonWallCount_set_wall _ _ hwf hne⟩
    · exact PassRel.refl st

theorem deadEndCell_done (y x : Int) (st : Surface Tile × Bool)
    (h : (deadEndCell y st x).2 = true) :
    deadEndCell y st x = st ∧ (st.1.ref ⟨x, y⟩ ≠ Tile.wall → (exits st.1 ⟨x, y⟩).count ≠ 1) := by
  unfold deadEndCell at h ⊢
  split
  · rename_i hw
    exact ⟨rfl, fun hne => absurd hw hne⟩
  · split
    · rename_i h1
      simp [h1] at h
      rename_i hnw
      simp [hnw] at h
    · rename_i h1
      exact ⟨rfl, fun _ => h1⟩

theorem deadEndCells_rel (y : Int) (xs : List Int) (st : Surface Tile × Bool) :
    PassRel st (xs.foldl (deadEndCell y) st) := by
  induction xs generalizing st with
  | nil => exact PassRel.refl st
  | cons x xs ih => exact PassRel.trans (deadEndCell_rel y x st) (ih _)

theorem deadEndCells_flag (y : Int) (xs : List Int) (st : Surface Tile × Bool)
    (h : (xs.foldl (deadEndCell y) st).2 = true) : st.2 = true := by
  rcases (deadEndCells_rel y xs st).2.2.2.2 with heq | ⟨hf, _⟩
  · rw [heq] at h; exact h
  · rw [hf] at h; cases h

theorem deadEndCells_done (y : Int) (xs : List Int) (st : Surface Tile × Bool)
    (h : (xs.foldl (deadEndCell y) st).2 = true) :
    xs.foldl (deadEndCell y) st = st ∧
      ∀ x ∈ xs, st.1.ref ⟨x, y⟩ ≠ Tile.wall → (exits st.1 ⟨x, y⟩).count ≠ 1 := by
  induction xs generalizing st with
  | nil => exact ⟨rfl, fun x hx => by cases hx⟩
  | cons x xs ih =>
    simp only [List.foldl_cons] at h ⊢
    obtain ⟨heq, hall⟩ := ih _ h
    have hflag : (deadEndCell y st x).2 = true := by rw [← heq]; exact h
    obtain ⟨hcell, hx⟩ := deadEndCell_done y x st hflag
    rw [heq, hcell]
    refine ⟨rfl, ?_⟩
    intro x' hx'
    rcases List.mem_cons.1 hx' with rfl | hmem
    · exact hx
    · have := hall x' hmem
      rw [hcell] at this
      exact this

theorem PassRel.flag {a b : Surface Tile × Bool} (h : PassRel a b) (hb : b.2 = true) : b = a := by
  rcases h.2.2.2.2 with heq | ⟨hf, _⟩
  · exact heq
  · rw [hf] at hb; cases hb

theorem deadEndRow_spec (st : Surface Tile × Bool) (y : Int) (hw : 2 ≤ st.1.w) :
    ∃ st', deadEndRow st y = Except.ok st' ∧ PassRel st st' ∧
      (st'.2 = true → ∀ x : Int, 1 ≤ x → x < (st.1.w : Int) - 1 →
        st.1.ref ⟨x, y⟩ ≠ Tile.wall → (exits st.1 ⟨x, y⟩).count ≠ 1) := by
  obtain ⟨xs, hxs, hmem⟩ := loopNe_one 1 (st.1.width - 1) (by simp only [Surface.width]; omega)
  refine ⟨xs.foldl (deadEndCell y) st, ?_, deadEndCells_rel y xs st, ?_⟩
  · simp only [deadEndRow, hxs]
  · intro hflag x hx1 hx2
    exact (deadEndCells_done y xs st hflag).2 x ((hmem x).2 ⟨hx1, hx2⟩)

theorem deadEndRows_spec (ys : List Int) (st : Surface Tile × Bool) (hw : 2 ≤ st.1.w) :
    ∃ st', ys.foldlM deadEndRow st = Except.ok st' ∧ PassRel st st' ∧
      (st'.2 = true → ∀ y ∈ ys, ∀ x : Int, 1 ≤ x → x < (st.1.w : Int) - 1 →
        st.1.ref ⟨x, y⟩ ≠ Tile.wall → (exits st.1 ⟨x, y⟩).count ≠ 1) := by
  induction ys generalizing st with
  | nil => exact ⟨st, rfl, PassRel.refl st, fun _ y hy => by cases hy⟩
  | cons y ys ih =>
    obtain ⟨st1, hrow, hrel1, hdone1⟩ := deadEndRow_spec st y hw
    obtain ⟨st2, hrest, hrel2, hdone2⟩ := ih st1 (by rw [hrel1.1]; exact hw)
    refine ⟨st2, ?_, PassRel.trans hrel1 hrel2, ?_⟩
    · simp only [List.foldlM_cons, hrow, bind, Except.bind]
      exact hrest
    · intro hflag y' hy' x hx1 hx2
      have h21 : st2 = st1 := PassRel.flag hrel2 hflag
      have hflag1 : st1.2 = true := by rw [← h21]; exact hflag
      have h10 : st1 = st := PassRel.flag hrel1 hflag1
      rcases List.mem_cons.1 hy' with rfl | hmem
      · exact hdone1 hflag1 x hx1 hx2
      · have := hdone2 hflag y' hmem x hx1 (by rw [h10]; exact hx2)
        rw [h10] at this
        exact this

theorem deadEndPass_spec (t : Surface Tile) (hw : 2 ≤ t.w) (hh : 2 ≤ t.h) :
    ∃ st', deadEndPass t = Except.ok st' ∧ PassRel (t, true) st' ∧
      (st'.2 = true → ∀ x y : Int, 1 ≤ x → x < (t.w : Int) - 1 → 1 ≤ y → y < (t.h : Int) - 1 →
        t.ref ⟨x, y⟩ ≠ Tile.wall → (exits t ⟨x, y⟩).count ≠ 1) := by
  obtain ⟨ys, hys, hmem⟩ := loopNe_one 1 (t.height - 1) (by simp only [Surface.height]; omega)
  obtain ⟨st', hrows, hrel, hdone⟩ := deadEndRows_spec ys (t, true) hw
  refine ⟨st', ?_, hrel, ?_⟩
  · simp only [deadEndPass, hys]
    exact hrows
  · intro hflag x y hx1 hx2 hy1 hy2
    exact hdone hflag y ((hmem y).2 ⟨hy1, hy2⟩) x hx1 hx2

/-- A grid that a pass of `removeDeadEnds` leaves alone. -/
theorem deadEndLoop_spec (n : Nat) (t : Surface Tile) (hwf : t.WF) (hw : 2 ≤ t.w) (hh : 2 ≤ t.h)
    (hn : nonWallCount t < n) :
    ∃ t', deadEndLoop n t = Except.ok t' ∧ t'.w = t.w ∧ t'.h = t.h ∧ t'.WF ∧
      (∀ q, t'.ref q = t.ref q ∨ t'.ref q = Tile.wall) ∧
      deadEndPass t' = Except.ok (t', true) := by
  induction n generalizing t with
  | zero => omega
  | succ n ih =>
    obtain ⟨st', hpass, hrel, _⟩ := deadEndPass_spec t hw hh
    obtain ⟨t1, done⟩ := st'
    cases done with
    | true =>
      have heq : (t1, true) = (t, true) := PassRel.flag hrel rfl
      have ht : t1 = t := congrArg Prod.fst heq
      subst ht
      exact ⟨t1, by simp only [deadEndLoop, hpass, if_true], rfl, rfl, hwf, fun _ => Or.inl rfl,
        hpass⟩
    | false =>
      obtain ⟨hw1, hh1, hwf1, hm1, hd1⟩ := hrel
      have hlt : nonWallCount t1 < nonWallCount t := by
        rcases hd1 with heq | ⟨_, hlt⟩
        · cases heq
        · exact hlt hwf
      obtain ⟨t', hloop, hw', hh', hwf', hm', hstable⟩ :=
        ih t1 (hwf1 hwf) (by simp only at hw1; omega) (by simp only at hh1; omega) (by omega)
      refine ⟨t', ?_, hw'.trans hw1, hh'.trans hh1, hwf', fun q => ?_, hstable⟩
      · simp only [deadEndLoop, hpass]
        exact hloop
      · rcases hm' q with e2 | e2
        · rcases hm1 q with e1 | e1
          · exact Or.inl (e2.trans e1)
          · exact Or.inr (e2.trans e1)
        · exact Or.inr e2

theorem nonWallCount_le (t : Surface Tile) : nonWallCount t ≤ t.cells.length :=
  List.countP_le_length _

theorem removeDeadEndsTiles_spec (t : Surface Tile) (hwf : t.WF) (hw : 1 < t.w) (hh : 1 < t.h) :
    ∃ t', removeDeadEndsTiles t = Except.ok t' ∧ t'.w = t.w ∧ t'.h = t.h ∧ t'.WF ∧
      (∀ q, t'.ref q = t.ref q ∨ t'.ref q = Tile.wall) ∧
      deadEndPass t' = Except.ok (t', true) :=
  deadEndLoop_spec _ t hwf hw hh (Nat.lt_succ_of_le (nonWallCount_le t))

theorem removeDeadEndsTiles_stable (t : Surface Tile) (h : deadEndPass t = Except.ok (t, true)) :
    removeDeadEndsTiles t = Except.ok t := by
  simp only [removeDeadEndsTiles, deadEndLoop, h, if_true]

theorem borderWall_ref (t : Surface Tile) (hb : BorderWall t) (p : Point)
    (hp : t.contains p = true)
    (hedge : p.x = 0 ∨ p.x = (t.w : Int) - 1 ∨ p.y = 0 ∨ p.y = (t.h : Int) - 1) :
    t.ref p = Tile.wall := by
  have hc := (Surface.contains_iff t p).1 hp
  have := hb p.x.toNat (by omega) p.y.toNat (by omega) (by omega)
  have hpt : (⟨(p.x.toNat : Int), (p.y.toNat : Int)⟩ : Point) = p := by
    cases p
    simp only [Point.mk.injEq]
    simp only at hc
    omega
  rw [hpt] at this
  exact this

/-- C2 (dead-end freedom): for every tile grid with full storage, both dimensions above 1
(as `initializeWorld` asserts; odd or not) and an all-wall border, `removeDeadEnds` returns a
grid in which no cell that is not wall has exactly one cardinal neighbour that is not wall, and
running `removeDeadEnds` on that result returns it unchanged. -/

theorem removeDeadEnds_dead_end_free (g : Generator) (hwf : g.tiles.WF) (hw : 1 < g.tiles.w)
    (hh : 1 < g.tiles.h) (hb : BorderWall g.tiles) :
    ∃ g', removeDeadEnds g = Except.ok g' ∧
      (∀ p, g'.tiles.ref p ≠ Tile.wall → openNeighbours g'.tiles p ≠ 1) ∧
      removeDeadEnds g' = Except.ok g' := by
  obtain ⟨t', hrun, hw', hh', hwf', hmono, hstable⟩ := removeDeadEndsTiles_spec g.tiles hwf hw hh
  refine ⟨{ g with tiles := t' }, ?_, ?_, ?_⟩
  · simp only [removeDeadEnds, hrun]
  · intro p hp
    simp only at hp ⊢
    have hc : t'.contains p = true := by
      by_contra hc
      exact hp (by simp [Surface.ref, hc]; rfl)
    have hc0 : g.tiles.contains p = true := by
      simpa [Surface.contains, hw', hh'] using hc
    have hc1 := (Surface.contains_iff g.tiles p).1 hc0
    have hedge : ¬ (p.x = 0 ∨ p.x = (g.tiles.w : Int) - 1 ∨ p.y = 0 ∨ p.y = (g.tiles.h : Int) - 1) :=
      fun hedge => hp (by
        rcases hmono p with e | e
        · rw [e]; exact borderWall_ref g.tiles hb p hc0 hedge
        · exact e)
    obtain ⟨st', hpass, _, hdone⟩ := deadEndPass_spec t' (by omega) (by omega)
    rw [hstable] at hpass
    have hst : st' = (t', true) := (Except.ok.inj hpass).symm
    have := hdone (by rw [hst]) p.x p.y (by omega) (by rw [hw']; omega) (by omega) (by rw [hh']; omega) hp
    rw [exits_count] at this
    exact this
  · simp only [removeDeadEnds, removeDeadEndsTiles_stable t' hstable]

/-- Witness for C2: a 5 by 5 grid with a corridor of three cells, a dead end. -/
theorem removeDeadEnds_dead_end_free_witness :
    (Surface.WF (⟨5, 5, [Tile.wall, Tile.wall, Tile.wall, Tile.wall, Tile.wall,
        Tile.wall, Tile.path, Tile.path, Tile.path, Tile.wall,
        Tile.wall, Tile.wall, Tile.wall, Tile.wall, Tile.wall,
        Tile.wall, Tile.room, Tile.wall, Tile.wall, Tile.wall,
        Tile.wall, Tile.wall, Tile.wall, Tile.wall, Tile.wall]⟩ : Surface Tile) ∧
      BorderWall ⟨5, 5, [Tile.wall, Tile.wall, Tile.wall, Tile.wall, Tile.wall,
        Tile.wall, Tile.path, Tile.path, Tile.path, Tile.wall,
        Tile.wall, Tile.wall, Tile.wall, Tile.wall, Tile.wall,
        Tile.wall, Tile.room, Tile.wall, Tile.wall, Tile.wall,
        Tile.wall, Tile.wall, Tile.wall, Tile.wall, Tile.wall]⟩) ∧
    ∃ g', removeDeadEnds ⟨⟨drawsOf [], 0⟩, ⟨5, 5, [Tile.wall, Tile.wall, Tile.wall, Tile.wall, Tile.wall,
        Tile.wall, Tile.path, Tile.path, Tile.path, Tile.wall,
        Tile.wall, Tile.wall, Tile.wall, Tile.wall, Tile.wall,
        Tile.wall, Tile.room, Tile.wall, Tile.wall, Tile.wall,
        Tile.wall, Tile.wall, Tile.wall, Tile.wall, Tile.wall]⟩, ⟨5, 5, []⟩, [], 0, false⟩ = Except.ok g' ∧
      (∀ p, g'.tiles.ref p ≠ Tile.wall → openNeighbours g'.tiles p ≠ 1) ∧
      removeDeadEnds g' = Except.ok g' :=
  ⟨⟨by decide, by decide⟩,
    removeDeadEnds_dead_end_free _ (by decide) (by decide) (by decide) (by decide)⟩

/-! ## Truncating division by two -/

theorem tdiv_two_cases (a : Int) :
    (0 ≤ a ∧ a.tdiv 2 = a / 2) ∨ (a < 0 ∧ a.tdiv 2 = -((-a) / 2)) := by
  rcases le_or_lt 0 a with h | h
  · exact Or.inl ⟨h, Int.tdiv_eq_ediv h (by norm_num)⟩
  · right
    refine ⟨h, ?_⟩
    have h1 : a.tdiv 2 = -((-a).tdiv 2) := by rw [Int.neg_tdiv, neg_neg]
    rw [h1, Int.tdiv_eq_ediv (by omega) (by norm_num)]

theorem tmod_two_eq_one (a : Int) : a.tmod 2 = 1 ↔ (a % 2 = 1 ∧ 0 < a) := by
  rw [Int.tmod_def]
  rcases tdiv_two_cases a with ⟨h, e⟩ | ⟨h, e⟩ <;> omega

theorem tmod_two_eq_zero (a : Int) : a.tmod 2 = 0 ↔ a % 2 = 0 := by
  rw [Int.tmod_def]
  rcases tdiv_two_cases a with ⟨h, e⟩ | ⟨h, e⟩ <;> omega

/-! ## The random source -/

theorem oddInt_ok (r r1 : RNG) (lo hi v : Int) (h : r.oddInt lo hi = Except.ok (v, r1)) :
    lo ≤ v ∧ v ≤ hi ∧ v % 2 = 1 := by
  by_cases hlo : lo.tmod 2 = 0
  · have hlo2 := (tmod_two_eq_zero lo).1 hlo
    simp only [RNG.oddInt, hlo, if_true] at h
    split at h
    · cases h
    · rename_i hle
      have hv := (Prod.mk.inj (Except.ok.inj h)).1
      have hd := tdiv_two_cases (hi - (lo + 1))
      have hcount : 0 < ((hi - (lo + 1)).tdiv 2 + 1).toNat := by omega
      have hm := Nat.mod_lt (r.next).1 hcount
      have hm2 : (((r.next).1 % ((hi - (lo + 1)).tdiv 2 + 1).toNat : Nat) : Int) <
          (hi - (lo + 1)).tdiv 2 + 1 := by omega
      omega
  · have hlo2 : lo % 2 = 1 := by
      have := (tmod_two_eq_zero lo).not.1 hlo
      omega
    simp only [RNG.oddInt, hlo, if_false] at h
    split at h
    · cases h
    · rename_i hle
      have hv := (Prod.mk.inj (Except.ok.inj h)).1
      have hd := tdiv_two_cases (hi - lo)
      have hcount : 0 < ((hi - lo).tdiv 2 + 1).toNat := by omega
      have hm := Nat.mod_lt (r.next).1 hcount
      have hm2 : (((r.next).1 % ((hi - lo).tdiv 2 + 1).toNat : Nat) : Int) <
          (hi - lo).tdiv 2 + 1 := by omega
      omega

theorem oddSize_ok (r r1 : RNG) (lo hi : Int) (size : Size)
    (h : r.oddSize lo hi = Except.ok (size, r1)) :
    lo ≤ size.w ∧ size.w ≤ hi ∧ size.w % 2 = 1 ∧ lo ≤ size.h ∧ size.h ≤ hi ∧ size.h % 2 = 1 := by
  unfold RNG.oddSize at h
  split at h
  · cases h
  · rename_i w ra hw
    split at h
    · cases h
    · rename_i hh rb hh'
      have := (Prod.mk.inj (Except.ok.inj h)).1
      subst this
      have h1 := oddInt_ok _ _ _ _ _ hw
      have h2 := oddInt_ok _ _ _ _ _ hh'
      exact ⟨h1.1, h1.2.1, h1.2.2, h2.1, h2.2.1, h2.2.2⟩

theorem oddPoint_ok (r r1 : RNG) (bound : Size) (pos : Point)
    (h : r.oddPoint bound = Except.ok (pos, r1)) :
    1 ≤ pos.x ∧ pos.x < bound.w ∧ pos.x % 2 = 1 ∧ 1 ≤ pos.y ∧ pos.y < bound.h ∧ pos.y % 2 = 1 := by
  unfold RNG.oddPoint at h
  split at h
  · cases h
  · rename_i x ra hx
    split at h
    · cases h
    · rename_i y rb hy
      have := (Prod.mk.inj (Except.ok.inj h)).1
      subst this
      have h1 := oddInt_ok _ _ _ _ _ hx
      have h2 := oddInt_ok _ _ _ _ _ hy
      simp only
      omega

/-! ## Rooms -/

theorem Rect.intersects_comm (a b : Rect) : Rect.intersects a b = Rect.intersects b a := by
  simp only [Rect.intersects, max_comm a.p.x, min_comm (a.p.x + a.s.w), max_comm a.p.y,
    min_comm (a.p.y + a.s.h)]

theorem startRegion_ok (bits : Nat) (g g1 : Generator) (h : startRegion bits g = Except.ok g1) :
    g1 = { g with currentRegion := (g.currentRegion + 1) % 2 ^ bits, started := true } ∧
      ¬ (g.started = true ∧ (g.currentRegion + 1) % 2 ^ bits = 0) := by
  unfold startRegion at h
  simp only at h
  split at h
  · cases h
  · rename_i hc
    refine ⟨(Except.ok.inj h).symm, ?_⟩
    simpa using hc

/-- What a completed pass through the loop body of `placeRooms` did. -/
theorem roomAttempt_ok (bits : Nat) (params : GenParams) (g g' : Generator)
    (h : roomAttempt bits params g = Except.ok g') :
    ∃ size pos rng1 rng2,
      g.rng.oddSize params.roomSizeMin params.roomSizeMax = Except.ok (size, rng1) ∧
      rng1.oddPoint (g.tiles.size - size) = Except.ok (pos, rng2) ∧
      ((g.rooms.any (fun room => Rect.intersects ⟨pos, size⟩ room) = true ∧
          g' = { g with rng := rng2 }) ∨
        (g.rooms.any (fun room => Rect.intersects ⟨pos, size⟩ room) = false ∧
          ∃ g1, startRegion bits { g with rng := rng2, rooms := g.rooms ++ [⟨pos, size⟩] } =
              Except.ok g1 ∧
            g' = carveRect g1 ⟨pos, size⟩ Tile.room)) := by
  unfold roomAttempt at h
  split at h
  · cases h
  · rename_i size rng1 hsize
    split at h
    · cases h
    · rename_i pos rng2 hpos
      refine ⟨size, pos, rng1, rng2, hsize, hpos, ?_⟩
      split at h
      · rename_i hany
        exact Or.inl ⟨hany, (Except.ok.inj h).symm⟩
      · rename_i hany
        right
        refine ⟨by simpa using hany, ?_⟩
        split at h
        · cases h
        · rename_i g1 hstart
          exact ⟨g1, hstart, (Except.ok.inj h).symm⟩

/-- An invariant of the loop body of `placeRooms` holds after the loop. -/
theorem placeRoomsLoop_induct (bits : Nat) (params : GenParams) (Inv : Generator → Prop)
    (hstep : ∀ g g', Inv g → roomAttempt bits params g = Except.ok g' → Inv g')
    (d : Nat) (g g' : Generator) (hg : Inv g)
    (h : placeRoomsLoop bits params d g = Except.ok g') : Inv g' := by
  induction d generalizing g with
  | zero =>
    simp only [placeRoomsLoop] at h
    cases h
    exact hg
  | succ d ih =>
    simp only [placeRoomsLoop] at h
    split at h
    · cases h
    · rename_i g1 h1
      exact ih g1 (hstep g g1 hg h1) h

/-- What the assertions of `placeRooms` establish. -/
theorem placeRooms_ok (bits : Nat) (params : GenParams) (g g' : Generator)
    (h : placeRooms bits params g = Except.ok g') :
    (params.roomSizeMin % 2 = 1 ∧ 0 < params.roomSizeMin) ∧
      (params.roomSizeMax % 2 = 1 ∧ 0 < params.roomSizeMax) ∧
      params.roomSizeMin ≤ g.tiles.width - 2 ∧ params.roomSizeMin ≤ g.tiles.height - 2 ∧
      0 < params.roomDensity ∧
      placeRoomsLoop bits params params.roomDensity.toNat g = Except.ok g' := by
  unfold placeRooms at h
  split at h
  · cases h
  · rename_i h1
    split at h
    · cases h
    · rename_i h2
      split at h
      · cases h
      · rename_i h3
        split at h
        · cases h
        · rename_i h4
          split at h
          · cases h
          · rename_i h5
            refine ⟨(tmod_two_eq_one _).1 (not_not.1 h1), (tmod_two_eq_one _).1 (not_not.1 h2),
              not_not.1 h3, not_not.1 h4, ?_, h⟩
            have := not_not.1 h5
            exact this

theorem roomAttempt_roomsOK (bits : Nat) (params : GenParams) (g g' : Generator)
    (hg : RoomsOK params g.rooms) (h : roomAttempt bits params g = Except.ok g') :
    RoomsOK params g'.rooms := by
  obtain ⟨size, pos, rng1, rng2, hsize, _, hcase⟩ := roomAttempt_ok bits params g g' h
  rcases hcase with ⟨_, rfl⟩ | ⟨hany, g1, hstart, rfl⟩
  · exact hg
  · obtain ⟨rfl, _⟩ := startRegion_ok bits _ _ hstart
    simp only [carveRect]
    have hs := oddSize_ok _ _ _ _ _ hsize
    have hnone : ∀ room ∈ g.rooms, Rect.intersects ⟨pos, size⟩ room = false := by
      intro room hroom
      have := List.any_eq_false.1 hany room hroom
      simpa using this
    refine ⟨?_, ?_⟩
    · rw [List.pairwise_append]
      refine ⟨hg.1, List.pairwise_singleton _ _, ?_⟩
      intro a ha b hb
      rw [List.mem_singleton] at hb
      subst hb
      rw [Rect.intersects_comm]
      exact hnone a ha
    · intro r hr
      rcases List.mem_append.1 hr with hr | hr
      · exact hg.2 r hr
      · rw [List.mem_singleton] at hr
        subst hr
        exact ⟨hs.2.2.1, hs.2.2.2.2.2, hs.1, hs.2.1, hs.2.2.2.1, hs.2.2.2.2.1⟩

/-- C3 (non-overlap): for every parameter set and every sequence of draws, when `placeRooms`
runs on a generator with an empty room list (line 43 clears it) and completes, no two distinct
entries of the room list intersect and every entry has odd width and height within
`[roomSizeMin, roomSizeMax]`. -/

theorem placeRooms_non_overlap (bits : Nat) (params : GenParams) (g g' : Generator)
    (hrooms : g.rooms = []) (h : placeRooms bits params g = Except.ok g') :
    (∀ (i j : Nat) (hi : i < g'.rooms.length) (hj : j < g'.rooms.length), i ≠ j →
        Rect.intersects g'.rooms[i] g'.rooms[j] = false) ∧
      ∀ r ∈ g'.rooms, r.s.w % 2 = 1 ∧ r.s.h % 2 = 1 ∧
        params.roomSizeMin ≤ r.s.w ∧ r.s.w ≤ params.roomSizeMax ∧
        params.roomSizeMin ≤ r.s.h ∧ r.s.h ≤ params.roomSizeMax := by
  obtain ⟨_, _, _, _, _, hloop⟩ := placeRooms_ok bits params g g' h
  have hinv : RoomsOK params g'.rooms :=
    placeRoomsLoop_induct bits params (fun g => RoomsOK params g.rooms)
      (fun a b ha hab => roomAttempt_roomsOK bits params a b ha hab) _ g g'
      (by show RoomsOK params g.rooms; rw [hrooms]; exact ⟨List.Pairwise.nil, fun r hr => by cases hr⟩) hloop
  refine ⟨?_, hinv.2⟩
  intro i j hi hj hij
  have hp := List.pairwise_iff_getElem.1 hinv.1
  rcases Nat.lt_or_gt_of_ne hij with hlt | hgt
  · exact hp i j hi hj hlt
  · rw [Rect.intersects_comm]
    exact hp j i hj hi hgt

/-! ## Counting open cells -/

theorem countP_le_of_imp {α : Type} (p : α → Bool) (l l' : List α) (hlen : l.length = l'.length)
    (himp : ∀ (i : Nat) (h : i < l.length) (h' : i < l'.length), p l[i] = true → p l'[i] = true) :
    l.countP p ≤ l'.countP p := by
  induction l generalizing l' with
  | nil => simp
  | cons a l ih =>
    cases l' with
    | nil => simp at hlen
    | cons b l' =>
      have hlen' : l.length = l'.length := by simpa using hlen
      have hrest := ih l' hlen' (fun i h h' hp => by
        have := himp (i + 1) (by simp; omega) (by simp; omega)
        simpa using this hp)
      have hhead := himp 0 (by simp) (by simp)
      simp only [List.getElem_cons_zero] at hhead
      simp only [List.countP_cons]
      by_cases ha : p a = true
      · simp only [ha, hhead ha, if_true]
        omega
      · have ha' : p a = false := by simpa using ha
        simp only [ha', Bool.false_eq_true, if_false]
        split <;> omega

theorem countP_lt_of_imp {α : Type} (p : α → Bool) (l l' : List α) (hlen : l.length = l'.length)
    (himp : ∀ (i : Nat) (h : i < l.length) (h' : i < l'.length), p l[i] = true → p l'[i] = true)
    (k : Nat) (hk : k < l.length) (hk' : k < l'.length) (h1 : p l[k] = false)
    (h2 : p l'[k] = true) : l.countP p < l'.countP p := by
  induction l generalizing l' k with
  | nil => simp at hk
  | cons a l ih =>
    cases l' with
    | nil => simp at hlen
    | cons b l' =>
      have hlen' : l.length = l'.length := by simpa using hlen
      have himp' : ∀ (i : Nat) (h : i < l.length) (h' : i < l'.length),
          p l[i] = true → p l'[i] = true := fun i h h' hp => by
        have := himp (i + 1) (by simp; omega) (by simp; omega)
        simpa using this hp
      have hhead := himp 0 (by simp) (by simp)
      simp only [List.getElem_cons_zero] at hhead
      simp only [List.countP_cons]
      cases k with
      | zero =>
        simp only [List.getElem_cons_zero] at h1 h2
        have hrest := countP_le_of_imp p l l' hlen' himp'
        simp only [h1, h2, if_true]
        simp
        omega
      | succ k =>
        simp only [List.getElem_cons_succ] at h1 h2
        have hrest := ih l' hlen' himp' k (by simpa using hk) (by simpa using hk') h1 h2
        by_cases ha : p a = true
        · simp only [ha, hhead ha, if_true]
          omega
        · have ha' : p a = false := by simpa using ha
          simp only [ha', Bool.false_eq_true, if_false]
          split <;> omega

theorem Surface.cells_getElem (s : Surface Tile) (hwf : s.WF) (i : Nat) (hi : i < s.cells.length) :
    s.contains ⟨((i % s.w : Nat) : Int), ((i / s.w : Nat) : Int)⟩ = true ∧
      s.cells[i] = s.ref ⟨((i % s.w : Nat) : Int), ((i / s.w : Nat) : Int)⟩ := by
  have hi' : i < s.w * s.h := by rw [← hwf]; exact hi
  have hpos : 0 < s.w := by
    rcases Nat.eq_zero_or_pos s.w with h0 | h0
    · rw [h0] at hi'; simp at hi'
    · exact h0
  have h1 : i % s.w < s.w := Nat.mod_lt _ hpos
  have h2 : i / s.w < s.h := (Nat.div_lt_iff_lt_mul hpos).2 (by rw [Nat.mul_comm]; exact hi')
  have hc : s.contains ⟨((i % s.w : Nat) : Int), ((i / s.w : Nat) : Int)⟩ = true := by
    rw [Surface.contains_iff]
    refine ⟨Int.ofNat_nonneg _, ?_, Int.ofNat_nonneg _, ?_⟩
    · show ((i % s.w : Nat) : Int) < s.w
      exact_mod_cast h1
    · show ((i / s.w : Nat) : Int) < s.h
      exact_mod_cast h2
  refine ⟨hc, ?_⟩
  have hidx : s.index ⟨((i % s.w : Nat) : Int), ((i / s.w : Nat) : Int)⟩ = i := by
    simp only [Surface.index, Int.toNat_ofNat]
    rw [Nat.mul_comm]
    exact Nat.div_add_mod i s.w
  simp only [Surface.ref, hc, if_true, hidx, List.getD_eq_getElem?_getD,
    List.getElem?_eq_getElem hi, Option.getD_some]

theorem nonWallCount_mono (s s' : Surface Tile) (hwf : s.WF) (hwf' : s'.WF) (hw : s'.w = s.w)
    (hh : s'.h = s.h) (hmono : ∀ p, s.ref p ≠ Tile.wall → s'.ref p ≠ Tile.wall) :
    nonWallCount s ≤ nonWallCount s' := by
  have hlen : s.cells.length = s'.cells.length := by rw [hwf, hwf', hw, hh]
  apply countP_le_of_imp _ _ _ hlen
  intro i h h' hp
  have h1 := (Surface.cells_getElem s hwf i h).2
  have h2 := (Surface.cells_getElem s' hwf' i h').2
  rw [hw] at h2
  rw [h1] at hp
  rw [h2]
  simpa using hmono _ (by simpa using hp)

theorem nonWallCount_lt (s s' : Surface Tile) (hwf : s.WF) (hwf' : s'.WF) (hw : s'.w = s.w)
    (hh : s'.h = s.h) (hmono : ∀ p, s.ref p ≠ Tile.wall → s'.ref p ≠ Tile.wall)
    (p : Point) (hp : s.contains p = true) (h1 : s.ref p = Tile.wall)
    (h2 : s'.ref p ≠ Tile.wall) : nonWallCount s < nonWallCount s' := by
  have hlen : s.cells.length = s'.cells.length := by rw [hwf, hwf', hw, hh]
  have hk := Surface.index_lt s p hwf hp
  have hp' : s'.contains p = true := by simpa [Surface.contains, hw, hh] using hp
  have hk' : s'.index p < s'.cells.length := Surface.index_lt s' p hwf' hp'
  have hidx : s'.index p = s.index p := by simp [Surface.index, hw]
  rw [hidx] at hk'
  apply countP_lt_of_imp _ _ _ hlen _ (s.index p) hk hk'
  · simp only [Surface.ref, hp, if_true, List.getD_eq_getElem?_getD,
      List.getElem?_eq_getElem hk, Option.getD_some] at h1
    simp [h1]
  · simp only [Surface.ref, hp', if_true, hidx, List.getD_eq_getElem?_getD,
      List.getElem?_eq_getElem hk', Option.getD_some] at h2
    simpa using h2
  · intro i h h' hq
    have e1 := (Surface.cells_getElem s hwf i h).2
    have e2 := (Surface.cells_getElem s' hwf' i h').2
    rw [hw] at e2
    rw [e1] at hq
    rw [e2]
    simpa using hmono _ (by simpa using hq)

theorem ref_wall_of_nonWallCount_zero (s : Surface Tile) (hwf : s.WF) (h0 : nonWallCount s = 0)
    (p : Point) : s.ref p = Tile.wall := by
  by_cases hp : s.contains p = true
  · have hk := Surface.index_lt s p hwf hp
    simp only [Surface.ref, hp, if_true, List.getD_eq_getElem?_getD,
      List.getElem?_eq_getElem hk, Option.getD_some]
    have := List.countP_eq_zero.1 h0 _ (List.getElem_mem hk)
    simpa using this
  · simp only [Surface.ref, hp]
    rfl

theorem nonWallCount_replicate (w h n : Nat) :
    nonWallCount ⟨w, h, List.replicate n Tile.wall⟩ = 0 := by
  simp [nonWallCount, List.countP_eq_zero]

/-! ## The carving invariant -/

theorem rect_contains_iff (r : Rect) (q : Point) :
    r.contains q = true ↔
      r.p.x ≤ q.x ∧ q.x < r.p.x + r.s.w ∧ r.p.y ≤ q.y ∧ q.y < r.p.y + r.s.h := by
  simp [Rect.contains]

theorem Rect.intersects_of_contains (a b : Rect) (p : Point) (ha : a.contains p = true)
    (hb : b.contains p = true) : Rect.intersects a b = true := by
  rw [rect_contains_iff] at ha hb
  simp only [Rect.intersects, decide_eq_true_eq, max_lt_iff, lt_min_iff]
  omega

theorem RoomGeom.inside {tiles : Surface Tile} {r : Rect} (hr : RoomGeom tiles r) (p : Point)
    (hp : r.contains p = true) : tiles.contains p = true := by
  rw [rect_contains_iff] at hp
  rw [Surface.contains_iff]
  obtain ⟨_, _, _, _, h1, h2, _, _, h3, h4⟩ := hr
  omega

theorem ref_replicate {α : Type} [Inhabited α] (w h : Nat) (v : α) (p : Point) :
    (Surface.ref ⟨w, h, List.replicate (w * h) v⟩ p) =
      if (Surface.contains (⟨w, h, List.replicate (w * h) v⟩ : Surface α) p) = true then v
      else default := by
  by_cases hp : (Surface.contains (⟨w, h, List.replicate (w * h) v⟩ : Surface α) p) = true
  · have hlt := Surface.index_lt ⟨w, h, List.replicate (w * h) v⟩ p (by simp [Surface.WF]) hp
    simp only [Surface.ref, hp, if_true, List.getD_eq_getElem?_getD,
      List.getElem?_eq_getElem hlt, Option.getD_some, List.getElem_replicate]
  · simp [Surface.ref, hp]

theorem default_tile : (default : Tile) = Tile.wall := rfl

theorem ref_default_of_not_contains (t : Surface Tile) (p : Point)
    (hp : ¬ t.contains p = true) : t.ref p = Tile.wall := by
  simp [Surface.ref, hp]
  rfl

theorem contains_of_ref_ne_wall (t : Surface Tile) (p : Point) (hp : t.ref p ≠ Tile.wall) :
    t.contains p = true := by
  by_contra hc
  exact hp (ref_default_of_not_contains t p hc)

theorem null_region_lt (bits : Nat) : null_region bits < 2 ^ bits := by
  have : 0 < 2 ^ bits := pow_pos (by norm_num) bits
  unfold null_region
  omega

theorem reset_placeInv (bits : Nat) (stream : Nat → Nat) (started : Bool) (w : World)
    (hwf : w.WF) :
    PlaceInv bits (reset (Generator.new bits stream w started)) := by
  rw [reset_new bits stream started w hwf]
  have hall : ∀ p, (Surface.ref ⟨w.tiles.w, w.tiles.h,
      List.replicate (w.tiles.w * w.tiles.h) Tile.wall⟩ p) = Tile.wall := by
    intro p
    rw [ref_replicate]
    split <;> rfl
  refine ⟨⟨by simp [Surface.WF], by simp [Surface.WF], rfl, rfl, null_region_lt bits,
    ?_, ?_, ?_, ?_, ?_, ?_, ?_⟩, ?_⟩
  · intro r hr
    cases hr
  · intro r hr
    cases hr
  · intro p hp
    exact absurd (hall p) hp
  · intro p hp _
    rw [ref_replicate]
    have : (Surface.contains (⟨w.tiles.w, w.tiles.h,
        List.replicate (w.tiles.w * w.tiles.h) (null_region bits)⟩ : Surface Nat) p) = true := hp
    simp only [this, if_true]
  · exact Or.inl ⟨rfl, nonWallCount_replicate _ _ _⟩
  · intro p
    rw [hall p]
    exact fun hh => by cases hh
  · exact Or.inl (nonWallCount_replicate _ _ _)
  · intro p hp
    exact absurd (hall p) hp

theorem nonWallCount_le_area (t : Surface Tile) (hwf : t.WF) : nonWallCount t ≤ t.w * t.h := by
  rw [← hwf]
  exact nonWallCount_le t

theorem succ_lt_of_mod_ne_zero (c n : Nat) (hc : c < n) (h : (c + 1) % n ≠ 0) : c + 1 < n := by
  rcases Nat.lt_or_ge (c + 1) n with hlt | hge
  · exact hlt
  · have : c + 1 = n := by omega
    rw [this, Nat.mod_self] at h
    exact absurd rfl h

/-- A new region: when `startRegion` returns, the new id is a value of the region type, at
most the number of open cells and not below the ids in use; it is 0 for the first region and
the old counter plus 1 afterwards, since the assertion of line 61 stops the wrap. -/

theorem startRegion_counted (bits : Nat) (g g1 : Generator) (hb : g.currentRegion < 2 ^ bits)
    (hcount : (g.currentRegion = null_region bits ∧ nonWallCount g.tiles = 0) ∨
      (g.started = true ∧ g.currentRegion + 1 ≤ nonWallCount g.tiles))
    (h : startRegion bits g = Except.ok g1) :
    ∃ c, g1 = { g with currentRegion := c, started := true } ∧ c < 2 ^ bits ∧
      c ≤ nonWallCount g.tiles ∧ (nonWallCount g.tiles = 0 ∨ g.currentRegion ≤ c) ∧
      ((g.currentRegion = null_region bits ∧ nonWallCount g.tiles = 0 ∧ c = 0) ∨
        (0 < nonWallCount g.tiles ∧ c = g.currentRegion + 1)) := by
  obtain ⟨rfl, hassert⟩ := startRegion_ok bits g g1 h
  have hpos : 0 < 2 ^ bits := pow_pos (by norm_num) bits
  refine ⟨_, rfl, Nat.mod_lt _ hpos, ?_⟩
  rcases hcount with ⟨hnull, hzero⟩ | ⟨hstarted, hle⟩
  · have hnext : (g.currentRegion + 1) % 2 ^ bits = 0 := by
      rw [hnull, null_region, Nat.sub_add_cancel hpos, Nat.mod_self]
    rw [hnext]
    exact ⟨by omega, Or.inl hzero, Or.inl ⟨hnull, hzero, rfl⟩⟩
  · have hne : (g.currentRegion + 1) % 2 ^ bits ≠ 0 := fun h0 => hassert ⟨hstarted, h0⟩
    have hlt : g.currentRegion + 1 < 2 ^ bits := succ_lt_of_mod_ne_zero _ _ hb hne
    have hnext : (g.currentRegion + 1) % 2 ^ bits = g.currentRegion + 1 :=
      Nat.mod_eq_of_lt hlt
    rw [hnext]
    exact ⟨hle, Or.inr (by omega), Or.inr ⟨by omega, rfl⟩⟩

theorem roomAttempt_placeInv (bits : Nat) (params : GenParams) (g g' : Generator)
    (hmin : 0 < params.roomSizeMin) (hg : PlaceInv bits g)
    (h : roomAttempt bits params g = Except.ok g') : PlaceInv bits g' := by
  obtain ⟨size, pos, rng1, rng2, hsize, hpos, hcase⟩ := roomAttempt_ok bits params g g' h
  obtain ⟨hc, ho⟩ := hg
  rcases hcase with ⟨_, rfl⟩ | ⟨hany, g1, hstart, rfl⟩
  · exact ⟨⟨hc.tilesWF, hc.regionsWF, hc.sameW, hc.sameH, hc.bounded, hc.roomGeom, hc.roomOpen,
      hc.regionLe, hc.wallNull, hc.counted, hc.noDoor, hc.marked⟩, ho⟩
  · have hs := oddSize_ok _ _ _ _ _ hsize
    have hp := oddPoint_ok _ _ _ _ hpos
    have hbw : (g.tiles.size - size).w = (g.tiles.w : Int) - size.w := rfl
    have hbh : (g.tiles.size - size).h = (g.tiles.h : Int) - size.h := rfl
    rw [hbw, hbh] at hp
    have hgeom : RoomGeom g.tiles ⟨pos, size⟩ := by
      simp only [RoomGeom]
      omega
    have hnone : ∀ room ∈ g.rooms, Rect.intersects ⟨pos, size⟩ room = false := by
      intro room hroom
      have := List.any_eq_false.1 hany room hroom
      simpa using this
    obtain ⟨c, rfl, hcb, hcle, hcup, _⟩ :=
      startRegion_counted bits { g with rng := rng2, rooms := g.rooms ++ [⟨pos, size⟩] } g1
        hc.bounded hc.counted hstart
    simp only at hcle hcup
    simp only [carveRect]
    have htile : ∀ p, (g.tiles.fill ⟨pos, size⟩ Tile.room).ref p =
        if g.tiles.contains p = true ∧ Rect.contains ⟨pos, size⟩ p = true then Tile.room
        else g.tiles.ref p := fun p => Surface.ref_fill_of_WF _ _ _ _ hc.tilesWF
    have hreg : ∀ p, (g.regions.fill ⟨pos, size⟩ c).ref p =
        if g.tiles.contains p = true ∧ Rect.contains ⟨pos, size⟩ p = true then c
        else g.regions.ref p := by
      intro p
      rw [Surface.ref_fill_of_WF _ _ _ _ hc.regionsWF]
      have : g.regions.contains p = g.tiles.contains p := by
        simp [Surface.contains, hc.sameW, hc.sameH]
      rw [this]
    have horigin : Rect.contains ⟨pos, size⟩ pos = true := by
      rw [rect_contains_iff]
      simp only
      omega
    have hwall : g.tiles.ref pos = Tile.wall := by
      by_contra hne
      obtain ⟨r, hr, hrp⟩ := ho pos hne
      have := Rect.intersects_of_contains ⟨pos, size⟩ r pos horigin hrp
      rw [hnone r hr] at this
      cases this
    have hmono : ∀ p, g.tiles.ref p ≠ Tile.wall →
        (g.tiles.fill ⟨pos, size⟩ Tile.room).ref p ≠ Tile.wall := by
      intro p hp
      rw [htile]
      split
      · exact fun hh => by cases hh
      · exact hp
    have hlt : nonWallCount g.tiles < nonWallCount (g.tiles.fill ⟨pos, size⟩ Tile.room) := by
      apply nonWallCount_lt g.tiles _ hc.tilesWF (Surface.fill_WF _ _ _ hc.tilesWF) rfl rfl hmono
        pos (hgeom.inside pos horigin) hwall
      rw [htile]
      simp [hgeom.inside pos horigin, horigin]
    refine ⟨⟨Surface.fill_WF _ _ _ hc.tilesWF, Surface.fill_WF _ _ _ hc.regionsWF, hc.sameW,
      hc.sameH, hcb, ?_, ?_, ?_, ?_, ?_, ?_, ?_⟩, ?_⟩
    · intro r hr
      rcases List.mem_append.1 hr with hr | hr
      · exact hc.roomGeom r hr
      · rw [List.mem_singleton] at hr
        subst hr
        exact hgeom
    · intro r hr p hpr
      simp only
      rcases List.mem_append.1 hr with hr | hr
      · exact hmono p (hc.roomOpen r hr p hpr)
      · rw [List.mem_singleton] at hr
        subst hr
        rw [htile]
        simp [hgeom.inside p hpr, hpr]
    · intro p hp
      simp only at hp ⊢
      rw [hreg]
      rw [htile] at hp
      split
      · exact le_refl _
      · rename_i hnot
        simp only [hnot, if_false] at hp
        rcases hcup with hzero | hle
        · exact absurd (ref_wall_of_nonWallCount_zero g.tiles hc.tilesWF hzero p) hp
        · exact le_trans (hc.regionLe p hp) hle
    · intro p hp hw
      simp only at hp hw ⊢
      rw [hreg]
      rw [htile] at hw
      split
      · rename_i hin
        simp only [hin, and_self, if_true] at hw
        cases hw
      · rename_i hnot
        simp only [hnot, if_false] at hw
        exact hc.wallNull p hp hw
    · right
      exact ⟨rfl, by simp only; omega⟩
    · intro p
      show (g.tiles.fill ⟨pos, size⟩ Tile.room).ref p ≠ Tile.closed_door
      rw [htile]
      split
      · exact fun hh => by cases hh
      · exact hc.noDoor p
    · right
      refine ⟨pos, ?_, ?_⟩
      · show (g.tiles.fill ⟨pos, size⟩ Tile.room).ref pos ≠ Tile.wall
        rw [htile]
        simp [hgeom.inside pos horigin, horigin]
      · show (g.regions.fill ⟨pos, size⟩ c).ref pos = c
        rw [hreg]
        simp [hgeom.inside pos horigin, horigin]
    · intro p hp
      simp only at hp ⊢
      rw [htile] at hp
      by_cases hin : g.tiles.contains p = true ∧ Rect.contains ⟨pos, size⟩ p = true
      · exact ⟨⟨pos, size⟩, List.mem_append.2 (Or.inr (List.mem_singleton.2 rfl)), hin.2⟩
      · simp only [hin, if_false] at hp
        obtain ⟨r, hr, hrp⟩ := ho p hp
        exact ⟨r, List.mem_append.2 (Or.inl hr), hrp⟩

theorem placeRooms_placeInv (bits : Nat) (params : GenParams) (g g' : Generator)
    (hg : PlaceInv bits g) (h : placeRooms bits params g = Except.ok g') : PlaceInv bits g' := by
  obtain ⟨hmin, _, _, _, _, hloop⟩ := placeRooms_ok bits params g g' h
  exact placeRoomsLoop_induct bits params (PlaceInv bits)
    (fun a b ha hab => roomAttempt_placeInv bits params a b hmin.2 ha hab) _ g g' hg hloop

theorem placeExit_carveInv (bits : Nat) (g g' : Generator) (hg : CarveInv bits g)
    (h : placeExit g = Except.ok g') :
    CarveInv bits g' ∧ g'.rooms = g.rooms ∧ g'.rooms ≠ [] ∧
      (∀ room ∈ g'.rooms.head?, g'.tiles.ref (room.p + (room.s.point).div 2) = Tile.stairs) := by
  unfold placeExit at h
  split at h
  · cases h
  · rename_i room rest hrooms
    have hg' := (Except.ok.inj h).symm
    subst hg'
    have hmem : room ∈ g.rooms := by rw [hrooms]; exact List.mem_cons_self _ _
    have hgeom := hg.roomGeom room hmem
    have hcentre : room.contains (room.p + (room.s.point).div 2) = true := by
      obtain ⟨_, _, _, _, _, _, hw, hh, _, _⟩ := hgeom
      rw [rect_contains_iff]
      have e1 : (room.p + (room.s.point).div 2).x = room.p.x + room.s.w.tdiv 2 := rfl
      have e2 : (room.p + (room.s.point).div 2).y = room.p.y + room.s.h.tdiv 2 := rfl
      rw [e1, e2]
      have d1 := tdiv_two_cases room.s.w
      have d2 := tdiv_two_cases room.s.h
      omega
    have hin := hgeom.inside _ hcentre
    have hopen := hg.roomOpen room hmem _ hcentre
    have htile : ∀ p, (g.tiles.set (room.p + (room.s.point).div 2) Tile.stairs).ref p =
        if g.tiles.contains (room.p + (room.s.point).div 2) = true ∧
          room.p + (room.s.point).div 2 = p then Tile.stairs else g.tiles.ref p :=
      fun p => Surface.ref_set _ _ _ _ hg.tilesWF
    have hiff : ∀ p, (g.tiles.set (room.p + (room.s.point).div 2) Tile.stairs).ref p = Tile.wall ↔
        g.tiles.ref p = Tile.wall := by
      intro p
      rw [htile]
      split
      · rename_i hh
        rw [← hh.2]
        constructor
        · intro hh2; cases hh2
        · intro hh2; exact absurd hh2 hopen
      · exact Iff.rfl
    refine ⟨⟨Surface.set_WF _ _ _ hg.tilesWF, hg.regionsWF, ?_, ?_, hg.bounded, ?_, ?_, ?_, ?_,
      ?_, ?_, ?_⟩, rfl, ?_, ?_⟩
    · simp only [Surface.set_w]; exact hg.sameW
    · simp only [Surface.set_h]; exact hg.sameH
    · intro r hr
      have := hg.roomGeom r hr
      simpa [RoomGeom, Surface.set_w, Surface.set_h] using this
    · intro r hr p hpr
      exact fun hh => hg.roomOpen r hr p hpr ((hiff p).1 hh)
    · intro p hp
      exact hg.regionLe p (fun hh => hp ((hiff p).2 hh))
    · intro p hp hw
      simp only [Surface.contains_set] at hp
      exact hg.wallNull p hp ((hiff p).1 hw)
    · rcases hg.counted with ⟨hnull, hzero⟩ | ⟨hstarted, hle⟩
      · exact absurd (ref_wall_of_nonWallCount_zero g.tiles hg.tilesWF hzero _) hopen
      · right
        refine ⟨hstarted, le_trans hle ?_⟩
        exact nonWallCount_mono g.tiles _ hg.tilesWF (Surface.set_WF _ _ _ hg.tilesWF)
          (Surface.set_w _ _ _) (Surface.set_h _ _ _) (fun p hp hh => hp ((hiff p).1 hh))
    · intro p
      show (g.tiles.set (room.p + (room.s.point).div 2) Tile.stairs).ref p ≠ Tile.closed_door
      rw [htile]
      split
      · exact fun hh => by cases hh
      · exact hg.noDoor p
    · rcases hg.marked with hzero | ⟨p, hp1, hp2⟩
      · exact absurd (ref_wall_of_nonWallCount_zero g.tiles hg.tilesWF hzero _) hopen
      · exact Or.inr ⟨p, fun hh => hp1 ((hiff p).1 hh), hp2⟩
    · simp only [hrooms]
      exact fun hh => by cases hh
    · intro r hr
      simp only [hrooms, List.head?_cons, Option.mem_def, Option.some.injEq] at hr
      subst hr
      simp only
      rw [htile]
      simp [hin]

/-! ## Mazes -/

theorem Point.add_x (a b : Point) : (a + b).x = a.x + b.x := rfl

theorem Point.add_y (a b : Point) : (a + b).y = a.y + b.y := rfl

theorem rotateUntil_test (dirs : DirSet) (dir : Dir) (hd : dir ≠ Dir.none)
    (hany : dirs.anyCardinal = true) : dirs.test (rotateUntil dirs 4 dir) = true := by
  obtain ⟨a, b, c, d⟩ := dirs
  cases a <;> cases b <;> cases c <;> cases d <;> cases dir <;>
    simp_all [rotateUntil, DirSet.test, rotateCW90, DirSet.anyCardinal]

theorem fromCardinalIndex_ne_none (i : Nat) : fromCardinalIndex i ≠ Dir.none := by
  unfold fromCardinalIndex
  split <;> exact fun h => by cases h

theorem randomDir_ok (g g1 : Generator) (dirs : DirSet) (dir : Dir)
    (h : randomDir g dirs = Except.ok (dir, g1)) :
    dirs.test dir = true ∧ g1 = { g with rng := g1.rng } := by
  unfold randomDir at h
  split at h
  · cases h
  · rename_i hany
    have hany' : dirs.anyCardinal = true := by simpa using hany
    have := Prod.mk.inj (Except.ok.inj h)
    obtain ⟨h1, h2⟩ := this
    subst h1 h2
    exact ⟨rotateUntil_test dirs _ (fromCardinalIndex_ne_none _) hany', rfl⟩

theorem chooseDir_ok (params : GenParams) (g g1 : Generator) (unmade : DirSet) (last dir : Dir)
    (h : chooseDir params g unmade last = Except.ok (dir, g1)) :
    unmade.test dir = true ∧ g1 = { g with rng := g1.rng } := by
  unfold chooseDir at h
  split at h
  · cases h
  · rename_i d0 g0 hrand
    obtain ⟨ht, hg0⟩ := randomDir_ok g g0 unmade d0 hrand
    split at h
    · rename_i hlast
      obtain ⟨h1, h2⟩ := Prod.mk.inj (Except.ok.inj h)
      subst h2
      refine ⟨?_, ?_⟩
      · rw [← h1]
        split
        · exact hlast.2
        · exact ht
      · rw [hg0]
    · obtain ⟨h1, h2⟩ := Prod.mk.inj (Except.ok.inj h)
      subst h1 h2
      exact ⟨ht, hg0⟩

theorem chooseDir_total (params : GenParams) (g : Generator) (unmade : DirSet) (last : Dir)
    (hany : unmade.any = true) : ∃ dir g1, chooseDir params g unmade last = Except.ok (dir, g1) := by
  have hc : unmade.anyCardinal = true := hany
  unfold chooseDir randomDir
  simp only [hc, Bool.not_true, Bool.false_eq_true, if_false]
  split
  · exact ⟨_, _, rfl⟩
  · exact ⟨_, _, rfl⟩

theorem unmadeCells_test (g : Generator) (cell : Point) (dir : Dir) :
    (unmadeCells g cell).test dir = true ↔ dir ≠ Dir.none ∧ canCarve g cell dir = true := by
  simp only [unmadeCells, cardinal_dirs, List.foldl_cons, List.foldl_nil]
  by_cases h1 : canCarve g cell Dir.up = true <;>
  by_cases h2 : canCarve g cell Dir.right = true <;>
  by_cases h3 : canCarve g cell Dir.down = true <;>
  by_cases h4 : canCarve g cell Dir.left = true <;>
  cases dir <;>
  simp [h1, h2, h3, h4, DirSet.set, DirSet.test, DirSet.empty]

theorem unmadeCells_any (g : Generator) (cell : Point) :
    (unmadeCells g cell).any = true ↔ ∃ dir, dir ≠ Dir.none ∧ canCarve g cell dir = true := by
  constructor
  · intro h
    have : (unmadeCells g cell).test Dir.up = true ∨ (unmadeCells g cell).test Dir.right = true ∨
        (unmadeCells g cell).test Dir.down = true ∨ (unmadeCells g cell).test Dir.left = true := by
      simp only [DirSet.any, Bool.or_eq_true] at h
      simp only [DirSet.test]
      tauto
    rcases this with h | h | h | h
    · exact ⟨_, (unmadeCells_test g cell _).1 h⟩
    · exact ⟨_, (unmadeCells_test g cell _).1 h⟩
    · exact ⟨_, (unmadeCells_test g cell _).1 h⟩
    · exact ⟨_, (unmadeCells_test g cell _).1 h⟩
  · rintro ⟨dir, hd⟩
    have := (unmadeCells_test g cell dir).2 hd
    cases dir <;> simp_all [DirSet.any, DirSet.test]

theorem canCarve_iff (g : Generator) (pos : Point) (dir : Dir) :
    canCarve g pos dir = true ↔
      g.tiles.contains (pos + (toPoint dir).scale 3) = true ∧
        g.tiles.ref (pos + (toPoint dir).scale 2) = Tile.wall := by
  unfold canCarve
  by_cases hc : g.tiles.contains (pos + (toPoint dir).scale 3) = true
  · simp [hc]
  · simp [hc]

/-- An invariant of the steps of `growMaze` (carving two cells, backtracking, drawing from
the random source) holds when its loop ends. -/

theorem growMazeLoop_induct (params : GenParams) (Inv : Generator → List Point → Prop)
    (hrng : ∀ g stack rng, Inv g stack → Inv { g with rng := rng } stack)
    (hcarve : ∀ g cell rest dir, Inv g (cell :: rest) → dir ≠ Dir.none →
      canCarve g cell dir = true →
      Inv (carve (carve g (cell + toPoint dir) Tile.path) (cell + (toPoint dir).scale 2) Tile.path)
        ((cell + (toPoint dir).scale 2) :: cell :: rest))
    (hpop : ∀ g cell rest, Inv g (cell :: rest) → Inv g rest)
    (n : Nat) (g : Generator) (stack : List Point) (last : Dir) (g' : Generator)
    (hinv : Inv g stack) (h : growMazeLoop params n g stack last = Except.ok g') : Inv g' [] := by
  induction n generalizing g stack last with
  | zero =>
    cases stack with
    | nil =>
      simp only [growMazeLoop] at h
      cases h
      exact hinv
    | cons cell rest =>
      simp only [growMazeLoop] at h
      cases h
  | succ n ih =>
    cases stack with
    | nil =>
      simp only [growMazeLoop] at h
      cases h
      exact hinv
    | cons cell rest =>
      simp only [growMazeLoop] at h
      split at h
      · rename_i hany
        split at h
        · cases h
        · rename_i dir g1 hchoose
          obtain ⟨htest, hg1⟩ := chooseDir_ok params g g1 _ last dir hchoose
          obtain ⟨hdir, hcan⟩ := (unmadeCells_test g cell dir).1 htest
          have hinv1 : Inv g1 (cell :: rest) := by
            rw [hg1]
            exact hrng g _ _ hinv
          have hcan1 : canCarve g1 cell dir = true := by
            rw [hg1]
            exact hcan
          exact ih _ _ _ (hcarve g1 cell rest dir hinv1 hdir hcan1) h
      · exact ih _ _ _ (hpop g cell rest hinv) h

theorem step_contains (t : Surface Tile) (cell : Point) (dir : Dir)
    (hcell : t.contains cell = true) (h3 : t.contains (cell + (toPoint dir).scale 3) = true) :
    t.contains (cell + toPoint dir) = true ∧ t.contains (cell + (toPoint dir).scale 2) = true := by
  rw [Surface.contains_iff] at hcell h3 ⊢
  rw [Surface.contains_iff]
  cases dir <;> simp only [toPoint, Point.scale, Point.add_x, Point.add_y] at h3 ⊢ <;> omega

theorem carve2_ref (t : Surface Tile) (t1 t2 p : Point) (hwf : t.WF)
    (h1 : t.contains t1 = true) (h2 : t.contains t2 = true) :
    ((t.set t1 Tile.path).set t2 Tile.path).ref p =
      if t2 = p then Tile.path else if t1 = p then Tile.path else t.ref p := by
  rw [Surface.ref_set _ _ _ _ (Surface.set_WF _ _ _ hwf), Surface.ref_set _ _ _ _ hwf,
    Surface.contains_set]
  simp only [h1, h2, true_and]

theorem mazeRel_refl (g : Generator) : MazeRel g g := ⟨rfl, rfl, rfl, fun _ _ => rfl⟩

theorem mazeRel_trans {a b c : Generator} (h1 : MazeRel a b) (h2 : MazeRel b c) :
    MazeRel a c := by
  obtain ⟨r1, w1, e1, f1⟩ := h1
  obtain ⟨r2, w2, e2, f2⟩ := h2
  refine ⟨r2.trans r1, w2.trans w1, e2.trans e1, fun p hp => ?_⟩
  have := f1 p hp
  rw [f2 p (by rw [this]; exact hp), this]

/-- The loop of `growMaze` ends: each pass either opens a wall cell or shortens the stack. -/
theorem growMazeLoop_total (params : GenParams) (n : Nat) (g : Generator) (stack : List Point)
    (last : Dir) (hwf : g.tiles.WF) (hstack : ∀ c ∈ stack, g.tiles.contains c = true)
    (hfuel : 2 * (g.tiles.cells.length - nonWallCount g.tiles) + stack.length ≤ n) :
    ∃ g', growMazeLoop params n g stack last = Except.ok g' := by
  induction n generalizing g stack last with
  | zero =>
    cases stack with
    | nil => exact ⟨g, by simp only [growMazeLoop]⟩
    | cons cell rest => simp at hfuel
  | succ n ih =>
    cases stack with
    | nil => exact ⟨g, by simp only [growMazeLoop]⟩
    | cons cell rest =>
      simp only [growMazeLoop]
      by_cases hany : (unmadeCells g cell).any = true
      · simp only [hany, if_true]
        obtain ⟨dir, g1, hchoose⟩ := chooseDir_total params g _ last hany
        obtain ⟨htest, hg1⟩ := chooseDir_ok params g g1 _ last dir hchoose
        obtain ⟨hdir, hcan⟩ := (unmadeCells_test g cell dir).1 htest
        obtain ⟨h3, hwall⟩ := (canCarve_iff g cell dir).1 hcan
        have hcell := hstack cell (List.mem_cons_self _ _)
        obtain ⟨hc1, hc2⟩ := step_contains g.tiles cell dir hcell h3
        simp only [hchoose]
        have ht1 : g1.tiles = g.tiles := by rw [hg1]
        have href := carve2_ref g.tiles (cell + toPoint dir) (cell + (toPoint dir).scale 2)
        have hwf2 : ((g.tiles.set (cell + toPoint dir) Tile.path).set
            (cell + (toPoint dir).scale 2) Tile.path).WF :=
          Surface.set_WF _ _ _ (Surface.set_WF _ _ _ hwf)
        have hlt := nonWallCount_lt g.tiles _ hwf hwf2
          (by simp only [Surface.set_w]) (by simp only [Surface.set_h])
          (fun p hp => by
            rw [href p hwf hc1 hc2]
            split
            · exact fun h => by cases h
            · split
              · exact fun h => by cases h
              · exact hp)
          (cell + (toPoint dir).scale 2) hc2 hwall
          (by rw [href _ hwf hc1 hc2]; simp)
        have hle := nonWallCount_le ((g.tiles.set (cell + toPoint dir) Tile.path).set
            (cell + (toPoint dir).scale 2) Tile.path)
        have hlen : ((g.tiles.set (cell + toPoint dir) Tile.path).set
            (cell + (toPoint dir).scale 2) Tile.path).cells.length = g.tiles.cells.length := by
          rw [hwf2, hwf, Surface.set_w, Surface.set_w, Surface.set_h, Surface.set_h]
        apply ih
        · simp only [carve, ht1]
          exact hwf2
        · intro c hc
          simp only [carve, ht1, Surface.contains_set]
          rcases List.mem_cons.1 hc with rfl | hc
          · exact hc2
          · exact hstack c hc
        · simp only [carve, ht1, List.length_cons] at hfuel ⊢
          rw [hlen]
          rw [hlen] at hle
          omega
      · simp only [hany]
        apply ih _ _ _ hwf (fun c hc => hstack c (List.mem_cons_of_mem _ hc))
        simp only [List.length_cons] at hfuel
        omega

theorem Point.eq_iff (a b : Point) : a = b ↔ a.x = b.x ∧ a.y = b.y := by
  cases a
  cases b
  simp

theorem CarveInv.with_rng {bits : Nat} {g : Generator} (hc : CarveInv bits g) (rng : RNG) :
    CarveInv bits { g with rng := rng } :=
  ⟨hc.tilesWF, hc.regionsWF, hc.sameW, hc.sameH, hc.bounded, hc.roomGeom, hc.roomOpen,
    hc.regionLe, hc.wallNull, hc.counted, hc.noDoor, hc.marked⟩

theorem regions_contains {bits : Nat} {g : Generator} (hc : CarveInv bits g) (p : Point) :
    g.regions.contains p = g.tiles.contains p := by
  simp [Surface.contains, hc.sameW, hc.sameH]

/-- Carving one wall cell inside the grid, with a region id `c` that is not below the ids in
use, keeps the carving invariant. -/

theorem carve_carveInv (bits : Nat) (g : Generator) (pos : Point) (c : Nat)
    (hc : CarveInv bits g) (hin : g.tiles.contains pos = true) (hcb : c < 2 ^ bits)
    (hup : nonWallCount g.tiles = 0 ∨ g.currentRegion ≤ c)
    (hcount : c + 1 ≤ nonWallCount (g.tiles.set pos Tile.path)) :
    CarveInv bits (carve { g with currentRegion := c, started := true } pos Tile.path) := by
  have htile : ∀ p, (g.tiles.set pos Tile.path).ref p =
      if pos = p then Tile.path else g.tiles.ref p := by
    intro p
    rw [Surface.ref_set _ _ _ _ hc.tilesWF]
    simp only [hin, true_and]
  have hreg : ∀ p, (g.regions.set pos c).ref p = if pos = p then c else g.regions.ref p := by
    intro p
    rw [Surface.ref_set _ _ _ _ hc.regionsWF, regions_contains hc]
    simp only [hin, true_and]
  have hmono : ∀ p, g.tiles.ref p ≠ Tile.wall → (g.tiles.set pos Tile.path).ref p ≠ Tile.wall := by
    intro p hp
    rw [htile]
    split
    · exact fun h => by cases h
    · exact hp
  refine ⟨Surface.set_WF _ _ _ hc.tilesWF, Surface.set_WF _ _ _ hc.regionsWF, ?_, ?_, hcb, ?_, ?_,
    ?_, ?_, ?_, ?_, ?_⟩
  · simp only [carve, Surface.set_w]; exact hc.sameW
  · simp only [carve, Surface.set_h]; exact hc.sameH
  · intro r hr
    have := hc.roomGeom r hr
    simpa [RoomGeom, carve, Surface.set_w, Surface.set_h] using this
  · intro r hr p hpr
    exact hmono p (hc.roomOpen r hr p hpr)
  · intro p hp
    simp only [carve] at hp ⊢
    rw [hreg]
    rw [htile] at hp
    split
    · exact le_refl _
    · rename_i hne
      simp only [hne, if_false] at hp
      rcases hup with hzero | hle
      · exact absurd (ref_wall_of_nonWallCount_zero g.tiles hc.tilesWF hzero p) hp
      · exact le_trans (hc.regionLe p hp) hle
  · intro p hp hw
    simp only [carve, Surface.contains_set] at hp hw ⊢
    rw [hreg]
    rw [htile] at hw
    split
    · rename_i heq
      simp only [heq, if_true] at hw
      cases hw
    · rename_i hne
      simp only [hne, if_false] at hw
      exact hc.wallNull p hp hw
  · right
    exact ⟨rfl, hcount⟩
  · intro p
    show (g.tiles.set pos Tile.path).ref p ≠ Tile.closed_door
    rw [htile]
    split
    · exact fun h => by cases h
    · exact hc.noDoor p
  · right
    refine ⟨pos, ?_, ?_⟩
    · show (g.tiles.set pos Tile.path).ref pos ≠ Tile.wall
      rw [htile, if_pos rfl]
      exact fun h => by cases h
    · show (g.regions.set pos c).ref pos = c
      rw [hreg, if_pos rfl]

theorem Generator.eta_started (g : Generator) (hs : g.started = true) :
    { g with currentRegion := g.currentRegion, started := true } = g := by
  cases g
  simp only at hs
  subst hs
  rfl

theorem kinv_contra {g : Generator} (hk : KInv g) (cell : Point) (dir : Dir)
    (hdir : dir ≠ Dir.none) (hx : cell.x % 2 = 1) (hy : cell.y % 2 = 1)
    (hwall : g.tiles.ref (cell + (toPoint dir).scale 2) = Tile.wall) :
    g.tiles.ref (cell + toPoint dir) = Tile.wall := by
  by_contra hne
  exact hk cell dir hdir hx hy hne hwall

theorem mazeLoopInv_rng (bits : Nat) (g0 g : Generator) (stack : List Point) (rng : RNG)
    (h : MazeLoopInv bits g0 g stack) : MazeLoopInv bits g0 { g with rng := rng } stack :=
  ⟨h.1.with_rng rng, h.2.1, h.2.2.1, h.2.2.2.1, h.2.2.2.2⟩

theorem mazeLoopInv_pop (bits : Nat) (g0 g : Generator) (cell : Point) (rest : List Point)
    (h : MazeLoopInv bits g0 g (cell :: rest)) : MazeLoopInv bits g0 g rest :=
  ⟨h.1, h.2.1, h.2.2.1, fun c hc => h.2.2.2.1 c (List.mem_cons_of_mem _ hc), h.2.2.2.2⟩

theorem mazeLoopInv_carve (bits : Nat) (g0 g : Generator) (cell : Point) (rest : List Point)
    (dir : Dir) (h : MazeLoopInv bits g0 g (cell :: rest)) (hdir : dir ≠ Dir.none)
    (hcan : canCarve g cell dir = true) :
    MazeLoopInv bits g0
      (carve (carve g (cell + toPoint dir) Tile.path) (cell + (toPoint dir).scale 2) Tile.path)
      ((cell + (toPoint dir).scale 2) :: cell :: rest) := by
  obtain ⟨hc, hk, ⟨hstarted, hcount⟩, hstack, hrel⟩ := h
  obtain ⟨h3, hwall2⟩ := (canCarve_iff g cell dir).1 hcan
  obtain ⟨hcellin, hcx, hcy, hcellopen⟩ := hstack cell (List.mem_cons_self _ _)
  obtain ⟨hin1, hin2⟩ := step_contains g.tiles cell dir hcellin h3
  have hwall1 := kinv_contra hk cell dir hdir hcx hcy hwall2
  have href := fun p => carve2_ref g.tiles (cell + toPoint dir) (cell + (toPoint dir).scale 2) p
    hc.tilesWF hin1 hin2
  have hmono : ∀ p, g.tiles.ref p ≠ Tile.wall →
      ((g.tiles.set (cell + toPoint dir) Tile.path).set
        (cell + (toPoint dir).scale 2) Tile.path).ref p = g.tiles.ref p := by
    intro p hp
    rw [href]
    split
    · rename_i heq
      rw [← heq] at hp
      exact absurd hwall2 hp
    · split
      · rename_i heq
        rw [← heq] at hp
        exact absurd hwall1 hp
      · rfl
  have hopen : ∀ p, g.tiles.ref p ≠ Tile.wall →
      ((g.tiles.set (cell + toPoint dir) Tile.path).set
        (cell + (toPoint dir).scale 2) Tile.path).ref p ≠ Tile.wall := by
    intro p hp
    rw [hmono p hp]
    exact hp
  -- the first carve
  have hcount1 : g.currentRegion + 1 ≤ nonWallCount (g.tiles.set (cell + toPoint dir) Tile.path) :=
    le_trans hcount (nonWallCount_mono g.tiles _ hc.tilesWF (Surface.set_WF _ _ _ hc.tilesWF)
      (Surface.set_w _ _ _) (Surface.set_h _ _ _) (fun p hp => by
        rw [Surface.ref_set _ _ _ _ hc.tilesWF]
        split
        · exact fun h => by cases h
        · exact hp))
  have hc1 := carve_carveInv bits g (cell + toPoint dir) g.currentRegion hc hin1 hc.bounded
    (Or.inr (le_refl _)) hcount1
  rw [Generator.eta_started g hstarted] at hc1
  have hcount2 : g.currentRegion + 1 ≤ nonWallCount
      ((g.tiles.set (cell + toPoint dir) Tile.path).set (cell + (toPoint dir).scale 2) Tile.path) :=
    le_trans hcount (nonWallCount_mono g.tiles _ hc.tilesWF
      (Surface.set_WF _ _ _ (Surface.set_WF _ _ _ hc.tilesWF))
      (by simp only [Surface.set_w]) (by simp only [Surface.set_h]) hopen)
  have hc2 := carve_carveInv bits (carve g (cell + toPoint dir) Tile.path)
    (cell + (toPoint dir).scale 2) g.currentRegion hc1
    (by simp only [carve, Surface.contains_set]; exact hin2) hc.bounded (Or.inr (le_refl _))
    hcount2
  have hst1 : (carve g (cell + toPoint dir) Tile.path).started = true := hstarted
  have heta := Generator.eta_started (carve g (cell + toPoint dir) Tile.path) hst1
  have hcr : (carve g (cell + toPoint dir) Tile.path).currentRegion = g.currentRegion := rfl
  rw [← hcr, heta] at hc2
  refine ⟨hc2, ?_, ⟨hstarted, hcount2⟩, ?_, ?_⟩
  · -- the corridor invariant
    intro c d hd hx hy hq
    simp only [carve] at hq ⊢
    rw [href] at hq
    by_cases e2 : cell + (toPoint dir).scale 2 = c + toPoint d
    · exfalso
      rw [Point.eq_iff] at e2
      cases d <;> cases dir <;>
        simp only [toPoint, Point.scale, Point.add_x, Point.add_y] at e2 <;>
        first | omega | exact hd rfl
    · simp only [e2, if_false] at hq
      by_cases e1 : cell + toPoint dir = c + toPoint d
      · have key : cell + (toPoint dir).scale 2 = c + (toPoint d).scale 2 ∨
            cell = c + (toPoint d).scale 2 := by
          rw [Point.eq_iff] at e1
          rw [Point.eq_iff, Point.eq_iff]
          cases d <;> cases dir <;>
            simp only [toPoint, Point.scale, Point.add_x, Point.add_y] at e1 ⊢ <;>
            omega
        rcases key with key | key
        · rw [href, if_pos key]
          exact fun h => by cases h
        · rw [← key]
          exact hopen cell hcellopen
      · simp only [e1, if_false] at hq
        exact hopen _ (hk c d hd hx hy hq)
  · intro c hcmem
    simp only [carve, Surface.contains_set]
    rcases List.mem_cons.1 hcmem with rfl | hcmem
    · refine ⟨hin2, ?_, ?_, ?_⟩
      · cases dir <;> simp only [toPoint, Point.scale, Point.add_x] <;> omega
      · cases dir <;> simp only [toPoint, Point.scale, Point.add_y] <;> omega
      · rw [href, if_pos rfl]
        exact fun h => by cases h
    · obtain ⟨a1, a2, a3, a4⟩ := hstack c hcmem
      exact ⟨a1, a2, a3, hopen c a4⟩
  · obtain ⟨r1, w1, e1, f1⟩ := hrel
    refine ⟨r1, ?_, ?_, ?_⟩
    · simp only [carve, Surface.set_w]; exact w1
    · simp only [carve, Surface.set_h]; exact e1
    · intro p hp
      simp only [carve]
      have := f1 p hp
      rw [hmono p (by rw [this]; exact hp), this]

theorem loopNe_two (b : Int) (h1 : 1 ≤ b) (hodd : b % 2 = 1) :
    ∃ xs, loopNe 1 b 2 = some xs ∧ ∀ x, x ∈ xs ↔ 1 ≤ x ∧ x < b ∧ x % 2 = 1 := by
  refine ⟨(List.range ((b - 1).toNat / 2)).map (fun k => 1 + ((k * 2 : Nat) : Int)), ?_, ?_⟩
  · have : (b - 1) % ((2 : Nat) : Int) = 0 := by
      simp only [Nat.cast_ofNat]
      omega
    simp only [loopNe, h1, this, and_self, if_true]
  · intro x
    simp only [List.mem_map, List.mem_range]
    constructor
    · rintro ⟨k, hk, rfl⟩
      have : k < (b - 1).toNat / 2 := hk
      push_cast
      omega
    · intro hx
      refine ⟨(x - 1).toNat / 2, ?_, ?_⟩
      · omega
      · push_cast
        omega

theorem nonWallCount_pos_of_open (t : Surface Tile) (hwf : t.WF) (p : Point)
    (hp : t.ref p ≠ Tile.wall) : 0 < nonWallCount t := by
  rcases Nat.eq_zero_or_pos (nonWallCount t) with h0 | h0
  · exact absurd (ref_wall_of_nonWallCount_zero t hwf h0 p) hp
  · exact h0

/-- When `growMaze` returns after the first region was started, the region counter had room
for one more id: the assertion of line 61 passed. -/
theorem growMaze_room (bits : Nat) (params : GenParams) (g g' : Generator) (start : Point)
    (hc : CarveInv bits g) (hopen : 0 < nonWallCount g.tiles)
    (h : growMaze bits params g start = Except.ok g') : g.currentRegion + 1 < 2 ^ bits := by
  unfold growMaze at h
  split at h
  · cases h
  · rename_i g1 hstart
    obtain ⟨c, _, hcb, _, _, hcase⟩ := startRegion_counted bits g g1 hc.bounded hc.counted hstart
    rcases hcase with ⟨_, hz, _⟩ | ⟨_, hceq⟩
    · omega
    · rw [← hceq]
      exact hcb

/-- The member function `growMaze` on a wall cell with odd coordinates inside the grid, after
the first region was started and with room for one more region id: it returns, keeps the
invariants and every open cell, and opens the start cell. -/

theorem growMaze_spec (bits : Nat) (params : GenParams) (g : Generator) (start : Point)
    (hc : CarveInv bits g) (hk : KInv g) (hopen : 0 < nonWallCount g.tiles)
    (hroom : g.currentRegion + 1 < 2 ^ bits)
    (hin : g.tiles.contains start = true) (hx : start.x % 2 = 1) (hy : start.y % 2 = 1)
    (hwall : g.tiles.ref start = Tile.wall) :
    ∃ g', growMaze bits params g start = Except.ok g' ∧ CarveInv bits g' ∧ KInv g' ∧
      MazeRel g g' ∧ g'.tiles.ref start ≠ Tile.wall := by
  have hcounted : g.started = true ∧ g.currentRegion + 1 ≤ nonWallCount g.tiles := by
    rcases hc.counted with ⟨_, hzero⟩ | h
    · omega
    · exact h
  -- the new region
  have hnext : (g.currentRegion + 1) % 2 ^ bits = g.currentRegion + 1 :=
    Nat.mod_eq_of_lt hroom
  have hstart : startRegion bits g =
      Except.ok { g with currentRegion := g.currentRegion + 1, started := true } := by
    simp only [startRegion, hnext, hcounted.1]
    simp
  have htile : ∀ p, (g.tiles.set start Tile.path).ref p =
      if start = p then Tile.path else g.tiles.ref p := by
    intro p
    rw [Surface.ref_set _ _ _ _ hc.tilesWF]
    simp only [hin, true_and]
  have hmono : ∀ p, g.tiles.ref p ≠ Tile.wall →
      (g.tiles.set start Tile.path).ref p = g.tiles.ref p := by
    intro p hp
    rw [htile]
    split
    · rename_i heq
      rw [← heq] at hp
      exact absurd hwall hp
    · rfl
  have hlt : nonWallCount g.tiles < nonWallCount (g.tiles.set start Tile.path) :=
    nonWallCount_lt g.tiles _ hc.tilesWF (Surface.set_WF _ _ _ hc.tilesWF) (Surface.set_w _ _ _)
      (Surface.set_h _ _ _) (fun p hp => by rw [hmono p hp]; exact hp) start hin hwall
      (by rw [htile, if_pos rfl]; exact fun h => by cases h)
  have hc1 := carve_carveInv bits g start (g.currentRegion + 1) hc hin hroom (Or.inr (by omega))
    (by omega)
  have hinv : MazeLoopInv bits g
      (carve { g with currentRegion := g.currentRegion + 1, started := true } start Tile.path)
      [start] := by
    refine ⟨hc1, ?_, ⟨rfl, by simp only [carve]; omega⟩, ?_, ?_⟩
    · intro c d hd hcx hcy hq
      simp only [carve] at hq ⊢
      rw [htile] at hq
      by_cases e : start = c + toPoint d
      · exfalso
        rw [Point.eq_iff] at e
        cases d <;> simp only [toPoint, Point.add_x, Point.add_y] at e <;>
          first | omega | exact hd rfl
      · simp only [e, if_false] at hq
        have := hk c d hd hcx hcy hq
        rw [hmono _ this]
        exact this
    · intro c hcmem
      rw [List.mem_singleton] at hcmem
      subst hcmem
      simp only [carve, Surface.contains_set]
      refine ⟨hin, hx, hy, ?_⟩
      rw [htile, if_pos rfl]
      exact fun h => by cases h
    · refine ⟨rfl, ?_, ?_, ?_⟩
      · simp only [carve, Surface.set_w]
      · simp only [carve, Surface.set_h]
      · intro p hp
        simp only [carve]
        exact hmono p hp
  have hlen : (g.tiles.set start Tile.path).cells.length = g.tiles.cells.length := by
    rw [Surface.set_WF _ _ _ hc.tilesWF, hc.tilesWF, Surface.set_w, Surface.set_h]
  obtain ⟨g', hloop⟩ := growMazeLoop_total params (2 * g.tiles.cells.length + 1)
    (carve { g with currentRegion := g.currentRegion + 1, started := true } start Tile.path)
    [start] Dir.none hc1.tilesWF
    (fun c hcmem => by
      rw [List.mem_singleton] at hcmem
      subst hcmem
      simp only [carve, Surface.contains_set]
      exact hin)
    (by
      simp only [carve, List.length_singleton]
      rw [hlen]
      omega)
  have hfinal := growMazeLoop_induct params (MazeLoopInv bits g)
    (fun a st rng ha => mazeLoopInv_rng bits g a st rng ha)
    (fun a cell rest dir ha hd hcan => mazeLoopInv_carve bits g a cell rest dir ha hd hcan)
    (fun a cell rest ha => mazeLoopInv_pop bits g a cell rest ha)
    _ _ _ _ g' hinv hloop
  obtain ⟨hc', hk', _, _, hrel⟩ := hfinal
  refine ⟨g', ?_, hc', hk', hrel, ?_⟩
  · simp only [growMaze, hstart]
    exact hloop
  · -- the start cell was opened before the loop and the loop keeps open cells
    have hrel1 : MazeRel
        (carve { g with currentRegion := g.currentRegion + 1, started := true } start Tile.path)
        g' := by
      have := growMazeLoop_induct params
        (MazeLoopInv bits
          (carve { g with currentRegion := g.currentRegion + 1, started := true } start Tile.path))
        (fun a st rng ha => mazeLoopInv_rng bits _ a st rng ha)
        (fun a cell rest dir ha hd hcan => mazeLoopInv_carve bits _ a cell rest dir ha hd hcan)
        (fun a cell rest ha => mazeLoopInv_pop bits _ a cell rest ha)
        _ _ _ _ g' ⟨hinv.1, hinv.2.1, hinv.2.2.1, hinv.2.2.2.1, mazeRel_refl _⟩ hloop
      exact this.2.2.2.2
    have hs : (carve { g with currentRegion := g.currentRegion + 1, started := true } start
        Tile.path).tiles.ref start ≠ Tile.wall := by
      simp only [carve]
      rw [htile, if_pos rfl]
      exact fun h => by cases h
    rw [hrel1.2.2.2 start hs]
    exact hs

theorem placeInv_kinv (bits : Nat) (g : Generator) (h : PlaceInv bits g) : KInv g := by
  obtain ⟨hc, ho⟩ := h
  intro c d hd hx hy hq
  obtain ⟨r, hr, hrc⟩ := ho _ hq
  apply hc.roomOpen r hr
  obtain ⟨g1, g2, g3, g4, _, _, _, _, _, _⟩ := hc.roomGeom r hr
  rw [rect_contains_iff] at hrc ⊢
  cases d <;> simp only [toPoint, Point.scale, Point.add_x, Point.add_y] at hrc ⊢ <;>
    omega

theorem placeExit_kinv (bits : Nat) (g g' : Generator) (hc : CarveInv bits g) (hk : KInv g)
    (h : placeExit g = Except.ok g') : KInv g' := by
  unfold placeExit at h
  split at h
  · cases h
  · rename_i room rest hrooms
    have hg' := (Except.ok.inj h).symm
    subst hg'
    have hmem : room ∈ g.rooms := by rw [hrooms]; exact List.mem_cons_self _ _
    have hgeom := hc.roomGeom room hmem
    have hcentre : room.contains (room.p + (room.s.point).div 2) = true := by
      obtain ⟨_, _, _, _, _, _, hw, hh, _, _⟩ := hgeom
      rw [rect_contains_iff]
      have e1 : (room.p + (room.s.point).div 2).x = room.p.x + room.s.w.tdiv 2 := rfl
      have e2 : (room.p + (room.s.point).div 2).y = room.p.y + room.s.h.tdiv 2 := rfl
      rw [e1, e2]
      have d1 := tdiv_two_cases room.s.w
      have d2 := tdiv_two_cases room.s.h
      omega
    have hopen := hc.roomOpen room hmem _ hcentre
    have hiff : ∀ p, (g.tiles.set (room.p + (room.s.point).div 2) Tile.stairs).ref p = Tile.wall ↔
        g.tiles.ref p = Tile.wall := by
      intro p
      rw [Surface.ref_set _ _ _ _ hc.tilesWF]
      split
      · rename_i hh
        rw [← hh.2]
        constructor
        · intro hh2; cases hh2
        · intro hh2; exact absurd hh2 hopen
      · exact Iff.rfl
    intro c d hd hx hy hq
    simp only at hq ⊢
    exact fun hh => hk c d hd hx hy (fun hh2 => hq ((hiff _).2 hh2)) ((hiff _).1 hh)

/-- A row of `growMazes` on a grid in the carving invariant with an open cell: when it
returns it has kept the invariants and every open cell and opened every cell of the row with
an odd `x`; and it returns when the grid has fewer cells than region ids. -/
theorem growMazesRow_spec (bits : Nat) (params : GenParams) (g0 : Generator) (p0 : Point)
    (hp0 : g0.tiles.ref p0 ≠ Tile.wall) (hw : g0.tiles.w % 2 = 1) (y : Int) (hy1 : 1 ≤ y)
    (hy2 : y < g0.tiles.h) (hyodd : y % 2 = 1) (g : Generator) (hc : CarveInv bits g)
    (hk : KInv g) (hrel : MazeRel g0 g) :
    (∀ g', growMazesRow bits params g y = Except.ok g' → CarveInv bits g' ∧ KInv g' ∧
      MazeRel g0 g' ∧ MazeRel g g' ∧
      ∀ x : Int, 1 ≤ x → x < g0.tiles.w → x % 2 = 1 → g'.tiles.ref ⟨x, y⟩ ≠ Tile.wall) ∧
    (g0.tiles.w * g0.tiles.h + 1 < 2 ^ bits →
      ∃ g', growMazesRow bits params g y = Except.ok g') := by
  have hwidth : g.tiles.width = (g0.tiles.w : Int) := by
    simp only [Surface.width, hrel.2.1]
  obtain ⟨xs, hxs, hmem⟩ := loopNe_two (g0.tiles.w : Int) (by omega) (by omega)
  have key : ∀ (l : List Int) (a : Generator), (∀ x ∈ l, 1 ≤ x ∧ x < g0.tiles.w ∧ x % 2 = 1) →
      CarveInv bits a → KInv a → MazeRel g0 a →
      (∀ g', l.foldlM (fun g1 x => if g1.tiles.ref ⟨x, y⟩ = Tile.wall
          then growMaze bits params g1 ⟨x, y⟩ else Except.ok g1) a = Except.ok g' →
        CarveInv bits g' ∧ KInv g' ∧ MazeRel g0 g' ∧ MazeRel a g' ∧
        ∀ x ∈ l, g'.tiles.ref ⟨x, y⟩ ≠ Tile.wall) ∧
      (g0.tiles.w * g0.tiles.h + 1 < 2 ^ bits →
        ∃ g', l.foldlM (fun g1 x => if g1.tiles.ref ⟨x, y⟩ = Tile.wall
          then growMaze bits params g1 ⟨x, y⟩ else Except.ok g1) a = Except.ok g') := by
    intro l
    induction l with
    | nil =>
      intro a _ hca hka hra
      refine ⟨fun g' hfold => ?_, fun _ => ⟨a, rfl⟩⟩
      have := Except.ok.inj hfold
      subst this
      exact ⟨hca, hka, hra, mazeRel_refl a, fun x hx => by cases hx⟩
    | cons x l ih =>
      intro a hl hca hka hra
      obtain ⟨hx1, hx2, hx3⟩ := hl x (List.mem_cons_self _ _)
      have hl' : ∀ x ∈ l, 1 ≤ x ∧ x < g0.tiles.w ∧ x % 2 = 1 :=
        fun x' hx' => hl x' (List.mem_cons_of_mem _ hx')
      by_cases hwall : a.tiles.ref ⟨x, y⟩ = Tile.wall
      · have hin : a.tiles.contains ⟨x, y⟩ = true := by
          rw [Surface.contains_iff, hra.2.1, hra.2.2.1]
          simp only
          omega
        have hopen : 0 < nonWallCount a.tiles :=
          nonWallCount_pos_of_open a.tiles hca.tilesWF p0 (by rw [hra.2.2.2 p0 hp0]; exact hp0)
        have hstep := fun hroom =>
          growMaze_spec bits params a ⟨x, y⟩ hca hka hopen hroom hin hx3 hyodd hwall
        refine ⟨fun g' hfold => ?_, fun hsmall => ?_⟩
        · simp only [List.foldlM_cons, hwall, if_true, bind, Except.bind] at hfold
          cases hgrow : growMaze bits params a ⟨x, y⟩ with
          | error f =>
            rw [hgrow] at hfold
            cases hfold
          | ok a1 =>
            rw [hgrow] at hfold
            obtain ⟨a1', hgrow', hc1, hk1, hr1, hs1⟩ :=
              hstep (growMaze_room bits params a a1 ⟨x, y⟩ hca hopen hgrow)
            rw [hgrow] at hgrow'
            have := Except.ok.inj hgrow'
            subst this
            obtain ⟨hc', hk', hr', hra', hall⟩ :=
              (ih a1 hl' hc1 hk1 (mazeRel_trans hra hr1)).1 g' hfold
            refine ⟨hc', hk', hr', mazeRel_trans hr1 hra', ?_⟩
            intro x' hx'
            rcases List.mem_cons.1 hx' with rfl | hx'
            · rw [hra'.2.2.2 _ hs1]
              exact hs1
            · exact hall x' hx'
        · have hroom : a.currentRegion + 1 < 2 ^ bits := by
            have harea := nonWallCount_le_area a.tiles hca.tilesWF
            rw [hra.2.1, hra.2.2.1] at harea
            rcases hca.counted with ⟨_, hzero⟩ | ⟨_, hle⟩
            · omega
            · omega
          obtain ⟨a1, hgrow, hc1, hk1, hr1, _⟩ := hstep hroom
          obtain ⟨g', hfold⟩ := (ih a1 hl' hc1 hk1 (mazeRel_trans hra hr1)).2 hsmall
          refine ⟨g', ?_⟩
          simp only [List.foldlM_cons, hwall, if_true, hgrow, bind, Except.bind]
          exact hfold
      · refine ⟨fun g' hfold => ?_, fun hsmall => ?_⟩
        · simp only [List.foldlM_cons, hwall, if_false, bind, Except.bind] at hfold
          obtain ⟨hc', hk', hr', hra', hall⟩ := (ih a hl' hca hka hra).1 g' hfold
          refine ⟨hc', hk', hr', hra', ?_⟩
          intro x' hx'
          rcases List.mem_cons.1 hx' with rfl | hx'
          · rw [hra'.2.2.2 _ hwall]
            exact hwall
          · exact hall x' hx'
        · obtain ⟨g', hfold⟩ := (ih a hl' hca hka hra).2 hsmall
          refine ⟨g', ?_⟩
          simp only [List.foldlM_cons, hwall, if_false, bind, Except.bind]
          exact hfold
  obtain ⟨hpost, htotal⟩ := key xs g (fun x hx => (hmem x).1 hx) hc hk hrel
  refine ⟨fun g' h => ?_, fun hsmall => ?_⟩
  · simp only [growMazesRow, hwidth, hxs] at h
    obtain ⟨hc', hk', hr', hra', hall⟩ := hpost g' h
    exact ⟨hc', hk', hr', hra', fun x h1 h2 h3 => hall x ((hmem x).2 ⟨h1, h2, h3⟩)⟩
  · obtain ⟨g', hfold⟩ := htotal hsmall
    refine ⟨g', ?_⟩
    simp only [growMazesRow, hwidth, hxs]
    exact hfold

/-- The member function `growMazes` on a grid of odd size in the carving invariant with an
open cell: when it returns it has kept the invariants and every open cell and opened every
cell with odd coordinates; and it returns when the grid has fewer cells than region ids. -/

theorem growMazes_spec (bits : Nat) (params : GenParams) (g0 : Generator) (p0 : Point)
    (hp0 : g0.tiles.ref p0 ≠ Tile.wall) (hw : g0.tiles.w % 2 = 1) (hh : g0.tiles.h % 2 = 1)
    (hc : CarveInv bits g0) (hk : KInv g0) :
    (∀ g', growMazes bits params g0 = Except.ok g' → CarveInv bits g' ∧ KInv g' ∧
      MazeRel g0 g' ∧
      ∀ x y : Int, 1 ≤ x → x < g0.tiles.w → x % 2 = 1 → 1 ≤ y → y < g0.tiles.h → y % 2 = 1 →
        g'.tiles.ref ⟨x, y⟩ ≠ Tile.wall) ∧
    (g0.tiles.w * g0.tiles.h + 1 < 2 ^ bits → ∃ g', growMazes bits params g0 = Except.ok g') := by
  obtain ⟨ys, hys, hmem⟩ := loopNe_two (g0.tiles.h : Int) (by omega) (by omega)
  have key : ∀ (l : List Int) (a : Generator), (∀ y ∈ l, 1 ≤ y ∧ y < g0.tiles.h ∧ y % 2 = 1) →
      CarveInv bits a → KInv a → MazeRel g0 a →
      (∀ g', l.foldlM (growMazesRow bits params) a = Except.ok g' →
        CarveInv bits g' ∧ KInv g' ∧ MazeRel g0 g' ∧ MazeRel a g' ∧
        ∀ y ∈ l, ∀ x : Int, 1 ≤ x → x < g0.tiles.w → x % 2 = 1 →
          g'.tiles.ref ⟨x, y⟩ ≠ Tile.wall) ∧
      (g0.tiles.w * g0.tiles.h + 1 < 2 ^ bits →
        ∃ g', l.foldlM (growMazesRow bits params) a = Except.ok g') := by
    intro l
    induction l with
    | nil =>
      intro a _ hca hka hra
      refine ⟨fun g' hfold => ?_, fun _ => ⟨a, rfl⟩⟩
      have := Except.ok.inj hfold
      subst this
      exact ⟨hca, hka, hra, mazeRel_refl a, fun y hy => by cases hy⟩
    | cons y l ih =>
      intro a hl hca hka hra
      obtain ⟨hy1, hy2, hy3⟩ := hl y (List.mem_cons_self _ _)
      obtain ⟨hrowpost, hrowtotal⟩ :=
        growMazesRow_spec bits params g0 p0 hp0 hw y hy1 hy2 hy3 a hca hka hra
      have hl' : ∀ y' ∈ l, 1 ≤ y' ∧ y' < g0.tiles.h ∧ y' % 2 = 1 :=
        fun y' hy' => hl y' (List.mem_cons_of_mem _ hy')
      refine ⟨fun g' hfold => ?_, fun hsmall => ?_⟩
      · simp only [List.foldlM_cons, bind, Except.bind] at hfold
        cases hrow : growMazesRow bits params a y with
        | error f =>
          rw [hrow] at hfold
          cases hfold
        | ok a1 =>
          rw [hrow] at hfold
          obtain ⟨hc1, hk1, hr1, hra1, hrowall⟩ := hrowpost a1 hrow
          obtain ⟨hc', hk', hr', hra', hall⟩ := (ih a1 hl' hc1 hk1 hr1).1 g' hfold
          refine ⟨hc', hk', hr', mazeRel_trans hra1 hra', ?_⟩
          intro y' hy' x h1 h2 h3
          rcases List.mem_cons.1 hy' with rfl | hy'
          · have := hrowall x h1 h2 h3
            rw [hra'.2.2.2 _ this]
            exact this
          · exact hall y' hy' x h1 h2 h3
      · obtain ⟨a1, hrow⟩ := hrowtotal hsmall
        obtain ⟨hc1, hk1, hr1, _, _⟩ := hrowpost a1 hrow
        obtain ⟨g', hfold⟩ := (ih a1 hl' hc1 hk1 hr1).2 hsmall
        refine ⟨g', ?_⟩
        simp only [List.foldlM_cons, hrow, bind, Except.bind]
        exact hfold
  obtain ⟨hpost, htotal⟩ := key ys g0 (fun y hy => (hmem y).1 hy) hc hk (mazeRel_refl g0)
  refine ⟨fun g' h => ?_, fun hsmall => ?_⟩
  · simp only [growMazes, Surface.height, hys] at h
    obtain ⟨hc', hk', hr', _, hall⟩ := hpost g' h
    exact ⟨hc', hk', hr', fun x y h1 h2 h3 h4 h5 h6 =>
      hall y ((hmem y).2 ⟨h4, h5, h6⟩) x h1 h2 h3⟩
  · obtain ⟨g', hfold⟩ := htotal hsmall
    refine ⟨g', ?_⟩
    simp only [growMazes, Surface.height, hys]
    exact hfold

/-! ## The carving phases return -/

theorem oddInt_total (r : RNG) (lo hi : Int)
    (h : (if lo.tmod 2 = 0 then lo + 1 else lo) ≤ hi) : ∃ v r1, r.oddInt lo hi = Except.ok (v, r1) := by
  unfold RNG.oddInt
  simp only
  rw [if_neg (not_lt.2 h)]
  exact ⟨_, _, rfl⟩

theorem oddSize_total (r : RNG) (lo hi : Int) (hlo : lo % 2 = 1) (h : lo ≤ hi) :
    ∃ size r1, r.oddSize lo hi = Except.ok (size, r1) := by
  have hne : ¬ lo.tmod 2 = 0 := by
    rw [tmod_two_eq_zero]
    omega
  obtain ⟨w, r1, h1⟩ := oddInt_total r lo hi (by rw [if_neg hne]; exact h)
  obtain ⟨hh, r2, h2⟩ := oddInt_total r1 lo hi (by rw [if_neg hne]; exact h)
  exact ⟨⟨w, hh⟩, r2, by simp only [RNG.oddSize, h1, h2]⟩

theorem oddPoint_total (r : RNG) (bound : Size) (hw : 2 ≤ bound.w) (hh : 2 ≤ bound.h) :
    ∃ pos r1, r.oddPoint bound = Except.ok (pos, r1) := by
  have h0 : (0 : Int).tmod 2 = 0 := by decide
  obtain ⟨x, r1, h1⟩ := oddInt_total r 0 (bound.w - 1) (by rw [if_pos h0]; omega)
  obtain ⟨y, r2, h2⟩ := oddInt_total r1 0 (bound.h - 1) (by rw [if_pos h0]; omega)
  exact ⟨⟨x, y⟩, r2, by simp only [RNG.oddPoint, h1, h2]⟩

/-- With parameters that fit the grid, on a grid with fewer cells than the region type has
values, a pass through the loop body of `placeRooms` returns, and it leaves a non-empty room
list. -/

theorem roomAttempt_total (bits : Nat) (params : GenParams) (g : Generator)
    (hfit : ParamsFit params g.tiles) (hg : PlaceInv bits g)
    (hsmall : g.tiles.w * g.tiles.h + 1 < 2 ^ bits)
    (hlatch : g.currentRegion = null_region bits → g.started = false) :
    ∃ g', roomAttempt bits params g = Except.ok g' ∧ g'.rooms ≠ [] ∧ g'.tiles.w = g.tiles.w ∧
      g'.tiles.h = g.tiles.h ∧ (g'.currentRegion = null_region bits → g'.started = false) := by
  obtain ⟨f1, f2, f3, f4, f5, f6, f7⟩ := hfit
  obtain ⟨size, rng1, hsize⟩ := oddSize_total g.rng params.roomSizeMin params.roomSizeMax f1 f4
  have hs := oddSize_ok _ _ _ _ _ hsize
  obtain ⟨pos, rng2, hpos⟩ := oddPoint_total rng1 (g.tiles.size - size)
    (by show 2 ≤ (g.tiles.w : Int) - size.w; omega)
    (by show 2 ≤ (g.tiles.h : Int) - size.h; omega)
  by_cases hany : g.rooms.any (fun room => Rect.intersects ⟨pos, size⟩ room) = true
  · refine ⟨{ g with rng := rng2 }, ?_, ?_, rfl, rfl, hlatch⟩
    · simp only [roomAttempt, hsize, hpos, hany, if_true]
    · intro hnil
      simp only at hnil
      rw [hnil] at hany
      simp at hany
  · have hpos2 : 0 < 2 ^ bits := pow_pos (by norm_num) bits
    have harea := nonWallCount_le_area g.tiles hg.1.tilesWF
    have hassert : ¬ (g.started = true ∧ (g.currentRegion + 1) % 2 ^ bits = 0) := by
      rcases hg.1.counted with ⟨hnull, _⟩ | ⟨_, hle⟩
      · rw [hlatch hnull]
        simp
      · have hnext : (g.currentRegion + 1) % 2 ^ bits = g.currentRegion + 1 :=
          Nat.mod_eq_of_lt (by omega)
        rw [hnext]
        omega
    have hstart : startRegion bits { g with rng := rng2, rooms := g.rooms ++ [⟨pos, size⟩] } =
        Except.ok ⟨rng2, g.tiles, g.regions, g.rooms ++ [⟨pos, size⟩],
          (g.currentRegion + 1) % 2 ^ bits, true⟩ := by
      simp only [startRegion]
      rw [if_neg]
      simpa using hassert
    have hattempt : roomAttempt bits params g = Except.ok (carveRect
        ⟨rng2, g.tiles, g.regions, g.rooms ++ [⟨pos, size⟩],
          (g.currentRegion + 1) % 2 ^ bits, true⟩ ⟨pos, size⟩ Tile.room) := by
      simp only [roomAttempt, hsize, hpos, hany, hstart]
      simp
    refine ⟨_, hattempt, ?_, rfl, rfl, ?_⟩
    · simp [carveRect]
    · intro hnull
      exfalso
      obtain ⟨c, hc1, _, hc2, _, _⟩ := startRegion_counted bits
        { g with rng := rng2, rooms := g.rooms ++ [⟨pos, size⟩] } _ hg.1.bounded
        hg.1.counted hstart
      have : c = (g.currentRegion + 1) % 2 ^ bits := by
        have := congrArg Generator.currentRegion hc1
        simpa using this.symm
      rw [this] at hc2
      have hnull' : (g.currentRegion + 1) % 2 ^ bits = null_region bits := hnull
      rw [hnull', null_region] at hc2
      have hc3 : 2 ^ bits - 1 ≤ nonWallCount g.tiles := hc2
      omega

theorem placeRoomsLoop_total (bits : Nat) (params : GenParams) (d : Nat) (g : Generator)
    (hfit : ParamsFit params g.tiles) (hg : PlaceInv bits g)
    (hsmall : g.tiles.w * g.tiles.h + 1 < 2 ^ bits)
    (hlatch : g.currentRegion = null_region bits → g.started = false) :
    ∃ g', placeRoomsLoop bits params d g = Except.ok g' ∧ (0 < d → g'.rooms ≠ []) := by
  induction d generalizing g with
  | zero => exact ⟨g, rfl, fun h => by omega⟩
  | succ d ih =>
    obtain ⟨g1, h1, hne, hw, hh, hl1⟩ := roomAttempt_total bits params g hfit hg hsmall hlatch
    have hfit1 : ParamsFit params g1.tiles := by
      simpa [ParamsFit, hw, hh] using hfit
    obtain ⟨g', h2, hd⟩ := ih g1 hfit1 (roomAttempt_placeInv bits params g g1 hfit.2.1 hg h1)
      (by rw [hw, hh]; exact hsmall) hl1
    refine ⟨g', ?_, fun _ => ?_⟩
    · simp only [placeRoomsLoop, h1]
      exact h2
    · rcases Nat.eq_zero_or_pos d with h0 | h0
      · subst h0
        simp only [placeRoomsLoop] at h2
        cases h2
        exact hne
      · exact hd h0

theorem placeRooms_total (bits : Nat) (params : GenParams) (g : Generator)
    (hfit : ParamsFit params g.tiles) (hg : PlaceInv bits g)
    (hsmall : g.tiles.w * g.tiles.h + 1 < 2 ^ bits)
    (hlatch : g.currentRegion = null_region bits → g.started = false) :
    ∃ g', placeRooms bits params g = Except.ok g' ∧ g'.rooms ≠ [] := by
  obtain ⟨g', h, hne⟩ :=
    placeRoomsLoop_total bits params params.roomDensity.toNat g hfit hg hsmall hlatch
  obtain ⟨f1, f2, f3, f4, f5, f6, f7⟩ := hfit
  refine ⟨g', ?_, hne (by omega)⟩
  have a1 : params.roomSizeMin.tmod 2 = 1 := (tmod_two_eq_one _).2 ⟨f1, f2⟩
  have a2 : params.roomSizeMax.tmod 2 = 1 := (tmod_two_eq_one _).2 ⟨f3, by omega⟩
  have a3 : params.roomSizeMin ≤ g.tiles.width - 2 := by simp only [Surface.width]; omega
  have a4 : params.roomSizeMin ≤ g.tiles.height - 2 := by simp only [Surface.height]; omega
  simp only [placeRooms, a1, a2, a3, a4, f7, gt_iff_lt, not_true_eq_false, if_false, ne_eq]
  exact h

theorem roomAttempt_dims (bits : Nat) (params : GenParams) (g g' : Generator)
    (h : roomAttempt bits params g = Except.ok g') :
    g'.tiles.w = g.tiles.w ∧ g'.tiles.h = g.tiles.h := by
  obtain ⟨size, pos, rng1, rng2, _, _, hcase⟩ := roomAttempt_ok bits params g g' h
  rcases hcase with ⟨_, rfl⟩ | ⟨_, g1, hstart, rfl⟩
  · exact ⟨rfl, rfl⟩
  · obtain ⟨rfl, _⟩ := startRegion_ok bits _ _ hstart
    exact ⟨rfl, rfl⟩

theorem placeRooms_dims (bits : Nat) (params : GenParams) (g g' : Generator)
    (h : placeRooms bits params g = Except.ok g') :
    g'.tiles.w = g.tiles.w ∧ g'.tiles.h = g.tiles.h := by
  obtain ⟨_, _, _, _, _, hloop⟩ := placeRooms_ok bits params g g' h
  exact placeRoomsLoop_induct bits params
    (fun a => a.tiles.w = g.tiles.w ∧ a.tiles.h = g.tiles.h)
    (fun a b ha hab => by
      obtain ⟨h1, h2⟩ := roomAttempt_dims bits params a b hab
      exact ⟨h1.trans ha.1, h2.trans ha.2⟩) _ g g' ⟨rfl, rfl⟩ hloop

theorem placeExit_dims (g g' : Generator) (h : placeExit g = Except.ok g') :
    g'.tiles.w = g.tiles.w ∧ g'.tiles.h = g.tiles.h := by
  unfold placeExit at h
  split at h
  · cases h
  · have hg' := (Except.ok.inj h).symm
    subst hg'
    exact ⟨Surface.set_w _ _ _, Surface.set_h _ _ _⟩

theorem reset_dims (bits : Nat) (stream : Nat → Nat) (started : Bool) (w : World) :
    (reset (Generator.new bits stream w started)).tiles.w = w.tiles.w ∧
      (reset (Generator.new bits stream w started)).tiles.h = w.tiles.h ∧
      (reset (Generator.new bits stream w started)).currentRegion = null_region bits ∧
      (reset (Generator.new bits stream w started)).started = started :=
  ⟨rfl, rfl, rfl, rfl⟩

/-- The state after the carving phases of `generate` on a well-formed world of odd size, for
a region type of any width. -/

theorem carvePhases_inv (bits : Nat) (params : GenParams) (stream : Nat → Nat) (started : Bool)
    (w : World) (g' : Generator) (hwf : w.WF) (hw : w.tiles.w % 2 = 1) (hh : w.tiles.h % 2 = 1)
    (h : carvePhases bits params (Generator.new bits stream w started) = Except.ok g') :
    CarveInv bits g' ∧ KInv g' ∧ g'.tiles.w = w.tiles.w ∧ g'.tiles.h = w.tiles.h ∧
      g'.rooms ≠ [] ∧ RoomsOK params g'.rooms ∧
      (∀ room ∈ g'.rooms.head?, g'.tiles.ref (room.p + (room.s.point).div 2) = Tile.stairs) ∧
      ∀ x y : Int, 1 ≤ x → x < w.tiles.w → x % 2 = 1 → 1 ≤ y → y < w.tiles.h → y % 2 = 1 →
        g'.tiles.ref ⟨x, y⟩ ≠ Tile.wall := by
  unfold carvePhases at h
  split at h
  · cases h
  · rename_i g1 h1
    split at h
    · cases h
    · rename_i g2 h2
      have hd0 := reset_dims bits stream started w
      have hp1 := placeRooms_placeInv bits params _ g1 (reset_placeInv bits stream started w hwf) h1
      have hd1 := placeRooms_dims bits params _ g1 h1
      have hok1 : RoomsOK params g1.rooms := by
        obtain ⟨_, _, _, _, _, hloop⟩ := placeRooms_ok bits params _ g1 h1
        exact placeRoomsLoop_induct bits params (fun a => RoomsOK params a.rooms)
          (fun a b ha hab => roomAttempt_roomsOK bits params a b ha hab) _ _ g1
          ⟨List.Pairwise.nil, fun r hr => by cases hr⟩ hloop
      obtain ⟨hc2, hr2, hne2, hst2⟩ := placeExit_carveInv bits g1 g2 hp1.1 h2
      have hk2 := placeExit_kinv bits g1 g2 hp1.1 (placeInv_kinv bits g1 hp1) h2
      have hd2 := placeExit_dims g1 g2 h2
      have hw2 : g2.tiles.w = w.tiles.w := by rw [hd2.1, hd1.1, hd0.1]
      have hh2 : g2.tiles.h = w.tiles.h := by rw [hd2.2, hd1.2, hd0.2.1]
      -- an open cell: the centre of the first room
      obtain ⟨room, hroom⟩ : ∃ room, g2.rooms.head? = some room := by
        cases hr : g2.rooms with
        | nil => exact absurd hr hne2
        | cons a l => exact ⟨a, rfl⟩
      have hcentre := hst2 room hroom
      have hopen : g2.tiles.ref (room.p + (room.s.point).div 2) ≠ Tile.wall := by
        rw [hcentre]
        exact fun hh => by cases hh
      obtain ⟨hc3, hk3, hrel, hall⟩ := (growMazes_spec bits params g2 _ hopen
        (by rw [hw2]; exact hw) (by rw [hh2]; exact hh) hc2 hk2).1 g' h
      refine ⟨hc3, hk3, hrel.2.1.trans hw2, hrel.2.2.1.trans hh2, ?_, ?_, ?_, ?_⟩
      · rw [hrel.1]; exact hne2
      · rw [hrel.1, hr2]; exact hok1
      · intro r hr
        rw [hrel.1] at hr
        have hs := hst2 r hr
        rw [hrel.2.2.2 _ (by rw [hs]; exact fun hh => by cases hh)]
        exact hs
      · intro x y a1 a2 a3 a4 a5 a6
        exact hall x y a1 (by rw [hw2]; exact a2) a3 a4 (by rw [hh2]; exact a5) a6

/-- The carving phases return for the first generator of a program run when every room that
can be drawn fits the grid and the grid has fewer cells than the region type has values. -/
theorem carvePhases_total (bits : Nat) (params : GenParams) (stream : Nat → Nat) (w : World)
    (hwf : w.WF) (hw : w.tiles.w % 2 = 1) (hh : w.tiles.h % 2 = 1)
    (hsmall : w.tiles.w * w.tiles.h + 1 < 2 ^ bits) (hfit : ParamsFit params w.tiles) :
    ∃ g', carvePhases bits params (Generator.new bits stream w false) = Except.ok g' := by
  have hp0 := reset_placeInv bits stream false w hwf
  obtain ⟨g1, h1, hne1⟩ := placeRooms_total bits params _ hfit hp0 hsmall (fun _ => rfl)
  have hp1 := placeRooms_placeInv bits params _ g1 hp0 h1
  have hd1 := placeRooms_dims bits params _ g1 h1
  obtain ⟨room, rest, hrooms⟩ : ∃ room rest, g1.rooms = room :: rest := by
    cases hr : g1.rooms with
    | nil => exact absurd hr hne1
    | cons a l => exact ⟨a, l, rfl⟩
  have h2 : placeExit g1 =
      Except.ok { g1 with tiles := g1.tiles.set (room.p + (room.s.point).div 2) Tile.stairs } := by
    simp only [placeExit, hrooms]
  obtain ⟨hc2, hr2, hne2, hst2⟩ := placeExit_carveInv bits g1 _ hp1.1 h2
  have hk2 := placeExit_kinv bits g1 _ hp1.1 (placeInv_kinv bits g1 hp1) h2
  have hd2 := placeExit_dims g1 _ h2
  have hcentre := hst2 room (by simp only [hrooms]; rfl)
  obtain ⟨g3, h3⟩ := (growMazes_spec bits params _ _
    (by rw [hcentre]; exact fun hh => by cases hh)
    (by rw [hd2.1, hd1.1]; exact hw) (by rw [hd2.2, hd1.2]; exact hh) hc2 hk2).2
    (by rw [hd2.1, hd2.2, hd1.1, hd1.2]; exact hsmall)
  exact ⟨g3, by simp only [carvePhases, h1, h2]; exact h3⟩

/-- While the region counter is not `null_region`, no open cell of a grid in the carving
invariant carries `null_region`. -/
theorem CarveInv.regioned {bits : Nat} {g : Generator} (hc : CarveInv bits g)
    (hcur : g.currentRegion ≠ null_region bits) (p : Point)
    (hp : g.tiles.ref p ≠ Tile.wall) : g.regions.ref p ≠ null_region bits := by
  have hle := hc.regionLe p hp
  have hb := hc.bounded
  rw [null_region] at hcur ⊢
  omega

/-- Witness for C3: two rooms of 3 by 3 cells on the 9 by 7 example world. -/
theorem placeRooms_non_overlap_witness :
    ((reset (Generator.new 16 exampleDraws exampleWorld false)).rooms = [] ∧
      placeRooms 16 exampleParams (reset (Generator.new 16 exampleDraws exampleWorld false)) =
        Except.ok (resultOr (Generator.new 16 exampleDraws exampleWorld false)
          (placeRooms 16 exampleParams
            (reset (Generator.new 16 exampleDraws exampleWorld false))))) ∧
    ((∀ (i j : Nat)
        (hi : i < (resultOr (Generator.new 16 exampleDraws exampleWorld false)
          (placeRooms 16 exampleParams
            (reset (Generator.new 16 exampleDraws exampleWorld false)))).rooms.length)
        (hj : j < (resultOr (Generator.new 16 exampleDraws exampleWorld false)
          (placeRooms 16 exampleParams
            (reset (Generator.new 16 exampleDraws exampleWorld false)))).rooms.length), i ≠ j →
        Rect.intersects
          (resultOr (Generator.new 16 exampleDraws exampleWorld false)
            (placeRooms 16 exampleParams
              (reset (Generator.new 16 exampleDraws exampleWorld false)))).rooms[i]
          (resultOr (Generator.new 16 exampleDraws exampleWorld false)
            (placeRooms 16 exampleParams
              (reset (Generator.new 16 exampleDraws exampleWorld false)))).rooms[j] = false) ∧
      ∀ r ∈ (resultOr (Generator.new 16 exampleDraws exampleWorld false)
          (placeRooms 16 exampleParams
            (reset (Generator.new 16 exampleDraws exampleWorld false)))).rooms,
        r.s.w % 2 = 1 ∧ r.s.h % 2 = 1 ∧
        exampleParams.roomSizeMin ≤ r.s.w ∧ r.s.w ≤ exampleParams.roomSizeMax ∧
        exampleParams.roomSizeMin ≤ r.s.h ∧ r.s.h ≤ exampleParams.roomSizeMax) :=
  ⟨⟨rfl, eq_ok_of_faultOf _ _ (by decide!)⟩,
    placeRooms_non_overlap 16 exampleParams _ _ rfl (eq_ok_of_faultOf _ _ (by decide!))⟩

/-- C4 at a failing input: on the 5 by 5 world with `roomSizeMin = 3`, `roomSizeMax = 5` and
one attempt all five assertions of `placeRooms` pass, the size drawn is 5 by 3, and the bound
`tiles.size() - size` handed to `oddPoint` is 0 by 2, which holds no odd coordinate: the run
ends in the fault of the random source and no room inside the grid is drawn. -/

theorem placeRooms_room_too_large :
    faultOf (placeRooms 16 ⟨3, 5, 1, 100, 0⟩
        (reset (Generator.new 16 (drawsOf [1, 0]) smallWorld false))) = some Fault.rngRange ∧
      faultOf (RNG.oddSize ⟨drawsOf [1, 0], 0⟩ 3 5) = none ∧
      (resultOr (⟨0, 0⟩, ⟨drawsOf [], 0⟩) (RNG.oddSize ⟨drawsOf [1, 0], 0⟩ 3 5)).1 = ⟨5, 3⟩ ∧
      (reset (Generator.new 16 (drawsOf [1, 0]) smallWorld false)).tiles.size - ⟨5, 3⟩ = ⟨0, 2⟩ ∧
      ∀ r : RNG, faultOf (r.oddPoint ⟨0, 2⟩) = some Fault.rngRange := by
  refine ⟨by decide!, by decide!, by decide!, by decide!, ?_⟩
  intro r
  simp [RNG.oddPoint, RNG.oddInt, faultOf]

theorem applyMapping_ok (mapping : RegionMap) (regions m : RegionSet)
    (h : applyMapping mapping regions = Except.ok m) :
    (∀ r ∈ regions, (mapping r).isSome = true) ∧ m = regions.image (fun r => (mapping r).getD 0) := by
  unfold applyMapping at h
  split at h
  · rename_i hall
    exact ⟨hall, (Except.ok.inj h).symm⟩
  · cases h

theorem applyMapping_mem (mapping : RegionMap) (regions m : RegionSet)
    (h : applyMapping mapping regions = Except.ok m) (v : Nat) (hv : v ∈ m) :
    ∃ r ∈ regions, mapping r = some v := by
  obtain ⟨hall, rfl⟩ := applyMapping_ok mapping regions m h
  obtain ⟨r, hr, hrv⟩ := Finset.mem_image.1 hv
  refine ⟨r, hr, ?_⟩
  have := hall r hr
  cases hm : mapping r with
  | none => rw [hm] at this; cases this
  | some x =>
    rw [hm] at hrv
    simp only [Option.getD_some] at hrv
    rw [hrv]

theorem findConnectorsCell_card (bits : Nat) (g : Generator) (y x : Int) (acc : ConnectorMap)
    (hacc : ∀ con ∈ acc, 2 ≤ con.2.card) :
    ∀ con ∈ findConnectorsCell bits g y acc x, 2 ≤ con.2.card := by
  unfold findConnectorsCell
  split
  · exact hacc
  · split
    · rename_i hcard
      intro con hcon
      rcases List.mem_append.1 hcon with h | h
      · exact hacc con h
      · rw [List.mem_singleton] at h
        subst h
        exact hcard
    · exact hacc

theorem findConnectors_card (bits : Nat) (g : Generator) (cs : ConnectorMap)
    (h : findConnectors bits g = Except.ok cs) : ∀ con ∈ cs, 2 ≤ con.2.card := by
  have hcells : ∀ (xs : List Int) (y : Int) (acc : ConnectorMap),
      (∀ con ∈ acc, 2 ≤ con.2.card) →
      ∀ con ∈ xs.foldl (findConnectorsCell bits g y) acc, 2 ≤ con.2.card := by
    intro xs y
    induction xs with
    | nil => exact fun acc hacc => hacc
    | cons x xs ih => exact fun acc hacc => ih _ (findConnectorsCell_card bits g y x acc hacc)
  have hrows : ∀ (ys : List Int) (acc res : ConnectorMap),
      (∀ con ∈ acc, 2 ≤ con.2.card) →
      ys.foldlM (findConnectorsRow bits g) acc = Except.ok res →
      ∀ con ∈ res, 2 ≤ con.2.card := by
    intro ys
    induction ys with
    | nil =>
      intro acc res hacc hres
      cases hres
      exact hacc
    | cons y ys ih =>
      intro acc res hacc hres
      simp only [List.foldlM_cons, bind, Except.bind] at hres
      split at hres
      · cases hres
      · rename_i acc1 hrow
        unfold findConnectorsRow at hrow
        split at hrow
        · cases hrow
        · rename_i xs _
          have := Except.ok.inj hrow
          subst this
          exact ih _ res (hcells xs y acc hacc) hres
  unfold findConnectors at h
  split at h
  · cases h
  · exact hrows _ [] cs (fun con hcon => by cases hcon) h

theorem regionRange_ok (bits : Nat) (g : Generator) (rs : List Nat)
    (h : regionRange bits g = some rs) : rs = List.range (g.currentRegion + 1) := by
  unfold regionRange at h
  split at h
  · cases h
  · exact (Option.some.inj h).symm

theorem initMapping_spec (rs : List Nat) (m0 : RegionMap) (o0 : BigRegionSet)
    (h0 : ∀ k v, m0 k = some v → v = k ∧ k ∈ o0) :
    (∀ k v, rs.foldl (fun m r => fun k => if k = r ∧ m k = none then some r else m k) m0 k = some v →
      v = k ∧ k ∈ rs.foldl (fun o r => insert r o) o0) ∧
    (∀ k, k ∈ o0 → k ∈ rs.foldl (fun o r => insert r o) o0) ∧
    (∀ k, k ∈ rs.foldl (fun o r => insert r o) o0 → k ∈ o0 ∨ k ∈ rs) ∧
    (∀ k, k ∈ rs → k ∈ rs.foldl (fun o r => insert r o) o0) := by
  induction rs generalizing m0 o0 with
  | nil => exact ⟨h0, fun k hk => hk, fun k hk => Or.inl hk, fun k hk => by cases hk⟩
  | cons r rs ih =>
    simp only [List.foldl_cons]
    have h1 : ∀ k v, (fun k => if k = r ∧ m0 k = none then some r else m0 k) k = some v →
        v = k ∧ k ∈ insert r o0 := by
      intro k v hkv
      simp only at hkv
      split at hkv
      · rename_i hc
        have := Option.some.inj hkv
        subst this
        exact ⟨hc.1.symm, by rw [hc.1]; exact Finset.mem_insert_self _ _⟩
      · obtain ⟨e1, e2⟩ := h0 k v hkv
        exact ⟨e1, Finset.mem_insert_of_mem e2⟩
    obtain ⟨a, b, c, d⟩ := ih _ _ h1
    refine ⟨a, fun k hk => b k (Finset.mem_insert_of_mem hk), fun k hk => ?_, fun k hk => ?_⟩
    · rcases c k hk with h | h
      · rcases Finset.mem_insert.1 h with h | h
        · exact Or.inr (by rw [h]; exact List.mem_cons_self _ _)
        · exact Or.inl h
      · exact Or.inr (List.mem_cons_of_mem _ h)
    · rcases List.mem_cons.1 hk with h | h
      · exact b k (by rw [h]; exact Finset.mem_insert_self _ _)
      · exact d k h

/-- The loop invariant holds when the loop of `connectRegions` is entered. -/
theorem connectInit_inv (bits : Nat) (g : Generator) (s0 : ConnectState)
    (h : connectInit bits g = Except.ok s0) :
    ConnInv s0 ∧ s0.gen = g ∧ s0.openRegions.card ≤ g.currentRegion + 1 := by
  unfold connectInit at h
  split at h
  · cases h
  · rename_i cs hcs
    split at h
    · cases h
    · rename_i rs hrs
      have hrange := regionRange_ok bits g rs hrs
      have hs0 := (Except.ok.inj h).symm
      subst hs0
      obtain ⟨a, b, c, d⟩ := initMapping_spec rs (fun _ => none) ∅ (fun k v hkv => by cases hkv)
      have hsub : rs.foldl (fun o r => insert r o) (∅ : Finset Nat) ⊆
          Finset.range (g.currentRegion + 1) := by
        intro k hk
        rcases c k hk with h | h
        · simp at h
        · rw [hrange] at h
          exact Finset.mem_range.2 (List.mem_range.1 h)
      have hzero : (0 : Nat) ∈ rs.foldl (fun o r => insert r o) (∅ : Finset Nat) :=
        d 0 (by rw [hrange]; exact List.mem_range.2 (by omega))
      refine ⟨⟨?_, ⟨0, hzero⟩, ?_⟩, rfl, ?_⟩
      · intro k v hkv
        obtain ⟨e1, e2⟩ := a k v hkv
        subst e1
        refine ⟨?_, e2⟩
        have := Finset.mem_range.1 (hsub e2)
        simp only
        omega
      · intro con hcon m hm
        simp only at hcon hm
        obtain ⟨hall, rfl⟩ := applyMapping_ok _ _ _ hm
        have himg : con.2.image (fun r =>
            (rs.foldl (fun m r => fun k => if k = r ∧ m k = none then some r else m k)
              (fun _ => none) r).getD 0) = con.2 := by
          apply Finset.ext
          intro v
          rw [Finset.mem_image]
          constructor
          · rintro ⟨r, hr, hrv⟩
            have := hall r hr
            cases hmr : rs.foldl (fun m r => fun k => if k = r ∧ m k = none then some r else m k)
                (fun _ => none) r with
            | none => rw [hmr] at this; cases this
            | some x =>
              rw [hmr] at hrv
              simp only [Option.getD_some] at hrv
              obtain ⟨e1, _⟩ := a r x hmr
              rw [← hrv, e1]
              exact hr
          · intro hv
            refine ⟨v, hv, ?_⟩
            have := hall v hv
            cases hmr : rs.foldl (fun m r => fun k => if k = r ∧ m k = none then some r else m k)
                (fun _ => none) v with
            | none => rw [hmr] at this; cases this
            | some x =>
              simp only [Option.getD_some]
              exact (a v x hmr).1
        rw [himg]
        exact findConnectors_card bits g cs hcs con hcon
      · calc (rs.foldl (fun o r => insert r o) (∅ : Finset Nat)).card
            ≤ (Finset.range (g.currentRegion + 1)).card := Finset.card_le_card hsub
          _ = g.currentRegion + 1 := Finset.card_range _

theorem mergeRegions_spec (sources : RegionSet) (dest : Nat) (rs : List Nat) (m0 m' : RegionMap)
    (hd : dest ∉ sources) (h : mergeRegions sources dest rs m0 = Except.ok m') :
    (∀ k v, m' k = some v → v = dest ∨ m0 k = some v) ∧
      (∀ k, m' k = none ↔ m0 k = none) ∧
      (∀ k ∈ rs, ∀ v, m' k = some v → v ∉ sources) := by
  induction rs generalizing m0 with
  | nil =>
    simp only [mergeRegions, List.foldlM_nil, pure, Except.pure] at h
    have := Except.ok.inj h
    subst this
    exact ⟨fun k v hkv => Or.inr hkv, fun k => Iff.rfl, fun k hk => by cases hk⟩
  | cons r rs ih =>
    simp only [mergeRegions, List.foldlM_cons, bind, Except.bind] at h
    split at h
    · cases h
    · rename_i m1 hm1
      split at hm1
      · cases hm1
      · rename_i merged hmerged
        have hm1' := (Except.ok.inj hm1).symm
        obtain ⟨a, b, c⟩ := ih m1 h
        have hval : ∀ k v, m1 k = some v → v = dest ∨ m0 k = some v := by
          intro k v hkv
          rw [hm1'] at hkv
          split at hkv
          · simp only at hkv
            split at hkv
            · exact Or.inl (Option.some.inj hkv).symm
            · exact Or.inr hkv
          · exact Or.inr hkv
        have hnone : ∀ k, m1 k = none ↔ m0 k = none := by
          intro k
          rw [hm1']
          split
          · simp only
            split
            · rename_i hk
              rw [hk, hmerged]
              simp
            · exact Iff.rfl
          · exact Iff.rfl
        have hr : ∀ v, m1 r = some v → v ∉ sources := by
          intro v hv
          rw [hm1'] at hv
          split at hv
          · simp only [if_true] at hv
            rw [← Option.some.inj hv]
            exact hd
          · rename_i hnot
            rw [hmerged] at hv
            rw [← Option.some.inj hv]
            exact hnot
        refine ⟨?_, fun k => (b k).trans (hnone k), ?_⟩
        · intro k v hkv
          rcases a k v hkv with h1 | h1
          · exact Or.inl h1
          · exact hval k v h1
        · intro k hk v hkv
          rcases List.mem_cons.1 hk with hk | hk
          · subst hk
            rcases a k v hkv with h1 | h1
            · rw [h1]; exact hd
            · exact hr v h1
          · exact c k hk v hkv

theorem sweep_spec (params : GenParams) (conPos : Point) (mapping : RegionMap)
    (cs kept : ConnectorMap) (g g' : Generator)
    (h : sweep params conPos mapping cs g = Except.ok (kept, g')) :
    (∀ con ∈ kept, con ∈ cs ∧ ∃ m, applyMapping mapping con.2 = Except.ok m ∧ 1 < m.card) ∧
      g'.currentRegion = g.currentRegion ∧ g'.regions = g.regions ∧ g'.rooms = g.rooms ∧
      g'.started = g.started := by
  induction cs generalizing kept g with
  | nil =>
    simp only [sweep] at h
    obtain ⟨h1, h2⟩ := Prod.mk.inj (Except.ok.inj h)
    subst h1 h2
    exact ⟨(fun con hcon => by cases hcon), rfl, rfl, rfl, rfl⟩
  | cons con rest ih =>
    simp only [sweep] at h
    split at h
    · obtain ⟨a, b⟩ := ih kept g h
      exact ⟨(fun c hc => ⟨List.mem_cons_of_mem _ (a c hc).1, (a c hc).2⟩), b⟩
    · split at h
      · cases h
      · rename_i merged hmerged
        split at h
        · rename_i hcard
          split at h
          · cases h
          · rename_i kept1 g1 hrest
            obtain ⟨h1, h2⟩ := Prod.mk.inj (Except.ok.inj h)
            subst h1 h2
            obtain ⟨a, b⟩ := ih kept1 g hrest
            refine ⟨fun c hc => ?_, b⟩
            rcases List.mem_cons.1 hc with hc | hc
            · subst hc
              exact ⟨List.mem_cons_self _ _, merged, hmerged, hcard⟩
            · exact ⟨List.mem_cons_of_mem _ (a c hc).1, (a c hc).2⟩
        · obtain ⟨a, b⟩ := ih kept _ h
          exact ⟨(fun c hc => ⟨List.mem_cons_of_mem _ (a c hc).1, (a c hc).2⟩), b⟩

/-- What a completed pass through the loop body of `connectRegions` did. -/
theorem connectStep_ok (bits : Nat) (params : GenParams) (s s' : ConnectState)
    (h : connectStep bits params s = Except.ok s') :
    ∃ con resolved dest mapping g1,
      con ∈ s.connectors ∧
      applyMapping s.mergeMapping con.2 = Except.ok resolved ∧
      resolved.min = some dest ∧
      mergeRegions (resolved.erase dest) dest (List.range (s.gen.currentRegion + 1))
        s.mergeMapping = Except.ok mapping ∧
      sweep params con.1 mapping s.connectors g1 = Except.ok (s'.connectors, s'.gen) ∧
      g1.currentRegion = s.gen.currentRegion ∧ g1.regions = s.gen.regions ∧
      g1.rooms = s.gen.rooms ∧ g1.started = s.gen.started ∧
      g1.tiles = s.gen.tiles.set con.1 Tile.closed_door ∧
      s'.mergeMapping = mapping ∧ s'.openRegions = s.openRegions \ resolved.erase dest := by
  unfold connectStep at h
  split at h
  · cases h
  · rename_i con hcon
    split at h
    · cases h
    · rename_i resolved hres
      split at h
      · cases h
      · rename_i dest hdest
        split at h
        · cases h
        · rename_i rs hrs
          split at h
          · cases h
          · rename_i mapping hmap
            split at h
            · cases h
            · rename_i connectors g2 hsweep
              have hs' := (Except.ok.inj h).symm
              subst hs'
              rw [regionRange_ok bits s.gen rs hrs] at hmap
              exact ⟨con, resolved, dest, mapping, _, List.get?_mem hcon, hres, hdest, hmap,
                hsweep, rfl, rfl, rfl, rfl, rfl, rfl, rfl⟩

/-- A completed pass through the loop body keeps the loop invariant and closes at least one
open region. -/

theorem connectStep_inv (bits : Nat) (params : GenParams) (s s' : ConnectState)
    (hinv : ConnInv s) (h : connectStep bits params s = Except.ok s') :
    ConnInv s' ∧ s'.openRegions.card < s.openRegions.card ∧
      s'.gen.currentRegion = s.gen.currentRegion := by
  obtain ⟨con, resolved, dest, mapping, g1, hcon, hres, hdest, hmap, hsweep, hcr1, _, _, _, _,
    hm', ho'⟩ := connectStep_ok bits params s s' h
  obtain ⟨hvals, _, hcons⟩ := hinv
  obtain ⟨hkept, hcr2, _, _, _⟩ := sweep_spec params con.1 mapping _ _ _ _ hsweep
  have hcr : s'.gen.currentRegion = s.gen.currentRegion := hcr2.trans hcr1
  have hcard := hcons con hcon resolved hres
  have hdmem : dest ∈ resolved := Finset.mem_of_min hdest
  have hsub : resolved ⊆ s.openRegions := by
    intro v hv
    obtain ⟨r, _, hr⟩ := applyMapping_mem _ _ _ hres v hv
    exact (hvals r v hr).2
  have hsub2 : resolved.erase dest ⊆ s.openRegions :=
    fun v hv => hsub (Finset.mem_of_mem_erase hv)
  have hnot : dest ∉ resolved.erase dest := Finset.not_mem_erase _ _
  obtain ⟨a, b, c⟩ := mergeRegions_spec _ _ _ _ _ hnot hmap
  have hdopen : dest ∈ s.openRegions \ resolved.erase dest :=
    Finset.mem_sdiff.2 ⟨hsub hdmem, hnot⟩
  refine ⟨⟨?_, ?_, ?_⟩, ?_, hcr⟩
  · intro k v hkv
    rw [hm'] at hkv
    have hk0 : s.mergeMapping k ≠ none := by
      intro hn
      rw [(b k).2 hn] at hkv
      cases hkv
    obtain ⟨v0, hv0⟩ := Option.ne_none_iff_exists'.1 hk0
    have hkle := (hvals k v0 hv0).1
    refine ⟨by rw [hcr]; exact hkle, ?_⟩
    rw [ho']
    have hvn := c k (List.mem_range.2 (by omega)) v hkv
    rcases a k v hkv with h1 | h1
    · rw [h1]; exact hdopen
    · exact Finset.mem_sdiff.2 ⟨(hvals k v h1).2, hvn⟩
  · rw [ho']
    exact ⟨dest, hdopen⟩
  · intro c' hc' m hm
    obtain ⟨_, m1, hm1, hcard1⟩ := hkept c' hc'
    rw [hm'] at hm
    rw [hm1] at hm
    rw [← Except.ok.inj hm]
    exact hcard1
  · rw [ho', Finset.card_sdiff hsub2]
    have h1 : (resolved.erase dest).card = resolved.card - 1 := Finset.card_erase_of_mem hdmem
    have h2 : (resolved.erase dest).card ≤ s.openRegions.card := Finset.card_le_card hsub2
    omega

theorem loopReach_inv (bits : Nat) (params : GenParams) (s0 s : ConnectState) (k : Nat)
    (h0 : ConnInv s0) (h : LoopReach bits params s0 k s) :
    ConnInv s ∧ k + s.openRegions.card ≤ s0.openRegions.card ∧
      s.gen.currentRegion = s0.gen.currentRegion := by
  induction h with
  | start => exact ⟨h0, by omega, rfl⟩
  | step hreach _ hstep ih =>
    obtain ⟨hinv, hcount, hcr⟩ := ih
    obtain ⟨hinv', hlt, hcr'⟩ := connectStep_inv bits params _ _ hinv hstep
    exact ⟨hinv', by omega, hcr'.trans hcr⟩

theorem applyMapping_fault (mapping : RegionMap) (regions : RegionSet) :
    faultOf (applyMapping mapping regions) ≠ some Fault.fuel := by
  unfold applyMapping
  split <;> simp [faultOf]

theorem mergeRegions_fault (sources : RegionSet) (dest : Nat) (rs : List Nat) (m0 : RegionMap) :
    faultOf (mergeRegions sources dest rs m0) ≠ some Fault.fuel := by
  induction rs generalizing m0 with
  | nil => simp [mergeRegions, faultOf, pure, Except.pure]
  | cons r rs ih =>
    simp only [mergeRegions, List.foldlM_cons, bind, Except.bind]
    split
    · rename_i f hf
      split at hf
      · cases hf
        simp [faultOf]
      · cases hf
    · exact ih _

theorem sweep_fault (params : GenParams) (conPos : Point) (mapping : RegionMap)
    (cs : ConnectorMap) (g : Generator) :
    faultOf (sweep params conPos mapping cs g) ≠ some Fault.fuel := by
  induction cs generalizing g with
  | nil => simp [sweep, faultOf]
  | cons con rest ih =>
    simp only [sweep]
    split
    · exact ih g
    · split
      · rename_i f hf
        have h1 : faultOf (Except.error f : Except Fault RegionSet) ≠ some Fault.fuel :=
          hf ▸ applyMapping_fault mapping con.2
        simpa [faultOf] using h1
      · split
        · split
          · rename_i f hf
            have h1 : faultOf (Except.error f : Except Fault (ConnectorMap × Generator)) ≠
                some Fault.fuel := hf ▸ ih g
            simpa [faultOf] using h1
          · simp [faultOf]
        · exact ih _

theorem connectStep_fault (bits : Nat) (params : GenParams) (s : ConnectState) :
    faultOf (connectStep bits params s) ≠ some Fault.fuel := by
  unfold connectStep
  split
  · simp [faultOf]
  · split
    · rename_i f hf
      have h1 : faultOf (Except.error f : Except Fault RegionSet) ≠ some Fault.fuel :=
        hf ▸ applyMapping_fault _ _
      simpa [faultOf] using h1
    · split
      · simp [faultOf]
      · split
        · simp [faultOf]
        · split
          · rename_i f hf
            have h1 : faultOf (Except.error f : Except Fault RegionMap) ≠ some Fault.fuel :=
              hf ▸ mergeRegions_fault _ _ _ _
            simpa [faultOf] using h1
          · split
            · rename_i f hf
              have h1 : faultOf (Except.error f : Except Fault (ConnectorMap × Generator)) ≠
                  some Fault.fuel := hf ▸ sweep_fault _ _ _ _ _
              simpa [faultOf] using h1
            · simp [faultOf]

/-- The fuel of the loop of `connectRegions`, the number of open regions, is never used up. -/
theorem connectLoop_fuel (bits : Nat) (params : GenParams) (n : Nat) (s : ConnectState)
    (hinv : ConnInv s) (hn : s.openRegions.card ≤ n + 1) :
    faultOf (connectLoop bits params n s) ≠ some Fault.fuel := by
  induction n generalizing s with
  | zero =>
    rw [connectLoop]
    have : ¬ s.openRegions.card > 1 := by omega
    simp only [this, if_false, faultOf]
    exact fun h => by cases h
  | succ n ih =>
    rw [connectLoop]
    split
    · split
      · rename_i f hf
        have h1 : faultOf (Except.error f : Except Fault ConnectState) ≠ some Fault.fuel :=
          hf ▸ connectStep_fault bits params s
        simpa [faultOf] using h1
      · rename_i s1 hs1
        obtain ⟨hinv1, hlt, _⟩ := connectStep_inv bits params s s1 hinv hs1
        exact ih s1 hinv1 (by omega)
    · simp only [faultOf]
      exact fun h => by cases h

theorem findConnectors_fault (bits : Nat) (g : Generator) :
    faultOf (findConnectors bits g) ≠ some Fault.fuel := by
  have hrows : ∀ (ys : List Int) (acc : ConnectorMap),
      faultOf (ys.foldlM (findConnectorsRow bits g) acc) ≠ some Fault.fuel := by
    intro ys
    induction ys with
    | nil => intro acc; simp [faultOf, pure, Except.pure]
    | cons y ys ih =>
      intro acc
      simp only [List.foldlM_cons, bind, Except.bind]
      split
      · rename_i f hf
        unfold findConnectorsRow at hf
        split at hf
        · cases hf
          simp [faultOf]
        · cases hf
      · exact ih _
  unfold findConnectors
  split
  · simp [faultOf]
  · exact hrows _ _

theorem connectRegions_fuel (bits : Nat) (params : GenParams) (g : Generator) :
    faultOf (connectRegions bits params g) ≠ some Fault.fuel := by
  unfold connectRegions
  split
  · rename_i f hf
    unfold connectInit at hf
    split at hf
    · rename_i f1 hf1
      cases hf
      have h1 : faultOf (Except.error f : Except Fault ConnectorMap) ≠ some Fault.fuel :=
        hf1 ▸ findConnectors_fault bits g
      simpa [faultOf] using h1
    · split at hf
      · cases hf
        simp [faultOf]
      · cases hf
  · rename_i s0 hs0
    obtain ⟨hinv, _, _⟩ := connectInit_inv bits g s0 hs0
    split
    · rename_i f hf
      have h1 : faultOf (Except.error f : Except Fault ConnectState) ≠ some Fault.fuel :=
        hf ▸ connectLoop_fuel bits params s0.openRegions.card s0 hinv (by omega)
      simpa [faultOf] using h1
    · simp [faultOf]

/-- C9 (connector loop progress): in `connectRegions`, run on any generator state, every
pass of the while loop that completes (it starts with a connector to draw) leaves strictly
fewer open regions than it found; hence after `k` passes `k ≤ currentRegion`, which is the
number of regions started minus 1, and the loop never uses up its fuel, the number of regions. -/

theorem connectRegions_progress (bits : Nat) (params : GenParams) (g : Generator)
    (s0 s : ConnectState) (k : Nat) (hinit : connectInit bits g = Except.ok s0)
    (hreach : LoopReach bits params s0 k s) :
    (∀ s', 1 < s.openRegions.card → connectStep bits params s = Except.ok s' →
        s'.openRegions.card < s.openRegions.card) ∧
      k ≤ g.currentRegion ∧ faultOf (connectRegions bits params g) ≠ some Fault.fuel := by
  obtain ⟨hinv0, _, hcard0⟩ := connectInit_inv bits g s0 hinit
  obtain ⟨hinv, hcount, _⟩ := loopReach_inv bits params s0 s k hinv0 hreach
  refine ⟨fun s' _ hstep => (connectStep_inv bits params s s' hinv hstep).2.1, ?_,
    connectRegions_fuel bits params g⟩
  have hpos : 0 < s.openRegions.card := Finset.card_pos.2 hinv.2.1
  omega

/-- Witness for C9: the first pass of the loop on the 9 by 7 example, with four regions. -/
theorem connectRegions_progress_witness :
    (connectInit 16 exampleCarved = Except.ok exampleLoop0 ∧
      LoopReach 16 exampleParams exampleLoop0 1 exampleLoop1) ∧
    ((∀ s', 1 < exampleLoop1.openRegions.card →
        connectStep 16 exampleParams exampleLoop1 = Except.ok s' →
        s'.openRegions.card < exampleLoop1.openRegions.card) ∧
      1 ≤ exampleCarved.currentRegion ∧
      faultOf (connectRegions 16 exampleParams exampleCarved) ≠ some Fault.fuel) :=
  ⟨⟨eq_ok_of_faultOf _ _ (by decide!),
      LoopReach.step LoopReach.start (by decide!) (eq_ok_of_faultOf _ _ (by decide!))⟩,
    connectRegions_progress 16 exampleParams exampleCarved exampleLoop0 exampleLoop1 1
      (eq_ok_of_faultOf _ _ (by decide!))
      (LoopReach.step LoopReach.start (by decide!) (eq_ok_of_faultOf _ _ (by decide!)))⟩

/-- C10 at a failing input: the 9 by 7 world, rooms of 3 by 3 cells, two attempts.  The
carving phases leave two rooms and two corridors; the loop of `connectRegions` opens the
connectors at (3, 4) and (5, 2), and its sweeps drop every other connector as close or
redundant.  The third pass starts with two open regions and an empty connector map, and the
draw of a connector is the fault `noConnector`. -/

theorem connectRegions_connectors_run_out :
    faultOf (carvePhases 16 exampleParams (Generator.new 16 isolatingDraws exampleWorld false)) =
        none ∧
      connectInit 16 isolatingCarved = Except.ok isolatingLoop0 ∧
      LoopReach 16 exampleParams isolatingLoop0 2 isolatingLoop2 ∧
      isolatingLoop0.connectors.map Prod.fst =
        [⟨4, 1⟩, ⟨5, 2⟩, ⟨6, 2⟩, ⟨7, 2⟩, ⟨4, 3⟩, ⟨1, 4⟩, ⟨2, 4⟩, ⟨3, 4⟩, ⟨4, 5⟩] ∧
      isolatingLoop1.connectors.map Prod.fst = [⟨4, 1⟩, ⟨5, 2⟩, ⟨6, 2⟩, ⟨7, 2⟩] ∧
      isolatingLoop2.openRegions.card = 2 ∧
      isolatingLoop2.connectors.length = 0 ∧
      faultOf (connectStep 16 exampleParams isolatingLoop2) = some Fault.noConnector := by
  refine ⟨by decide!, eq_ok_of_faultOf _ _ (by decide!), ?_, by decide!, by decide!, by decide!,
    by decide!, by decide!⟩
  exact LoopReach.step
    (LoopReach.step LoopReach.start (by decide!) (eq_ok_of_faultOf _ _ (by decide!)))
    (by decide!) (eq_ok_of_faultOf _ _ (by decide!))

/-- C1 at a failing input: on the 9 by 7 world with rooms of 3 by 3 cells and two attempts
the carving phases complete, and `connectRegions` on their grid does not: it ends in the fault
`noConnector`, and so does `generate`.  The room at (1, 1) with the corridor below it and the
room at (5, 3) with the corridor above it are still separate regions. -/

theorem connectRegions_incomplete :
    faultOf (carvePhases 16 exampleParams (Generator.new 16 isolatingDraws exampleWorld false)) =
        none ∧
      faultOf (connectRegions 16 exampleParams isolatingCarved) = some Fault.noConnector ∧
      faultOf (generate 16 exampleParams (Generator.new 16 isolatingDraws exampleWorld false)) =
        some Fault.noConnector ∧
      isolatingLoop2.mergeMapping 1 = some 1 ∧ isolatingLoop2.mergeMapping 3 = some 1 ∧
      isolatingLoop2.mergeMapping 0 = some 0 ∧ isolatingLoop2.mergeMapping 2 = some 0 := by
  refine ⟨by decide!, by decide!, by decide!, by decide!, by decide!, by decide!, by decide!⟩

/-! ## The frame of the connection phase -/

theorem findConnectors_wall (bits : Nat) (g : Generator) (cs : ConnectorMap)
    (h : findConnectors bits g = Except.ok cs) : ∀ con ∈ cs, g.tiles.ref con.1 = Tile.wall := by
  have hcell : ∀ (y x : Int) (acc : ConnectorMap), (∀ con ∈ acc, g.tiles.ref con.1 = Tile.wall) →
      ∀ con ∈ findConnectorsCell bits g y acc x, g.tiles.ref con.1 = Tile.wall := by
    intro y x acc hacc
    unfold findConnectorsCell
    split
    · exact hacc
    · rename_i hwall
      split
      · intro con hcon
        rcases List.mem_append.1 hcon with h | h
        · exact hacc con h
        · rw [List.mem_singleton] at h
          subst h
          exact not_not.1 hwall
      · exact hacc
  have hcells : ∀ (xs : List Int) (y : Int) (acc : ConnectorMap),
      (∀ con ∈ acc, g.tiles.ref con.1 = Tile.wall) →
      ∀ con ∈ xs.foldl (findConnectorsCell bits g y) acc, g.tiles.ref con.1 = Tile.wall := by
    intro xs y
    induction xs with
    | nil => exact fun acc hacc => hacc
    | cons x xs ih => exact fun acc hacc => ih _ (hcell y x acc hacc)
  have hrows : ∀ (ys : List Int) (acc res : ConnectorMap),
      (∀ con ∈ acc, g.tiles.ref con.1 = Tile.wall) →
      ys.foldlM (findConnectorsRow bits g) acc = Except.ok res →
      ∀ con ∈ res, g.tiles.ref con.1 = Tile.wall := by
    intro ys
    induction ys with
    | nil =>
      intro acc res hacc hres
      cases hres
      exact hacc
    | cons y ys ih =>
      intro acc res hacc hres
      simp only [List.foldlM_cons, bind, Except.bind] at hres
      split at hres
      · cases hres
      · rename_i acc1 hrow
        unfold findConnectorsRow at hrow
        split at hrow
        · cases hrow
        · rename_i xs _
          have := Except.ok.inj hrow
          subst this
          exact ih _ res (hcells xs y acc hacc) hres
  unfold findConnectors at h
  split at h
  · cases h
  · exact hrows _ [] cs (fun con hcon => by cases hcon) h

theorem doorRel_refl (g : Generator) : DoorRel g g :=
  ⟨rfl, rfl, rfl, rfl, rfl, id, fun _ => Or.inl rfl⟩

/-- Turning a cell that was wall at the start of `connectRegions` into a closed door keeps
the frame. -/

theorem DoorRel.door {g a b : Generator} (h : DoorRel g a) (hwf : g.tiles.WF) (q : Point)
    (hq : g.tiles.ref q = Tile.wall) (hrooms : b.rooms = a.rooms) (hregions : b.regions = a.regions)
    (hcr : b.currentRegion = a.currentRegion)
    (htiles : b.tiles = a.tiles.set q Tile.closed_door ∨ b.tiles = a.tiles) : DoorRel g b := by
  obtain ⟨r1, r2, r3, r4, r5, r6, r7⟩ := h
  rcases htiles with ht | ht
  · refine ⟨hrooms.trans r1, hregions.trans r2, hcr.trans r3, ?_, ?_, ?_, ?_⟩
    · rw [ht, Surface.set_w]; exact r4
    · rw [ht, Surface.set_h]; exact r5
    · intro _
      rw [ht]
      exact Surface.set_WF _ _ _ (r6 hwf)
    · intro p
      rw [ht, Surface.ref_set _ _ _ _ (r6 hwf)]
      split
      · rename_i hpq
        rw [← hpq.2]
        exact Or.inr ⟨hq, rfl⟩
      · exact r7 p
  · refine ⟨hrooms.trans r1, hregions.trans r2, hcr.trans r3, ?_, ?_, ?_, ?_⟩
    · rw [ht]; exact r4
    · rw [ht]; exact r5
    · intro _
      rw [ht]
      exact r6 hwf
    · intro p
      rw [ht]
      exact r7 p

theorem sweep_frame (params : GenParams) (conPos : Point) (mapping : RegionMap) (g : Generator)
    (hwf : g.tiles.WF) (cs kept : ConnectorMap) (a a' : Generator)
    (hcs : ∀ con ∈ cs, g.tiles.ref con.1 = Tile.wall) (ha : DoorRel g a)
    (h : sweep params conPos mapping cs a = Except.ok (kept, a')) : DoorRel g a' := by
  induction cs generalizing kept a with
  | nil =>
    simp only [sweep] at h
    obtain ⟨_, h2⟩ := Prod.mk.inj (Except.ok.inj h)
    subst h2
    exact ha
  | cons con rest ih =>
    have hrest : ∀ c ∈ rest, g.tiles.ref c.1 = Tile.wall :=
      fun c hc => hcs c (List.mem_cons_of_mem _ hc)
    simp only [sweep] at h
    split at h
    · exact ih kept a hrest ha h
    · split at h
      · cases h
      · split at h
        · split at h
          · cases h
          · rename_i kept1 a1 hsw
            obtain ⟨_, h2⟩ := Prod.mk.inj (Except.ok.inj h)
            subst h2
            exact ih kept1 a hrest ha hsw
        · refine ih kept _ hrest ?_ h
          refine DoorRel.door ha hwf con.1 (hcs con (List.mem_cons_self _ _)) ?_ ?_ ?_ ?_
          · rfl
          · rfl
          · rfl
          · simp only
            split
            · exact Or.inl rfl
            · exact Or.inr rfl

theorem connectStep_frame (bits : Nat) (params : GenParams) (g : Generator) (hwf : g.tiles.WF)
    (s s' : ConnectState) (hcs : ∀ con ∈ s.connectors, g.tiles.ref con.1 = Tile.wall)
    (hs : DoorRel g s.gen) (h : connectStep bits params s = Except.ok s') :
    (∀ con ∈ s'.connectors, g.tiles.ref con.1 = Tile.wall) ∧ DoorRel g s'.gen := by
  obtain ⟨con, resolved, dest, mapping, g1, hcon, _, _, _, hsweep, e1, e2, e3, _, e5, _, _⟩ :=
    connectStep_ok bits params s s' h
  have h1 : DoorRel g g1 := DoorRel.door hs hwf con.1 (hcs con hcon) e3 e2 e1 (Or.inl e5)
  refine ⟨?_, sweep_frame params con.1 mapping g hwf _ _ g1 _ hcs h1 hsweep⟩
  intro c hc
  exact hcs c ((sweep_spec params con.1 mapping _ _ _ _ hsweep).1 c hc).1

theorem connectLoop_frame (bits : Nat) (params : GenParams) (g : Generator) (hwf : g.tiles.WF)
    (n : Nat) (s s' : ConnectState) (hcs : ∀ con ∈ s.connectors, g.tiles.ref con.1 = Tile.wall)
    (hs : DoorRel g s.gen) (h : connectLoop bits params n s = Except.ok s') :
    DoorRel g s'.gen := by
  induction n generalizing s with
  | zero =>
    rw [connectLoop] at h
    split at h
    · cases h
    · cases h
      exact hs
  | succ n ih =>
    rw [connectLoop] at h
    split at h
    · split at h
      · cases h
      · rename_i s1 hs1
        obtain ⟨a, b⟩ := connectStep_frame bits params g hwf s s1 hcs hs hs1
        exact ih s1 a b h
    · cases h
      exact hs

/-- The frame of `connectRegions`: only cells that were wall change, and they become closed
doors; rooms, regions and the region counter stay. -/

theorem connectRegions_frame (bits : Nat) (params : GenParams) (g g' : Generator)
    (hwf : g.tiles.WF) (h : connectRegions bits params g = Except.ok g') : DoorRel g g' := by
  unfold connectRegions at h
  split at h
  · cases h
  · rename_i s0 hs0
    split at h
    · cases h
    · rename_i s1 hs1
      have := Except.ok.inj h
      subst this
      obtain ⟨_, hgen, _⟩ := connectInit_inv bits g s0 hs0
      have hcs : ∀ con ∈ s0.connectors, g.tiles.ref con.1 = Tile.wall := by
        unfold connectInit at hs0
        split at hs0
        · cases hs0
        · rename_i cs hcs
          split at hs0
          · cases hs0
          · have := (Except.ok.inj hs0).symm
            subst this
            exact findConnectors_wall bits g cs hcs
      exact connectLoop_frame bits params g hwf _ s0 s1 hcs (by rw [hgen]; exact doorRel_refl g) hs1

/-! ## The whole pipeline -/

theorem generate_ok (bits : Nat) (params : GenParams) (g g' : Generator)
    (h : generate bits params g = Except.ok g') :
    ∃ g3 g4, carvePhases bits params g = Except.ok g3 ∧
      connectRegions bits params g3 = Except.ok g4 ∧ removeDeadEnds g4 = Except.ok g' := by
  unfold generate at h
  split at h
  · cases h
  · rename_i g3 h3
    split at h
    · cases h
    · rename_i g4 h4
      exact ⟨g3, g4, h3, h4, h⟩

theorem removeDeadEnds_frame (g g' : Generator) (hwf : g.tiles.WF) (hw : 1 < g.tiles.w)
    (hh : 1 < g.tiles.h) (h : removeDeadEnds g = Except.ok g') :
    g'.rooms = g.rooms ∧ g'.regions = g.regions ∧ g'.tiles.w = g.tiles.w ∧
      g'.tiles.h = g.tiles.h ∧ g'.tiles.WF ∧
      (∀ p, g'.tiles.ref p = g.tiles.ref p ∨ g'.tiles.ref p = Tile.wall) ∧
      deadEndPass g'.tiles = Except.ok (g'.tiles, true) := by
  obtain ⟨t', hrun, hw', hh', hwf', hframe, hstable⟩ := removeDeadEndsTiles_spec g.tiles hwf hw hh
  simp only [removeDeadEnds, hrun] at h
  have := Except.ok.inj h
  subst this
  exact ⟨rfl, rfl, hw', hh', hwf', hframe, hstable⟩

theorem CarveInv.wide {bits : Nat} {g : Generator} (hc : CarveInv bits g) (hne : g.rooms ≠ []) :
    1 < g.tiles.w ∧ 1 < g.tiles.h := by
  obtain ⟨room, hroom⟩ : ∃ room, room ∈ g.rooms := by
    cases hr : g.rooms with
    | nil => exact absurd hr hne
    | cons a l => exact ⟨a, List.mem_cons_self _ _⟩
  obtain ⟨_, _, _, _, h1, h2, h3, h4, h5, h6⟩ := hc.roomGeom room hroom
  omega

/-- When `connectRegions` returns, the region counter was not `null_region`: the loop of
line 226 over the regions up to the counter would not end. -/
theorem connectRegions_room (bits : Nat) (params : GenParams) (g g' : Generator)
    (hb : g.currentRegion < 2 ^ bits) (h : connectRegions bits params g = Except.ok g') :
    g.currentRegion ≠ null_region bits := by
  unfold connectRegions at h
  split at h
  · cases h
  · rename_i s0 hs0
    unfold connectInit at hs0
    split at hs0
    · cases hs0
    · split at hs0
      · cases hs0
      · rename_i rs hrs
        unfold regionRange at hrs
        split at hrs
        · cases hrs
        · rename_i hne
          intro hcur
          apply hne
          rw [Nat.mod_eq_of_lt hb, hcur]
          rfl

/-- C6 as amended (output region grid): on a well-formed world of odd size, for a region
type of any width, every parameter set and every sequence of draws, when `generate` returns,
every cell whose tile is room, path or stairs carries a region id different from
`null_region`, and every cell whose tile is a closed door carries `null_region`. -/

theorem generate_regions (bits : Nat) (params : GenParams) (stream : Nat → Nat) (started : Bool)
    (w : World) (g' : Generator) (hwf : w.WF) (hw : w.tiles.w % 2 = 1)
    (hh : w.tiles.h % 2 = 1)
    (h : generate bits params (Generator.new bits stream w started) = Except.ok g') :
    (∀ p, g'.tiles.ref p = Tile.room ∨ g'.tiles.ref p = Tile.path ∨
        g'.tiles.ref p = Tile.stairs → g'.regions.ref p ≠ null_region bits) ∧
    ∀ p, g'.tiles.ref p = Tile.closed_door → g'.regions.ref p = null_region bits := by
  obtain ⟨g3, g4, h3, h4, h5⟩ := generate_ok bits params _ g' h
  obtain ⟨hc, _, _, _, hne, _, _, _⟩ := carvePhases_inv bits params stream started w g3 hwf hw hh h3
  have hcur := connectRegions_room bits params g3 g4 hc.bounded h4
  obtain ⟨d1, d2, _, d4, d5, d6, d7⟩ := connectRegions_frame bits params g3 g4 hc.tilesWF h4
  obtain ⟨hw3, hh3⟩ := hc.wide hne
  obtain ⟨e1, e2, _, _, _, e6, _⟩ := removeDeadEnds_frame g4 g' (d6 hc.tilesWF)
    (by rw [d4]; exact hw3) (by rw [d5]; exact hh3) h5
  refine ⟨fun p hp => ?_, fun p hp => ?_⟩
  · rw [e2, d2]
    apply hc.regioned hcur
    have h4p : g4.tiles.ref p = g'.tiles.ref p := by
      rcases e6 p with e | e
      · exact e.symm
      · rw [e] at hp
        rcases hp with hp | hp | hp <;> cases hp
    rcases d7 p with d | ⟨_, d⟩
    · rw [← d, h4p]
      rcases hp with hp | hp | hp <;> rw [hp] <;> exact fun hh => by cases hh
    · rw [h4p] at d
      rw [d] at hp
      rcases hp with hp | hp | hp <;> cases hp
  · rw [e2, d2]
    have h4p : g4.tiles.ref p = Tile.closed_door := by
      rcases e6 p with e | e
      · rw [← e]
        exact hp
      · rw [e] at hp
        cases hp
    rcases d7 p with d | ⟨d, _⟩
    · rw [h4p] at d
      exact absurd d.symm (hc.noDoor p)
    · have hin4 : g4.tiles.contains p = true :=
        contains_of_ref_ne_wall g4.tiles p (by rw [h4p]; exact fun hh => by cases hh)
      have hin3 : g3.tiles.contains p = true := by
        rw [Surface.contains_iff] at hin4 ⊢
        rw [d4, d5] at hin4
        exact hin4
      exact hc.wallNull p hin3 d

/-- C6 as stated fails: on the 9 by 7 example `generate` returns, the cell (4, 1) is a closed
door, and its region id is `null_region`: the doors are written to the tile grid only. -/

theorem generate_door_without_region :
    faultOf (generate 16 exampleParams (Generator.new 16 exampleDraws exampleWorld false)) = none ∧
      exampleGenerated.tiles.ref ⟨4, 1⟩ = Tile.closed_door ∧
      exampleGenerated.regions.ref ⟨4, 1⟩ = null_region 16 := by
  refine ⟨by decide!, by decide!, by decide!⟩

/-- The run of `generate` on the 9 by 7 example with a region type of 3 bits returns
`narrowGenerated`. -/
theorem narrowGenerated_eq :
    generate 3 exampleParams (Generator.new 3 exampleDraws exampleWorld false) =
      Except.ok narrowGenerated :=
  eq_ok_of_faultOf _ _ (by decide!)

/-- Witness for C6 as amended: the 9 by 7 example with a region type of 3 bits. -/
theorem generate_regions_witness :
    (exampleWorld.WF ∧ exampleWorld.tiles.w % 2 = 1 ∧ exampleWorld.tiles.h % 2 = 1 ∧
      generate 3 exampleParams (Generator.new 3 exampleDraws exampleWorld false) =
        Except.ok narrowGenerated) ∧
    ((∀ p, narrowGenerated.tiles.ref p = Tile.room ∨ narrowGenerated.tiles.ref p = Tile.path ∨
        narrowGenerated.tiles.ref p = Tile.stairs →
        narrowGenerated.regions.ref p ≠ null_region 3) ∧
      ∀ p, narrowGenerated.tiles.ref p = Tile.closed_door →
        narrowGenerated.regions.ref p = null_region 3) :=
  ⟨⟨by decide, by decide, by decide, narrowGenerated_eq⟩,
    generate_regions 3 exampleParams exampleDraws false exampleWorld narrowGenerated
      (by decide) (by decide) (by decide) narrowGenerated_eq⟩

/-! ## The stairs -/

theorem openNeighbours_ge_two (t : Surface Tile) (p : Point)
    (hh : t.ref (p + toPoint Dir.left) ≠ Tile.wall ∨ t.ref (p + toPoint Dir.right) ≠ Tile.wall)
    (hv : t.ref (p + toPoint Dir.up) ≠ Tile.wall ∨ t.ref (p + toPoint Dir.down) ≠ Tile.wall) :
    2 ≤ openNeighbours t p := by
  simp only [openNeighbours, cardinal_dirs]
  by_cases h1 : t.ref (p + toPoint Dir.up) = Tile.wall <;>
  by_cases h2 : t.ref (p + toPoint Dir.right) = Tile.wall <;>
  by_cases h3 : t.ref (p + toPoint Dir.down) = Tile.wall <;>
  by_cases h4 : t.ref (p + toPoint Dir.left) = Tile.wall <;>
  simp_all [List.filter]

/-- A cell of a room at least two cells wide and high, all of whose cells are open, has
two open neighbours. -/
theorem room_cell_open (t : Surface Tile) (room : Rect) (p : Point) (hw : 2 ≤ room.s.w)
    (hh : 2 ≤ room.s.h) (hopen : ∀ q, room.contains q = true → t.ref q ≠ Tile.wall)
    (hp : room.contains p = true) : 2 ≤ openNeighbours t p := by
  rw [rect_contains_iff] at hp
  apply openNeighbours_ge_two
  · by_cases hx : room.p.x < p.x
    · left
      apply hopen
      rw [rect_contains_iff]
      simp only [toPoint, Point.add_x, Point.add_y]
      omega
    · right
      apply hopen
      rw [rect_contains_iff]
      simp only [toPoint, Point.add_x, Point.add_y]
      omega
  · by_cases hy : room.p.y < p.y
    · left
      apply hopen
      rw [rect_contains_iff]
      simp only [toPoint, Point.add_x, Point.add_y]
      omega
    · right
      apply hopen
      rw [rect_contains_iff]
      simp only [toPoint, Point.add_x, Point.add_y]
      omega

theorem deadEndCell_room (room : Rect) (t : Surface Tile) (hw : 2 ≤ room.s.w) (hh : 2 ≤ room.s.h)
    (hopen : ∀ q, room.contains q = true → t.ref q ≠ Tile.wall) (y x : Int)
    (st : Surface Tile × Bool) (hst : RoomKept room t st) :
    RoomKept room t (deadEndCell y st x) := by
  unfold deadEndCell
  split
  · exact hst
  · split
    · rename_i hcount
      obtain ⟨hwf, e1, e2, hkeep⟩ := hst
      refine ⟨Surface.set_WF _ _ _ hwf, (Surface.set_w _ _ _).trans e1,
        (Surface.set_h _ _ _).trans e2, ?_⟩
      intro p hp
      have hne : (⟨x, y⟩ : Point) ≠ p := by
        intro heq
        subst heq
        have := room_cell_open st.1 room ⟨x, y⟩ hw hh
          (fun q hq => by rw [hkeep q hq]; exact hopen q hq) hp
        rw [exits_count] at hcount
        omega
      rw [Surface.ref_set_ne _ _ _ _ hwf hne]
      exact hkeep p hp
    · exact hst

theorem deadEndLoop_room (room : Rect) (t : Surface Tile) (hw : 2 ≤ room.s.w) (hh : 2 ≤ room.s.h)
    (hopen : ∀ q, room.contains q = true → t.ref q ≠ Tile.wall) (n : Nat) (t1 t' : Surface Tile)
    (h1 : RoomKept room t (t1, true)) (h : deadEndLoop n t1 = Except.ok t') :
    RoomKept room t (t', true) := by
  have hcells : ∀ (xs : List Int) (y : Int) (st : Surface Tile × Bool), RoomKept room t st →
      RoomKept room t (xs.foldl (deadEndCell y) st) := by
    intro xs y
    induction xs with
    | nil => exact fun st hst => hst
    | cons x xs ih => exact fun st hst => ih _ (deadEndCell_room room t hw hh hopen y x st hst)
  have hrows : ∀ (ys : List Int) (st st' : Surface Tile × Bool), RoomKept room t st →
      ys.foldlM deadEndRow st = Except.ok st' → RoomKept room t st' := by
    intro ys
    induction ys with
    | nil =>
      intro st st' hst hrun
      cases hrun
      exact hst
    | cons y ys ih =>
      intro st st' hst hrun
      simp only [List.foldlM_cons, bind, Except.bind] at hrun
      split at hrun
      · cases hrun
      · rename_i st1 hrow
        unfold deadEndRow at hrow
        split at hrow
        · cases hrow
        · rename_i xs _
          have := Except.ok.inj hrow
          subst this
          exact ih _ st' (hcells xs y st hst) hrun
  induction n generalizing t1 with
  | zero =>
    simp only [deadEndLoop] at h
    cases h
  | succ n ih =>
    simp only [deadEndLoop] at h
    split at h
    · cases h
    · rename_i t2 done hpass
      have h2 : RoomKept room t (t2, done) := by
        unfold deadEndPass at hpass
        split at hpass
        · cases hpass
        · exact hrows _ _ _ h1 hpass
      have h2' : RoomKept room t (t2, true) := h2
      split at h
      · have := Except.ok.inj h
        subst this
        exact h2'
      · exact ih t2 h2' h

/-- The member function `removeDeadEnds` leaves the cells of a room at least two cells wide
and high, all of whose cells are open, as they are. -/
theorem removeDeadEnds_room (g g' : Generator) (room : Rect) (hwf : g.tiles.WF)
    (hw : 2 ≤ room.s.w) (hh : 2 ≤ room.s.h)
    (hopen : ∀ q, room.contains q = true → g.tiles.ref q ≠ Tile.wall)
    (h : removeDeadEnds g = Except.ok g') :
    g'.rooms = g.rooms ∧ ∀ p, room.contains p = true → g'.tiles.ref p = g.tiles.ref p := by
  unfold removeDeadEnds at h
  split at h
  · cases h
  · rename_i t' hrun
    have := Except.ok.inj h
    subst this
    exact ⟨rfl, (deadEndLoop_room room g.tiles hw hh hopen _ g.tiles t'
      ⟨hwf, rfl, rfl, fun _ _ => rfl⟩ hrun).2.2.2⟩

/-- C8 as amended (stairs in the first room): on a well-formed world of odd size, for a
region type of any width, every parameter set with `roomSizeMin ≥ 3` and every sequence of
draws, when `generate` returns, the room list is not empty and the tile at the centre
`p + s / 2` of its first rectangle is stairs. -/
theorem generate_stairs (bits : Nat) (params : GenParams) (stream : Nat → Nat) (started : Bool)
    (w : World) (g' : Generator) (hwf : w.WF) (hw : w.tiles.w % 2 = 1) (hh : w.tiles.h % 2 = 1)
    (hmin : 3 ≤ params.roomSizeMin)
    (h : generate bits params (Generator.new bits stream w started) = Except.ok g') :
    ∃ room rest, g'.rooms = room :: rest ∧
      g'.tiles.ref (room.p + (room.s.point).div 2) = Tile.stairs := by
  obtain ⟨g3, g4, h3, h4, h5⟩ := generate_ok bits params _ g' h
  obtain ⟨hc, _, _, _, hne, hok, hstairs, _⟩ :=
    carvePhases_inv bits params stream started w g3 hwf hw hh h3
  obtain ⟨room, rest, hrooms⟩ : ∃ room rest, g3.rooms = room :: rest := by
    cases hr : g3.rooms with
    | nil => exact absurd hr hne
    | cons a l => exact ⟨a, l, rfl⟩
  have hmem : room ∈ g3.rooms := by rw [hrooms]; exact List.mem_cons_self _ _
  have hs3 := hstairs room (by rw [hrooms]; rfl)
  obtain ⟨_, _, s3, _, s5, _⟩ := hok.2 room hmem
  have hgeom := hc.roomGeom room hmem
  have hcentre : room.contains (room.p + (room.s.point).div 2) = true := by
    rw [rect_contains_iff]
    have e1 : (room.p + (room.s.point).div 2).x = room.p.x + room.s.w.tdiv 2 := rfl
    have e2 : (room.p + (room.s.point).div 2).y = room.p.y + room.s.h.tdiv 2 := rfl
    rw [e1, e2]
    have d1 := tdiv_two_cases room.s.w
    have d2 := tdiv_two_cases room.s.h
    omega
  obtain ⟨d1, _, _, _, _, d6, d7⟩ := connectRegions_frame bits params g3 g4 hc.tilesWF h4
  have hkeep4 : ∀ q, room.contains q = true → g4.tiles.ref q = g3.tiles.ref q := by
    intro q hq
    rcases d7 q with e | ⟨e, _⟩
    · exact e
    · exact absurd e (hc.roomOpen room hmem q hq)
  obtain ⟨r5, hkeep5⟩ := removeDeadEnds_room g4 g' room (d6 hc.tilesWF) (by omega) (by omega)
    (fun q hq => by rw [hkeep4 q hq]; exact hc.roomOpen room hmem q hq) h5
  refine ⟨room, rest, by rw [r5, d1, hrooms], ?_⟩
  rw [hkeep5 _ hcentre, hkeep4 _ hcentre]
  exact hs3

/-- C8 as stated fails: on the 5 by 3 world with rooms of a single cell `generate` returns,
the first room is the cell (1, 1), and the tile at its centre is wall: the stairs had a single
open neighbour, the door at (2, 1), and `removeDeadEnds` filled them. -/
theorem generate_stairs_removed :
    faultOf (generate 16 tinyParams (Generator.new 16 (drawsOf []) tinyWorld false)) = none ∧
      tinyGenerated.rooms = [⟨⟨1, 1⟩, ⟨1, 1⟩⟩] ∧
      (⟨1, 1⟩ : Point) + (Size.point ⟨1, 1⟩).div 2 = ⟨1, 1⟩ ∧
      tinyGenerated.tiles.ref ⟨1, 1⟩ = Tile.wall ∧
      (resultOr (Generator.new 16 (drawsOf []) tinyWorld false)
        (carvePhases 16 tinyParams (Generator.new 16 (drawsOf []) tinyWorld false))).tiles.ref
          ⟨1, 1⟩ = Tile.stairs := by
  refine ⟨by decide!, by decide!, by decide!, by decide!, by decide!⟩

/-- Witness for C8 as amended: the 9 by 7 example with rooms of 3 by 3 cells and a region
type of 3 bits. -/
theorem generate_stairs_witness :
    (exampleWorld.WF ∧ exampleWorld.tiles.w % 2 = 1 ∧ exampleWorld.tiles.h % 2 = 1 ∧
      3 ≤ exampleParams.roomSizeMin ∧
      generate 3 exampleParams (Generator.new 3 exampleDraws exampleWorld false) =
        Except.ok narrowGenerated) ∧
    ∃ room rest, narrowGenerated.rooms = room :: rest ∧
      narrowGenerated.tiles.ref (room.p + (room.s.point).div 2) = Tile.stairs :=
  ⟨⟨by decide, by decide, by decide, by decide, narrowGenerated_eq⟩,
    generate_stairs 3 exampleParams exampleDraws false exampleWorld narrowGenerated
      (by decide) (by decide) (by decide) (by decide) narrowGenerated_eq⟩

/-! ## The unchecked connector map -/

theorem applyMapping_no_assert (mapping : RegionMap) (regions : RegionSet) (line : Nat) :
    faultOf (applyMapping mapping regions) ≠ some (Fault.assertion line) := by
  unfold applyMapping
  split <;> simp [faultOf]

theorem mergeRegions_no_assert (sources : RegionSet) (dest : Nat) (rs : List Nat)
    (m0 : RegionMap) (line : Nat) :
    faultOf (mergeRegions sources dest rs m0) ≠ some (Fault.assertion line) := by
  induction rs generalizing m0 with
  | nil => simp [mergeRegions, faultOf, pure, Except.pure]
  | cons r rs ih =>
    simp only [mergeRegions, List.foldlM_cons, bind, Except.bind]
    split
    · rename_i f hf
      split at hf
      · cases hf
        simp [faultOf]
      · cases hf
    · exact ih _

theorem sweep_no_assert (params : GenParams) (conPos : Point) (mapping : RegionMap)
    (cs : ConnectorMap) (g : Generator) (line : Nat) :
    faultOf (sweep params conPos mapping cs g) ≠ some (Fault.assertion line) := by
  induction cs generalizing g with
  | nil => simp [sweep, faultOf]
  | cons con rest ih =>
    simp only [sweep]
    split
    · exact ih g
    · split
      · rename_i f hf
        have h1 : faultOf (Except.error f : Except Fault RegionSet) ≠
            some (Fault.assertion line) := hf ▸ applyMapping_no_assert mapping con.2 line
        simpa [faultOf] using h1
      · split
        · split
          · rename_i f hf
            have h1 : faultOf (Except.error f : Except Fault (ConnectorMap × Generator)) ≠
                some (Fault.assertion line) := hf ▸ ih g
            simpa [faultOf] using h1
          · simp [faultOf]
        · exact ih _

theorem connectStep_no_assert (bits : Nat) (params : GenParams) (s : ConnectState)
    (line : Nat) : faultOf (connectStep bits params s) ≠ some (Fault.assertion line) := by
  unfold connectStep
  split
  · simp [faultOf]
  · split
    · rename_i f hf
      have h1 : faultOf (Except.error f : Except Fault RegionSet) ≠
          some (Fault.assertion line) := hf ▸ applyMapping_no_assert _ _ line
      simpa [faultOf] using h1
    · split
      · simp [faultOf]
      · split
        · simp [faultOf]
        · split
          · rename_i f hf
            have h1 : faultOf (Except.error f : Except Fault RegionMap) ≠
                some (Fault.assertion line) := hf ▸ mergeRegions_no_assert _ _ _ _ line
            simpa [faultOf] using h1
          · split
            · rename_i f hf
              have h1 : faultOf (Except.error f : Except Fault (ConnectorMap × Generator)) ≠
                  some (Fault.assertion line) := hf ▸ sweep_no_assert _ _ _ _ _ line
              simpa [faultOf] using h1
            · simp [faultOf]

theorem connectLoop_no_assert (bits : Nat) (params : GenParams) (n : Nat) (s : ConnectState)
    (line : Nat) : faultOf (connectLoop bits params n s) ≠ some (Fault.assertion line) := by
  induction n generalizing s with
  | zero =>
    rw [connectLoop]
    split <;> simp [faultOf]
  | succ n ih =>
    rw [connectLoop]
    split
    · split
      · rename_i f hf
        have h1 : faultOf (Except.error f : Except Fault ConnectState) ≠
            some (Fault.assertion line) := hf ▸ connectStep_no_assert bits params s line
        simpa [faultOf] using h1
      · exact ih _
    · simp [faultOf]

theorem findConnectors_no_assert (bits : Nat) (g : Generator) (line : Nat) :
    faultOf (findConnectors bits g) ≠ some (Fault.assertion line) := by
  have hrows : ∀ (ys : List Int) (acc : ConnectorMap),
      faultOf (ys.foldlM (findConnectorsRow bits g) acc) ≠ some (Fault.assertion line) := by
    intro ys
    induction ys with
    | nil => intro acc; simp [faultOf, pure, Except.pure]
    | cons y ys ih =>
      intro acc
      simp only [List.foldlM_cons, bind, Except.bind]
      split
      · rename_i f hf
        unfold findConnectorsRow at hf
        split at hf
        · cases hf
          simp [faultOf]
        · cases hf
      · exact ih _
  unfold findConnectors
  split
  · simp [faultOf]
  · exact hrows _ _

/-- No run of `connectRegions` ends in a failed assertion: the function has none. -/
theorem connectRegions_no_assert (bits : Nat) (params : GenParams) (g : Generator)
    (line : Nat) : faultOf (connectRegions bits params g) ≠ some (Fault.assertion line) := by
  unfold connectRegions
  split
  · rename_i f hf
    unfold connectInit at hf
    split at hf
    · rename_i f1 hf1
      cases hf
      have h1 : faultOf (Except.error f : Except Fault ConnectorMap) ≠
          some (Fault.assertion line) := hf1 ▸ findConnectors_no_assert bits g line
      simpa [faultOf] using h1
    · split at hf
      · cases hf
        simp [faultOf]
      · cases hf
  · rename_i s0 hs0
    split
    · rename_i f hf
      have h1 : faultOf (Except.error f : Except Fault ConnectState) ≠
          some (Fault.assertion line) := hf ▸ connectLoop_no_assert bits params _ s0 line
      simpa [faultOf] using h1
    · simp [faultOf]

/-- C11 (connector availability is checked) fails in the code: `connectRegions` holds no
assertion, so none of its runs ends in a failed assertion; a pass of its loop that finds the
connector map empty draws from the empty map (lines 232 to 235); and on the 9 by 7 example
with the isolating draws the loop reaches, after two passes, an empty connector map with two
open regions, where the run ends in that draw and not in an assertion. -/
theorem connectRegions_connectors_unchecked :
    (∀ (bits : Nat) (params : GenParams) (g : Generator) (line : Nat),
      faultOf (connectRegions bits params g) ≠ some (Fault.assertion line)) ∧
    (∀ (bits : Nat) (params : GenParams) (g : Generator) (m : RegionMap) (o : BigRegionSet),
      connectStep bits params ⟨g, [], m, o⟩ = Except.error Fault.noConnector) ∧
    isolatingLoop2.connectors = [] ∧ 1 < isolatingLoop2.openRegions.card ∧
    faultOf (connectLoop 16 exampleParams 1 isolatingLoop2) = some Fault.noConnector ∧
    faultOf (connectRegions 16 exampleParams isolatingCarved) = some Fault.noConnector := by
  refine ⟨connectRegions_no_assert, ?_, by decide!, by decide!, by decide!, by decide!⟩
  intro bits params g m o
  simp [connectStep]

/-! ## The room list after `placeRooms` -/

/-- An attempt that returns leaves a non-empty room list; on an empty list the room is
accepted and is the only entry. -/
theorem roomAttempt_rooms (bits : Nat) (params : GenParams) (g g' : Generator)
    (h : roomAttempt bits params g = Except.ok g') :
    g'.rooms ≠ [] ∧ (g.rooms = [] → g'.rooms.length = 1) := by
  obtain ⟨size, pos, rng1, rng2, _, _, hcase⟩ := roomAttempt_ok bits params g g' h
  rcases hcase with ⟨hany, rfl⟩ | ⟨_, g1, hstart, rfl⟩
  · constructor
    · intro hnil
      simp only at hnil
      rw [hnil] at hany
      simp at hany
    · intro hnil
      rw [hnil] at hany
      simp at hany
  · obtain ⟨rfl, _⟩ := startRegion_ok bits _ g1 hstart
    constructor
    · simp [carveRect]
    · intro hnil
      simp [carveRect, hnil]

/-- Whenever `placeRooms` returns, the room list is not empty. -/
theorem placeRooms_rooms (bits : Nat) (params : GenParams) (g g' : Generator)
    (h : placeRooms bits params g = Except.ok g') : g'.rooms ≠ [] := by
  obtain ⟨_, _, _, _, hd, hloop⟩ := placeRooms_ok bits params g g' h
  obtain ⟨d, hd'⟩ : ∃ d, params.roomDensity.toNat = d + 1 := ⟨params.roomDensity.toNat - 1, by omega⟩
  rw [hd', placeRoomsLoop] at hloop
  split at hloop
  · cases hloop
  · rename_i g1 h1
    refine placeRoomsLoop_induct bits params (fun g => g.rooms ≠ [])
      (fun a b _ hab => (roomAttempt_rooms bits params a b hab).1) d g1 g'
      (roomAttempt_rooms bits params g g1 h1).1 hloop

/-- C12 as stated fails: on the 5 by 5 world with room sizes from 3 to 5 the first attempt
draws a room of 5 by 5 cells, as large as the grid; `placeRooms` has no test for that, hands
the bound `tiles.size() - size`, which is (0, 0), to `oddPoint`, and the run ends there, in the
random source, not in the assertion of `placeExit`.  No run of `placeRooms` returns with an
empty room list. -/
theorem placeRooms_no_fit_check :
    faultOf (RNG.oddSize ⟨drawsOf [1, 1, 1, 1], 0⟩ 3 5) = none ∧
    (resultOr (⟨0, 0⟩, ⟨drawsOf [], 0⟩) (RNG.oddSize ⟨drawsOf [1, 1, 1, 1], 0⟩ 3 5)).1 = ⟨5, 5⟩ ∧
    (reset (Generator.new 16 (drawsOf [1, 1, 1, 1]) smallWorld false)).tiles.size - ⟨5, 5⟩ =
      ⟨0, 0⟩ ∧
    faultOf (placeRooms 16 wideParams
      (reset (Generator.new 16 (drawsOf [1, 1, 1, 1]) smallWorld false))) = some Fault.rngRange ∧
    faultOf (carvePhases 16 wideParams (Generator.new 16 (drawsOf [1, 1, 1, 1]) smallWorld false)) =
      some Fault.rngRange ∧
    faultOf (generate 16 wideParams (Generator.new 16 (drawsOf [1, 1, 1, 1]) smallWorld false)) =
      some Fault.rngRange ∧
    ∀ (bits : Nat) (params : GenParams) (g g' : Generator),
      placeRooms bits params g = Except.ok g' → g'.rooms ≠ [] := by
  refine ⟨by decide!, by decide!, by decide!, by decide!, by decide!, by decide!,
    placeRooms_rooms⟩

/-! ## The latch of `startRegion` at a second call -/

theorem null_region_succ (bits : Nat) : (null_region bits + 1) % 2 ^ bits = 0 := by
  have : 0 < 2 ^ bits := pow_pos (by norm_num) bits
  unfold null_region
  rw [Nat.sub_add_cancel this, Nat.mod_self]

/-- With the latch set, `startRegion` on a new generator fails its assertion. -/
theorem startRegion_latched (bits : Nat) (g : Generator) (hcur : g.currentRegion = null_region bits)
    (hs : g.started = true) : startRegion bits g = Except.error (Fault.assertion 61) := by
  simp [startRegion, hcur, hs, null_region_succ]

/-- With the latch set, the first attempt of `placeRooms` on a new generator does not
return. -/
theorem roomAttempt_latched (bits : Nat) (params : GenParams) (g : Generator)
    (hrooms : g.rooms = []) (hcur : g.currentRegion = null_region bits) (hs : g.started = true) :
    ∃ f, roomAttempt bits params g = Except.error f ∧
      ((∃ size r1 pos r2, g.rng.oddSize params.roomSizeMin params.roomSizeMax =
          Except.ok (size, r1) ∧ r1.oddPoint (g.tiles.size - size) = Except.ok (pos, r2)) →
        f = Fault.assertion 61) := by
  unfold roomAttempt
  split
  · rename_i f hf
    refine ⟨f, rfl, ?_⟩
    rintro ⟨size, r1, pos, r2, h1, _⟩
    rw [h1] at hf
    cases hf
  · rename_i size rng1 h1
    split
    · rename_i f hf
      refine ⟨f, rfl, ?_⟩
      rintro ⟨size', r1, pos, r2, h1', h2⟩
      rw [h1] at h1'
      cases h1'
      rw [h2] at hf
      cases hf
    · rename_i pos rng2 h2
      rw [hrooms]
      simp only [List.any_nil, Bool.false_eq_true, if_false, List.nil_append]
      rw [startRegion_latched bits
        ⟨rng2, g.tiles, g.regions, [⟨pos, size⟩], g.currentRegion, g.started⟩ hcur hs]
      exact ⟨_, rfl, fun _ => rfl⟩

/-- With the latch set, `generate` on a new generator does not return. -/
theorem generate_latched (bits : Nat) (params : GenParams) (stream : Nat → Nat) (w : World) :
    ∃ f, generate bits params (Generator.new bits stream w true) = Except.error f := by
  have hplace : ∃ f, placeRooms bits params (reset (Generator.new bits stream w true)) =
      Except.error f := by
    unfold placeRooms
    split
    · exact ⟨_, rfl⟩
    · split
      · exact ⟨_, rfl⟩
      · split
        · exact ⟨_, rfl⟩
        · split
          · exact ⟨_, rfl⟩
          · split
            · exact ⟨_, rfl⟩
            · rename_i hd
              obtain ⟨d, hd'⟩ : ∃ d, params.roomDensity.toNat = d + 1 :=
                ⟨params.roomDensity.toNat - 1, by omega⟩
              obtain ⟨f, hf, _⟩ := roomAttempt_latched bits params
                (reset (Generator.new bits stream w true)) rfl rfl rfl
              rw [hd', placeRoomsLoop, hf]
              exact ⟨f, rfl⟩
  obtain ⟨f, hf⟩ := hplace
  exact ⟨f, by simp [generate, carvePhases, hf]⟩

/-- With the latch set, `generateTerrain` on a world of at least 11 by 11 cells fails the
assertion of `startRegion` when the first room is accepted. -/
theorem generateTerrain_latched (bits : Nat) (engine : Nat → Nat → Nat) (seed : Nat) (w : World)
    (hw : 11 ≤ w.tiles.w) (hh : 11 ≤ w.tiles.h) :
    generateTerrain bits engine seed w true = Except.error (Fault.assertion 61) := by
  have hattempt : roomAttempt bits terrainParams (reset (Generator.new bits (engine seed) w true)) =
      Except.error (Fault.assertion 61) := by
    obtain ⟨f, hf, hwhich⟩ := roomAttempt_latched bits terrainParams
      (reset (Generator.new bits (engine seed) w true)) rfl rfl rfl
    rw [hf, hwhich]
    obtain ⟨size, r1, h1⟩ := oddSize_total (reset (Generator.new bits (engine seed) w true)).rng
      3 9 (by decide) (by decide)
    obtain ⟨_, b2, _, _, b5, _⟩ := oddSize_ok _ _ _ _ _ h1
    obtain ⟨pos, r2, h2⟩ := oddPoint_total r1
      ((reset (Generator.new bits (engine seed) w true)).tiles.size - size)
      (by
        show 2 ≤ ((w.tiles.w : Int)) - size.w
        omega)
      (by
        show 2 ≤ ((w.tiles.h : Int)) - size.h
        omega)
    exact ⟨size, r1, pos, r2, h1, h2⟩
  have hplace : placeRooms bits terrainParams (reset (Generator.new bits (engine seed) w true)) =
      Except.error (Fault.assertion 61) := by
    unfold placeRooms
    have e1 : (reset (Generator.new bits (engine seed) w true)).tiles.width = (w.tiles.w : Int) := rfl
    have e2 : (reset (Generator.new bits (engine seed) w true)).tiles.height = (w.tiles.h : Int) := rfl
    have a1 : ¬ terrainParams.roomSizeMin.tmod 2 ≠ 1 := by decide
    have a2 : ¬ terrainParams.roomSizeMax.tmod 2 ≠ 1 := by decide
    have a3 : ¬ ¬ terrainParams.roomSizeMin ≤
        (reset (Generator.new bits (engine seed) w true)).tiles.width - 2 := by
      rw [e1]
      show ¬ ¬ (3 : Int) ≤ _
      omega
    have a4 : ¬ ¬ terrainParams.roomSizeMin ≤
        (reset (Generator.new bits (engine seed) w true)).tiles.height - 2 := by
      rw [e2]
      show ¬ ¬ (3 : Int) ≤ _
      omega
    have a5 : ¬ ¬ terrainParams.roomDensity > 0 := by decide
    rw [if_neg a1, if_neg a2, if_neg a3, if_neg a4, if_neg a5]
    show placeRoomsLoop bits terrainParams (199 + 1) _ = _
    rw [placeRoomsLoop, hattempt]
  simp [generateTerrain, generate, carvePhases, hplace]

/-- A completed pass of the loop of `connectRegions` leaves the latch as it is. -/
theorem connectStep_started (bits : Nat) (params : GenParams) (s s' : ConnectState)
    (h : connectStep bits params s = Except.ok s') : s'.gen.started = s.gen.started := by
  obtain ⟨con, resolved, dest, mapping, g1, _, _, _, _, hsweep, _, _, _, hs1, _, _, _⟩ :=
    connectStep_ok bits params s s' h
  obtain ⟨_, _, _, _, hs2⟩ := sweep_spec params con.1 mapping _ _ _ _ hsweep
  exact hs2.trans hs1

theorem connectLoop_started (bits : Nat) (params : GenParams) (n : Nat) (s s' : ConnectState)
    (h : connectLoop bits params n s = Except.ok s') : s'.gen.started = s.gen.started := by
  induction n generalizing s with
  | zero =>
    rw [connectLoop] at h
    split at h
    · cases h
    · cases h
      rfl
  | succ n ih =>
    rw [connectLoop] at h
    split at h
    · split at h
      · cases h
      · rename_i s1 hs1
        exact (ih s1 h).trans (connectStep_started bits params s s1 hs1)
    · cases h
      rfl

/-- When `generate` returns, the grid has the size of the world and the latch of
`startRegion` is set. -/
theorem generate_started (bits : Nat) (params : GenParams) (stream : Nat → Nat) (started : Bool)
    (w : World) (g' : Generator) (hwf : w.WF) (hw : w.tiles.w % 2 = 1) (hh : w.tiles.h % 2 = 1)
    (h : generate bits params (Generator.new bits stream w started) = Except.ok g') :
    g'.tiles.w = w.tiles.w ∧ g'.tiles.h = w.tiles.h ∧ g'.started = true := by
  obtain ⟨g3, g4, h3, h4, h5⟩ := generate_ok bits params _ g' h
  obtain ⟨hc, _, hw3, hh3, hne, _, hstairs, _⟩ :=
    carvePhases_inv bits params stream started w g3 hwf hw hh h3
  obtain ⟨_, _, _, hw4, hh4, hwf4, _⟩ := connectRegions_frame bits params g3 g4 hc.tilesWF h4
  obtain ⟨hwide1, hwide2⟩ := hc.wide hne
  obtain ⟨_, _, hw5, hh5, _⟩ := removeDeadEnds_frame g4 g' (hwf4 hc.tilesWF)
    (by rw [hw4]; exact hwide1) (by rw [hh4]; exact hwide2) h5
  refine ⟨by rw [hw5, hw4, hw3], by rw [hh5, hh4, hh3], ?_⟩
  have hs3 : g3.started = true := by
    obtain ⟨room, hroom⟩ : ∃ room, g3.rooms.head? = some room := by
      cases hr : g3.rooms with
      | nil => exact absurd hr hne
      | cons a l => exact ⟨a, rfl⟩
    have hopen : g3.tiles.ref (room.p + (room.s.point).div 2) ≠ Tile.wall := by
      rw [hstairs room hroom]
      exact fun hh => by cases hh
    have hpos := nonWallCount_pos_of_open g3.tiles hc.tilesWF _ hopen
    rcases hc.counted with ⟨_, h0⟩ | ⟨hs, _⟩
    · omega
    · exact hs
  have hs4 : g4.started = g3.started := by
    unfold connectRegions at h4
    split at h4
    · cases h4
    · rename_i s0 hs0
      split at h4
      · cases h4
      · rename_i s1 hs1
        have := Except.ok.inj h4
        subst this
        obtain ⟨_, hgen, _⟩ := connectInit_inv bits g3 s0 hs0
        rw [connectLoop_started bits params _ s0 s1 hs1, hgen]
  have hs5 : g'.started = g4.started := by
    unfold removeDeadEnds at h5
    split at h5
    · cases h5
    · have := Except.ok.inj h5
      subst this
      rfl
  rw [hs5, hs4, hs3]

/-- A first `generateTerrain` on the 11 by 11 world with seed 42 returns `terrainFirst`. -/
theorem terrainFirst_returns :
    generateTerrain 16 terrainEngine 42 terrainWorld false = Except.ok terrainFirst :=
  eq_ok_of_faultOf _ _ (by decide!)

/-- The first call leaves the grid at its size and the latch of `startRegion` set. -/
theorem terrainFirst_started :
    terrainFirst.tiles.w = 11 ∧ terrainFirst.tiles.h = 11 ∧ terrainFirst.started = true :=
  generate_started 16 terrainParams (terrainEngine 42) false terrainWorld terrainFirst
    (by decide) (by decide) (by decide) terrainFirst_returns

/-- A second call on the world that the first call left fails the assertion of line 61. -/
theorem terrainSecond_fault :
    generateTerrain 16 terrainEngine 42
        ⟨terrainFirst.tiles, terrainFirst.regions, terrainFirst.rooms⟩ terrainFirst.started =
      Except.error (Fault.assertion 61) := by
  have hw : 11 ≤ terrainFirst.tiles.w := le_of_eq terrainFirst_started.1.symm
  have hh : 11 ≤ terrainFirst.tiles.h := le_of_eq terrainFirst_started.2.1.symm
  have key : ∀ (tiles : Surface Tile) (regions : Surface Nat) (rooms : List Rect),
      11 ≤ tiles.w → 11 ≤ tiles.h →
      generateTerrain 16 terrainEngine 42 ⟨tiles, regions, rooms⟩ true =
        Except.error (Fault.assertion 61) :=
    fun tiles regions rooms h1 h2 =>
      generateTerrain_latched 16 terrainEngine 42 ⟨tiles, regions, rooms⟩ h1 h2
  rw [terrainFirst_started.2.2]
  exact key _ _ _ hw hh

/-- C13 (reuse across generate calls) fails in the code: a generator built while the latch
`started` of `startRegion` is set never completes `generate`, whatever the parameters, the
draws and the world; with the parameters of `generateTerrain` on a world of at least 11 by 11
cells the run ends in the assertion of line 61, at the first accepted room, where
`++currentRegion` wraps from `null_region` to 0.  On the 11 by 11 world a first call with
seed 42 returns and leaves the latch set, and a second call on the world it left fails that
assertion. -/
theorem generateTerrain_second_call_fails :
    (∀ (bits : Nat) (params : GenParams) (stream : Nat → Nat) (w : World),
      ∃ f, generate bits params (Generator.new bits stream w true) = Except.error f) ∧
    (∀ (bits : Nat) (engine : Nat → Nat → Nat) (seed : Nat) (w : World),
      11 ≤ w.tiles.w → 11 ≤ w.tiles.h →
      generateTerrain bits engine seed w true = Except.error (Fault.assertion 61)) ∧
    generateTerrain 16 terrainEngine 42 terrainWorld false = Except.ok terrainFirst ∧
    terrainFirst.started = true ∧
    generateTerrain 16 terrainEngine 42
        ⟨terrainFirst.tiles, terrainFirst.regions, terrainFirst.rooms⟩ terrainFirst.started =
      Except.error (Fault.assertion 61) :=
  ⟨generate_latched, generateTerrain_latched, terrainFirst_returns, terrainFirst_started.2.2,
    terrainSecond_fault⟩

/-- C7 (determinism) fails in the code, through the static latch of `startRegion` (the
defect of C13): the result of `generate` depends on the seed, the parameters and the grid
size, and also on whether an earlier run of the program has set the latch.  Two runs that find
the latch at the same value agree, for every draw sequence, every parameter set and every two
well-formed worlds of equal grid size.  But whenever a run with the latch unset returns, on a
well-formed world of odd size, it has set the latch, and the next run, with the same draw
sequence and the same parameters on any world, does not return, so the two runs differ.  On
the 11 by 11 world `generateTerrain` with seed 42 returns a map at the first call, and the
same call on the same world with the latch as the first call left it fails the assertion of
line 61. -/
theorem generate_not_repeatable :
    (∀ (bits : Nat) (params : GenParams) (stream : Nat → Nat) (started : Bool) (w1 w2 : World),
      w1.WF → w2.WF → w1.tiles.w = w2.tiles.w → w1.tiles.h = w2.tiles.h →
      generate bits params (Generator.new bits stream w1 started) =
        generate bits params (Generator.new bits stream w2 started)) ∧
    (∀ (bits : Nat) (params : GenParams) (stream : Nat → Nat) (w1 w2 : World) (g1 : Generator),
      w1.WF → w1.tiles.w % 2 = 1 → w1.tiles.h % 2 = 1 →
      generate bits params (Generator.new bits stream w1 false) = Except.ok g1 →
      g1.started = true ∧
        (∃ f, generate bits params (Generator.new bits stream w2 g1.started) = Except.error f) ∧
        generate bits params (Generator.new bits stream w2 g1.started) ≠
          generate bits params (Generator.new bits stream w1 false)) ∧
    generateTerrain 16 terrainEngine 42 terrainWorld false = Except.ok terrainFirst ∧
    terrainFirst.started = true ∧
    generateTerrain 16 terrainEngine 42 terrainWorld terrainFirst.started =
      Except.error (Fault.assertion 61) := by
  refine ⟨fun bits params stream started w1 w2 a1 a2 a3 a4 =>
      (generate_deterministic bits params stream (fun _ _ => 0) 0 started w1 w2 a1 a2 a3 a4).1,
    fun bits params stream w1 w2 g1 a1 a2 a3 h1 => ?_,
    terrainFirst_returns, terrainFirst_started.2.2, ?_⟩
  · have hs := (generate_started bits params stream false w1 g1 a1 a2 a3 h1).2.2
    obtain ⟨f, hf⟩ := generate_latched bits params stream w2
    rw [hs]
    refine ⟨rfl, ⟨f, hf⟩, ?_⟩
    rw [hf, h1]
    exact fun hh => by cases hh
  · rw [terrainFirst_started.2.2]
    exact generateTerrain_latched 16 terrainEngine 42 terrainWorld (by decide) (by decide)

/-- C19 (the exit-placement assertion is unreachable after `placeRooms`): for every
generator state, parameter set and sequence of draws, when `placeRooms` returns, the room list
is not empty and `placeExit` returns without failing its assertion; an attempt that returns
from an empty room list has accepted its room, which is then the only entry. -/
theorem placeExit_assertion_unreachable (bits : Nat) (params : GenParams) (g g1 : Generator)
    (h : placeRooms bits params g = Except.ok g1) :
    g1.rooms ≠ [] ∧ (∃ g2, placeExit g1 = Except.ok g2) ∧
      faultOf (placeExit g1) ≠ some (Fault.assertion 106) ∧
      ∀ ga, g.rooms = [] → roomAttempt bits params g = Except.ok ga → ga.rooms.length = 1 := by
  have hne := placeRooms_rooms bits params g g1 h
  have hexit : ∃ g2, placeExit g1 = Except.ok g2 := by
    unfold placeExit
    cases hr : g1.rooms with
    | nil => exact absurd hr hne
    | cons room rest => exact ⟨_, rfl⟩
  refine ⟨hne, hexit, ?_, fun ga hnil ha => (roomAttempt_rooms bits params g ga ha).2 hnil⟩
  obtain ⟨g2, h2⟩ := hexit
  rw [h2]
  simp [faultOf]

/-- Witness for C19: `placeRooms` on the 9 by 7 example. -/
theorem placeExit_assertion_unreachable_witness :
    placeRooms 16 exampleParams (reset (Generator.new 16 exampleDraws exampleWorld false)) =
        Except.ok (resultOr (Generator.new 16 exampleDraws exampleWorld false)
          (placeRooms 16 exampleParams (reset (Generator.new 16 exampleDraws exampleWorld false)))) ∧
      ((resultOr (Generator.new 16 exampleDraws exampleWorld false)
          (placeRooms 16 exampleParams
            (reset (Generator.new 16 exampleDraws exampleWorld false)))).rooms ≠ [] ∧
        (∃ g2, placeExit (resultOr (Generator.new 16 exampleDraws exampleWorld false)
          (placeRooms 16 exampleParams
            (reset (Generator.new 16 exampleDraws exampleWorld false)))) = Except.ok g2) ∧
        faultOf (placeExit (resultOr (Generator.new 16 exampleDraws exampleWorld false)
          (placeRooms 16 exampleParams
            (reset (Generator.new 16 exampleDraws exampleWorld false))))) ≠
          some (Fault.assertion 106) ∧
        ∀ ga, (reset (Generator.new 16 exampleDraws exampleWorld false)).rooms = [] →
          roomAttempt 16 exampleParams (reset (Generator.new 16 exampleDraws exampleWorld false)) =
            Except.ok ga → ga.rooms.length = 1) :=
  ⟨eq_ok_of_faultOf _ _ (by decide!),
    placeExit_assertion_unreachable 16 exampleParams
      (reset (Generator.new 16 exampleDraws exampleWorld false)) _
      (eq_ok_of_faultOf _ _ (by decide!))⟩

/-! ## Termination of the maze loop -/

/-- One pass of the loop of `growMaze` on a non-empty stack: either no direction can be
carved and the stack is popped, or a direction is chosen, the wall cell two steps away
becomes path and is pushed; the measure decreases in both cases. -/
theorem growMazeLoop_step (params : GenParams) (n : Nat) (gs : Generator) (cell : Point)
    (rest : List Point) (last : Dir) (hwf : gs.tiles.WF)
    (hstack : ∀ c ∈ cell :: rest, gs.tiles.contains c = true) :
    ((unmadeCells gs cell).any = false ∧
        growMazeLoop params (n + 1) gs (cell :: rest) last =
          growMazeLoop params n gs rest Dir.none ∧
        mazeMeasure gs rest < mazeMeasure gs (cell :: rest)) ∨
      ∃ dir g1, dir ≠ Dir.none ∧
        chooseDir params gs (unmadeCells gs cell) last = Except.ok (dir, g1) ∧
        gs.tiles.contains (cell + (toPoint dir).scale 2) = true ∧
        gs.tiles.ref (cell + (toPoint dir).scale 2) = Tile.wall ∧
        (cell.x % 2 = 1 ∧ cell.y % 2 = 1 →
          (cell + (toPoint dir).scale 2).x % 2 = 1 ∧ (cell + (toPoint dir).scale 2).y % 2 = 1) ∧
        (carve (carve g1 (cell + toPoint dir) Tile.path)
          (cell + (toPoint dir).scale 2) Tile.path).tiles.ref (cell + (toPoint dir).scale 2) =
            Tile.path ∧
        (carve (carve g1 (cell + toPoint dir) Tile.path)
          (cell + (toPoint dir).scale 2) Tile.path).tiles.WF ∧
        (∀ c ∈ (cell + (toPoint dir).scale 2) :: cell :: rest,
          (carve (carve g1 (cell + toPoint dir) Tile.path)
            (cell + (toPoint dir).scale 2) Tile.path).tiles.contains c = true) ∧
        growMazeLoop params (n + 1) gs (cell :: rest) last =
          growMazeLoop params n
            (carve (carve g1 (cell + toPoint dir) Tile.path)
              (cell + (toPoint dir).scale 2) Tile.path)
            ((cell + (toPoint dir).scale 2) :: cell :: rest) dir ∧
        mazeMeasure (carve (carve g1 (cell + toPoint dir) Tile.path)
            (cell + (toPoint dir).scale 2) Tile.path)
            ((cell + (toPoint dir).scale 2) :: cell :: rest) <
          mazeMeasure gs (cell :: rest) := by
  by_cases hany : (unmadeCells gs cell).any = true
  · right
    obtain ⟨dir, g1, hchoose⟩ := chooseDir_total params gs _ last hany
    obtain ⟨htest, hg1⟩ := chooseDir_ok params gs g1 _ last dir hchoose
    obtain ⟨hdir, hcan⟩ := (unmadeCells_test gs cell dir).1 htest
    obtain ⟨h3, hwall⟩ := (canCarve_iff gs cell dir).1 hcan
    have hcell := hstack cell (List.mem_cons_self _ _)
    obtain ⟨hc1, hc2⟩ := step_contains gs.tiles cell dir hcell h3
    have ht1 : g1.tiles = gs.tiles := by rw [hg1]
    have href := carve2_ref gs.tiles (cell + toPoint dir) (cell + (toPoint dir).scale 2)
    have hwf2 : ((gs.tiles.set (cell + toPoint dir) Tile.path).set
        (cell + (toPoint dir).scale 2) Tile.path).WF :=
      Surface.set_WF _ _ _ (Surface.set_WF _ _ _ hwf)
    have hlt := nonWallCount_lt gs.tiles _ hwf hwf2
      (by simp only [Surface.set_w]) (by simp only [Surface.set_h])
      (fun p hp => by
        rw [href p hwf hc1 hc2]
        split
        · exact fun h => by cases h
        · split
          · exact fun h => by cases h
          · exact hp)
      (cell + (toPoint dir).scale 2) hc2 hwall
      (by rw [href _ hwf hc1 hc2]; simp)
    have hle := nonWallCount_le ((gs.tiles.set (cell + toPoint dir) Tile.path).set
        (cell + (toPoint dir).scale 2) Tile.path)
    have hlen : ((gs.tiles.set (cell + toPoint dir) Tile.path).set
        (cell + (toPoint dir).scale 2) Tile.path).cells.length = gs.tiles.cells.length := by
      rw [hwf2, hwf, Surface.set_w, Surface.set_w, Surface.set_h, Surface.set_h]
    refine ⟨dir, g1, hdir, hchoose, hc2, hwall, ?_, ?_, ?_, ?_, ?_, ?_⟩
    · intro hodd
      cases dir <;> simp only [toPoint, Point.scale, Point.add_x, Point.add_y] <;> omega
    · simp only [carve, ht1]
      rw [href _ hwf hc1 hc2]
      simp
    · simp only [carve, ht1]
      exact hwf2
    · intro c hc
      simp only [carve, ht1, Surface.contains_set]
      rcases List.mem_cons.1 hc with rfl | hc
      · exact hc2
      · exact hstack c hc
    · simp only [growMazeLoop, hany, if_true, hchoose]
    · simp only [mazeMeasure, carve, ht1, List.length_cons]
      rw [hlen]
      rw [hlen] at hle
      omega
  · left
    have hany' : (unmadeCells gs cell).any = false := by
      cases h : (unmadeCells gs cell).any
      · rfl
      · exact absurd h hany
    refine ⟨hany', ?_, ?_⟩
    · simp only [growMazeLoop, hany', Bool.false_eq_true, if_false]
    · simp only [mazeMeasure, List.length_cons]
      omega

/-- C14 (maze growth terminates): on every grid with full storage (of odd size or not), for
every start cell inside the grid, every parameter set and every sequence of draws, the loop of
`growMaze` ends with an empty stack within the `2 * cells + 1` passes allowed, so `growMaze`
returns whenever its `startRegion` does.  Each pass on a non-empty stack either pops the stack
or turns the wall cell two steps away, which has odd coordinates when the top cell has, into
path and pushes it; the measure, twice the number of wall cells plus the height of the stack,
decreases with every pass. -/
theorem growMaze_terminates (bits : Nat) (params : GenParams) (g : Generator) (start : Point)
    (hwf : g.tiles.WF) (hin : g.tiles.contains start = true) :
    (∃ g', growMazeLoop params (2 * g.tiles.cells.length + 1) (carve g start Tile.path) [start]
        Dir.none = Except.ok g') ∧
      (∀ g1, startRegion bits g = Except.ok g1 →
        ∃ g', growMaze bits params g start = Except.ok g') ∧
      ∀ (n : Nat) (gs : Generator) (cell : Point) (rest : List Point) (last : Dir),
        gs.tiles.WF → (∀ c ∈ cell :: rest, gs.tiles.contains c = true) →
        ((unmadeCells gs cell).any = false ∧
            growMazeLoop params (n + 1) gs (cell :: rest) last =
              growMazeLoop params n gs rest Dir.none ∧
            mazeMeasure gs rest < mazeMeasure gs (cell :: rest)) ∨
          ∃ dir g1, dir ≠ Dir.none ∧
            chooseDir params gs (unmadeCells gs cell) last = Except.ok (dir, g1) ∧
            gs.tiles.contains (cell + (toPoint dir).scale 2) = true ∧
            gs.tiles.ref (cell + (toPoint dir).scale 2) = Tile.wall ∧
            (cell.x % 2 = 1 ∧ cell.y % 2 = 1 →
              (cell + (toPoint dir).scale 2).x % 2 = 1 ∧
                (cell + (toPoint dir).scale 2).y % 2 = 1) ∧
            (carve (carve g1 (cell + toPoint dir) Tile.path)
              (cell + (toPoint dir).scale 2) Tile.path).tiles.ref
                (cell + (toPoint dir).scale 2) = Tile.path ∧
            (carve (carve g1 (cell + toPoint dir) Tile.path)
              (cell + (toPoint dir).scale 2) Tile.path).tiles.WF ∧
            (∀ c ∈ (cell + (toPoint dir).scale 2) :: cell :: rest,
              (carve (carve g1 (cell + toPoint dir) Tile.path)
                (cell + (toPoint dir).scale 2) Tile.path).tiles.contains c = true) ∧
            growMazeLoop params (n + 1) gs (cell :: rest) last =
              growMazeLoop params n
                (carve (carve g1 (cell + toPoint dir) Tile.path)
                  (cell + (toPoint dir).scale 2) Tile.path)
                ((cell + (toPoint dir).scale 2) :: cell :: rest) dir ∧
            mazeMeasure (carve (carve g1 (cell + toPoint dir) Tile.path)
                (cell + (toPoint dir).scale 2) Tile.path)
                ((cell + (toPoint dir).scale 2) :: cell :: rest) <
              mazeMeasure gs (cell :: rest) := by
  have hloop : ∀ ga : Generator, ga.tiles = g.tiles →
      ∃ g', growMazeLoop params (2 * g.tiles.cells.length + 1) (carve ga start Tile.path) [start]
        Dir.none = Except.ok g' := by
    intro ga hga
    have hwf1 : (g.tiles.set start Tile.path).WF := Surface.set_WF _ _ _ hwf
    have hlen : (g.tiles.set start Tile.path).cells.length = g.tiles.cells.length := by
      rw [hwf1, hwf, Surface.set_w, Surface.set_h]
    apply growMazeLoop_total
    · simp only [carve, hga]
      exact hwf1
    · intro c hc
      rw [List.mem_singleton] at hc
      subst hc
      simp only [carve, hga, Surface.contains_set]
      exact hin
    · simp only [carve, hga, List.length_singleton]
      rw [hlen]
      omega
  refine ⟨hloop g rfl, ?_, fun n gs cell rest last h1 h2 =>
    growMazeLoop_step params n gs cell rest last h1 h2⟩
  intro g1 hstart
  obtain ⟨hg1, _⟩ := startRegion_ok bits g g1 hstart
  have ht : g1.tiles = g.tiles := by rw [hg1]
  unfold growMaze
  rw [hstart]
  simp only [ht]
  exact hloop g1 ht

/-- Witness for C14: the start cell (1, 1) of the all-wall 5 by 5 grid. -/
theorem growMaze_terminates_witness :
    ((Generator.new 16 (drawsOf [1, 2, 3]) smallWorld false).tiles.WF ∧
      (Generator.new 16 (drawsOf [1, 2, 3]) smallWorld false).tiles.contains ⟨1, 1⟩ = true) ∧
    ∃ g', growMazeLoop exampleParams
      (2 * (Generator.new 16 (drawsOf [1, 2, 3]) smallWorld false).tiles.cells.length + 1)
      (carve (Generator.new 16 (drawsOf [1, 2, 3]) smallWorld false) ⟨1, 1⟩ Tile.path) [⟨1, 1⟩]
      Dir.none = Except.ok g' :=
  ⟨⟨by decide, by decide⟩,
    (growMaze_terminates 16 exampleParams (Generator.new 16 (drawsOf [1, 2, 3]) smallWorld false)
      ⟨1, 1⟩ (by decide) (by decide)).1⟩

/-! ## Convergence of the dead-end removal -/

theorem wallCount_add (t : Surface Tile) : wallCount t + nonWallCount t = t.cells.length := by
  unfold wallCount nonWallCount
  have := List.length_eq_countP_add_countP (fun c => decide (c = Tile.wall)) t.cells
  rw [this]
  congr 1
  apply List.countP_congr
  intro c _
  simp

/-- More fuel does not change the result of the loop of `removeDeadEnds`. -/
theorem deadEndLoop_mono (n m : Nat) (t t' : Surface Tile) (hnm : n ≤ m)
    (h : deadEndLoop n t = Except.ok t') : deadEndLoop m t = Except.ok t' := by
  induction n generalizing m t with
  | zero =>
    simp only [deadEndLoop] at h
    cases h
  | succ n ih =>
    obtain ⟨m', rfl⟩ : ∃ m', m = m' + 1 := ⟨m - 1, by omega⟩
    simp only [deadEndLoop] at h ⊢
    split at h
    · cases h
    · rename_i t1 done hpass
      split at h
      · rename_i hd
        simp only [hd, if_true]
        exact h
      · rename_i hd
        simp only [hd]
        exact ih m' t1 (by omega) h

/-- One pass of `removeDeadEnds`: it returns, only turns open cells into wall, and either
changes nothing and reports `done`, or leaves more wall cells than it found. -/
theorem deadEndPass_walls (t : Surface Tile) (hwf : t.WF) (hw : 1 < t.w) (hh : 1 < t.h) :
    ∃ t' done, deadEndPass t = Except.ok (t', done) ∧ t'.WF ∧ t'.w = t.w ∧ t'.h = t.h ∧
      (∀ q, t'.ref q = t.ref q ∨ (t.ref q ≠ Tile.wall ∧ t'.ref q = Tile.wall)) ∧
      wallCount t ≤ wallCount t' ∧ (done = false → wallCount t < wallCount t') ∧
      (done = true → t' = t) := by
  obtain ⟨st', hpass, ⟨e1, e2, hwf', href, hcase⟩, _⟩ := deadEndPass_spec t hw hh
  have hwf1 : st'.1.WF := hwf' hwf
  have hlen : st'.1.cells.length = t.cells.length := by
    rw [hwf1, hwf, e1, e2]
  have a1 := wallCount_add t
  have a2 := wallCount_add st'.1
  refine ⟨st'.1, st'.2, hpass, hwf1, e1, e2, ?_, ?_, ?_, ?_⟩
  · intro q
    rcases href q with h | h
    · exact Or.inl h
    · by_cases hq : t.ref q = Tile.wall
      · left
        rw [h]
        exact hq.symm
      · exact Or.inr ⟨hq, h⟩
  · rcases hcase with h | ⟨_, h⟩
    · rw [h]
    · have := h hwf
      simp only at this
      omega
  · intro hd
    rcases hcase with h | ⟨_, h⟩
    · rw [h] at hd
      cases hd
    · have := h hwf
      simp only at this
      omega
  · intro hd
    rcases hcase with h | ⟨h, _⟩
    · rw [h]
    · rw [h] at hd
      cases hd

/-- C15 (dead-end removal converges): on every tile grid with full storage and both
dimensions above 1, `removeDeadEnds` returns, and so does its loop when it is allowed no more
passes than the number of open cells of the input plus one; every pass on a grid of that size
returns, changes a cell only from open to wall, never lowers the number of wall cells, raises
it when it reports a change (every pass but the last), and leaves the grid as it is when it
reports none (the last pass). -/
theorem removeDeadEnds_converges (g : Generator) (hwf : g.tiles.WF) (hw : 1 < g.tiles.w)
    (hh : 1 < g.tiles.h) :
    (∃ g', removeDeadEnds g = Except.ok g' ∧
        deadEndLoop (nonWallCount g.tiles + 1) g.tiles = Except.ok g'.tiles) ∧
      ∀ t : Surface Tile, t.WF → t.w = g.tiles.w → t.h = g.tiles.h →
        ∃ t' done, deadEndPass t = Except.ok (t', done) ∧ t'.WF ∧ t'.w = t.w ∧ t'.h = t.h ∧
          (∀ q, t'.ref q = t.ref q ∨ (t.ref q ≠ Tile.wall ∧ t'.ref q = Tile.wall)) ∧
          wallCount t ≤ wallCount t' ∧ (done = false → wallCount t < wallCount t') ∧
          (done = true → t' = t) := by
  constructor
  · obtain ⟨t', hloop, _⟩ := deadEndLoop_spec (nonWallCount g.tiles + 1) g.tiles hwf hw hh
      (Nat.lt_succ_self _)
    have hfull : removeDeadEndsTiles g.tiles = Except.ok t' :=
      deadEndLoop_mono _ _ _ _ (by have := nonWallCount_le g.tiles; omega) hloop
    refine ⟨{ g with tiles := t' }, ?_, hloop⟩
    simp only [removeDeadEnds, hfull]
  · intro t ht e1 e2
    exact deadEndPass_walls t ht (by omega) (by omega)

/-- Witness for C15: the 5 by 5 grid with a corridor that ends blind. -/
theorem removeDeadEnds_converges_witness :
    (corridorGenerator.tiles.WF ∧ 1 < corridorGenerator.tiles.w ∧ 1 < corridorGenerator.tiles.h) ∧
    ∃ g', removeDeadEnds corridorGenerator = Except.ok g' ∧
      deadEndLoop (nonWallCount corridorGenerator.tiles + 1) corridorGenerator.tiles =
        Except.ok g'.tiles :=
  ⟨⟨by decide, by decide, by decide⟩,
    (removeDeadEnds_converges corridorGenerator (by decide) (by decide) (by decide)).1⟩

/-! ## The distribution of `randomDir` -/

/-- The direction that `randomDir` returns depends on the generator only through the next
raw draw, reduced modulo 4. -/
theorem randomDir_of_draw (g g1 : Generator) (dirs : DirSet) (dir : Dir)
    (h : randomDir g dirs = Except.ok (dir, g1)) :
    randomDirOf dirs (g.rng.stream g.rng.pos % 4) = some dir := by
  unfold randomDir at h
  split at h
  · cases h
  · rename_i hany
    have := Except.ok.inj h
    have hd : dir = rotateUntil dirs 4 (fromCardinalIndex (g.rng.index 4).1) :=
      (congrArg Prod.fst this).symm
    simp only [randomDirOf, randomDir, hany]
    simp only [RNG.index, RNG.next] at hd ⊢
    rw [hd]
    simp [fromCardinalIndex]

theorem randomDirHits_eq (dirs : DirSet) (dir : Dir) :
    randomDirHits dirs dir = (if dirs.test dir = true then 1 + gapBefore dirs dir else 0) := by
  rcases dirs with ⟨_ | _, _ | _, _ | _, _ | _⟩ <;> cases dir <;> decide!

theorem randomDirHits_uniform (dirs : DirSet)
    (h : ∀ d1 d2, dirs.test d1 = true → dirs.test d2 = true →
      randomDirHits dirs d1 = randomDirHits dirs d2) :
    dirs.count ≤ 1 ∨ (dirs.up = dirs.down ∧ dirs.right = dirs.left) := by
  have e := randomDirHits_eq dirs
  rcases dirs with ⟨_ | _, _ | _, _ | _, _ | _⟩ <;>
    first
    | decide
    | exact absurd (h Dir.up Dir.right rfl rfl) (by rw [e, e]; decide)
    | exact absurd (h Dir.up Dir.left rfl rfl) (by rw [e, e]; decide)
    | exact absurd (h Dir.down Dir.right rfl rfl) (by rw [e, e]; decide)
    | exact absurd (h Dir.down Dir.left rfl rfl) (by rw [e, e]; decide)

theorem randomDirHits_symmetric (dirs : DirSet)
    (h : dirs.count ≤ 1 ∨ (dirs.up = dirs.down ∧ dirs.right = dirs.left)) (d1 d2 : Dir)
    (h1 : dirs.test d1 = true) (h2 : dirs.test d2 = true) :
    randomDirHits dirs d1 = randomDirHits dirs d2 := by
  rw [randomDirHits_eq, randomDirHits_eq, if_pos h1, if_pos h2]
  rcases dirs with ⟨_ | _, _ | _, _ | _, _ | _⟩ <;>
    first
    | (exfalso; revert h; decide)
    | (cases d1 <;> cases d2 <;>
        first | rfl | exact absurd h1 (by decide) | exact absurd h2 (by decide))

/-- C17 as amended (distribution of the direction choice): for every allowed set and every
direction, the number of the four initial indices for which `randomDir` returns the
direction is 0 when the direction is not allowed and otherwise 1 plus the number of
not-allowed directions in a row directly before it against the clock; the allowed directions
are all returned equally often exactly when at most one direction is allowed or the set is
symmetric under a half turn (two opposite directions, or all four).  The direction returned
is allowed and depends on the generator only through the next raw draw modulo 4. -/
theorem randomDir_distribution (dirs : DirSet) (dir : Dir) :
    randomDirHits dirs dir = (if dirs.test dir = true then 1 + gapBefore dirs dir else 0) ∧
      ((∀ d1 d2, dirs.test d1 = true → dirs.test d2 = true →
          randomDirHits dirs d1 = randomDirHits dirs d2) ↔
        (dirs.count ≤ 1 ∨ (dirs.up = dirs.down ∧ dirs.right = dirs.left))) ∧
      ∀ (g g1 : Generator) (d : Dir), randomDir g dirs = Except.ok (d, g1) →
        dirs.test d = true ∧ randomDirOf dirs (g.rng.stream g.rng.pos % 4) = some d :=
  ⟨randomDirHits_eq dirs dir, ⟨randomDirHits_uniform dirs, randomDirHits_symmetric dirs⟩,
    fun g g1 d h => ⟨(randomDir_ok g g1 dirs d h).1, randomDir_of_draw g g1 dirs d h⟩⟩

/-- C17 as stated fails: with up and right allowed, `randomDir` returns up for three of the
four initial indices (up, down and left) and right for one. -/
theorem randomDir_not_uniform :
    DirSet.anyCardinal ⟨true, true, false, false⟩ = true ∧
      randomDirHits ⟨true, true, false, false⟩ Dir.up = 3 ∧
      randomDirHits ⟨true, true, false, false⟩ Dir.right = 1 ∧
      (List.range 4).map (randomDirOf ⟨true, true, false, false⟩) =
        [some Dir.up, some Dir.right, some Dir.up, some Dir.up] := by
  decide

/-! ## The merge mapping -/

/-- Every region id in the region grid that is not `null_region` is at most `currentRegion`. -/
theorem CarveInv.regionsBounded {bits : Nat} {g : Generator} (hc : CarveInv bits g) (p : Point)
    (hp : g.regions.ref p ≠ null_region bits) : g.regions.ref p ≤ g.currentRegion := by
  by_cases hin : g.tiles.contains p = true
  · by_cases hw : g.tiles.ref p = Tile.wall
    · exact absurd (hc.wallNull p hin hw) hp
    · exact hc.regionLe p hw
  · have hout : g.regions.contains p = false := by
      rw [regions_contains hc]
      cases h : g.tiles.contains p
      · rfl
      · exact absurd h hin
    rw [Surface.ref_of_not_contains _ _ hout]
    exact Nat.zero_le _

theorem connectorRegions_mem (bits : Nat) (g : Generator) (pos : Point) (r : Nat)
    (h : r ∈ connectorRegions bits g pos) :
    ∃ dir, r = g.regions.ref (pos + toPoint dir) ∧ r ≠ null_region bits := by
  have hfold : ∀ (ds : List Dir) (acc : Finset Nat),
      r ∈ ds.foldl (fun s dir => if g.regions.ref (pos + toPoint dir) ≠ null_region bits
        then insert (g.regions.ref (pos + toPoint dir)) s else s) acc →
      r ∈ acc ∨ ∃ dir, r = g.regions.ref (pos + toPoint dir) ∧ r ≠ null_region bits := by
    intro ds
    induction ds with
    | nil => exact fun acc hr => Or.inl hr
    | cons d ds ih =>
      intro acc hr
      simp only [List.foldl_cons] at hr
      rcases ih _ hr with h1 | h1
      · split at h1
        · rename_i hne
          rcases Finset.mem_insert.1 h1 with h2 | h2
          · exact Or.inr ⟨d, h2, by rw [h2]; exact hne⟩
          · exact Or.inl h2
        · exact Or.inl h1
      · exact Or.inr h1
  rcases hfold cardinal_dirs ∅ h with h1 | h1
  · exact absurd h1 (Finset.not_mem_empty _)
  · exact h1

/-- Every entry of the map that `findConnectors` returns was built by `connectorRegions`
for a wall cell and holds at least two regions. -/
theorem findConnectors_entries (bits : Nat) (g : Generator) (cs : ConnectorMap)
    (h : findConnectors bits g = Except.ok cs) :
    ∀ con ∈ cs, con.2 = connectorRegions bits g con.1 ∧ 2 ≤ con.2.card := by
  have hcell : ∀ (y x : Int) (acc : ConnectorMap),
      (∀ con ∈ acc, con.2 = connectorRegions bits g con.1 ∧ 2 ≤ con.2.card) →
      ∀ con ∈ findConnectorsCell bits g y acc x,
        con.2 = connectorRegions bits g con.1 ∧ 2 ≤ con.2.card := by
    intro y x acc hacc
    unfold findConnectorsCell
    split
    · exact hacc
    · split
      · rename_i hcard
        intro con hcon
        rcases List.mem_append.1 hcon with h | h
        · exact hacc con h
        · rw [List.mem_singleton] at h
          subst h
          exact ⟨rfl, hcard⟩
      · exact hacc
  have hcells : ∀ (xs : List Int) (y : Int) (acc : ConnectorMap),
      (∀ con ∈ acc, con.2 = connectorRegions bits g con.1 ∧ 2 ≤ con.2.card) →
      ∀ con ∈ xs.foldl (findConnectorsCell bits g y) acc,
        con.2 = connectorRegions bits g con.1 ∧ 2 ≤ con.2.card := by
    intro xs y
    induction xs with
    | nil => exact fun acc hacc => hacc
    | cons x xs ih => exact fun acc hacc => ih _ (hcell y x acc hacc)
  have hrows : ∀ (ys : List Int) (acc res : ConnectorMap),
      (∀ con ∈ acc, con.2 = connectorRegions bits g con.1 ∧ 2 ≤ con.2.card) →
      ys.foldlM (findConnectorsRow bits g) acc = Except.ok res →
      ∀ con ∈ res, con.2 = connectorRegions bits g con.1 ∧ 2 ≤ con.2.card := by
    intro ys
    induction ys with
    | nil =>
      intro acc res hacc hres
      cases hres
      exact hacc
    | cons y ys ih =>
      intro acc res hacc hres
      simp only [List.foldlM_cons, bind, Except.bind] at hres
      split at hres
      · cases hres
      · rename_i acc1 hrow
        unfold findConnectorsRow at hrow
        split at hrow
        · cases hrow
        · rename_i xs _
          have := Except.ok.inj hrow
          subst this
          exact ih _ res (hcells xs y acc hacc) hres
  unfold findConnectors at h
  split at h
  · cases h
  · exact hrows _ [] cs (fun con hcon => by cases hcon) h

/-- The mapping built by lines 226 to 229 maps every listed region to itself and has no
other entry. -/
theorem initMapping_eq (rs : List Nat) (m0 : RegionMap) (k : Nat) :
    rs.foldl (fun m r => fun k => if k = r ∧ m k = none then some r else m k) m0 k =
      if k ∈ rs ∧ m0 k = none then some k else m0 k := by
  induction rs generalizing m0 with
  | nil => simp
  | cons r rs ih =>
    simp only [List.foldl_cons]
    rw [ih]
    by_cases hkr : k = r
    · subst hkr
      by_cases h0 : m0 k = none
      · simp [h0]
      · simp [h0]
    · simp only [hkr, false_and, if_false, List.mem_cons, false_or]

/-- The mapping left by lines 243 to 248: an entry whose value is in `sources` now has the
value `dest`, every other entry is as before. -/
theorem mergeRegions_eq (sources : RegionSet) (dest : Nat) (rs : List Nat) (m0 m' : RegionMap)
    (hd : dest ∉ sources) (h : mergeRegions sources dest rs m0 = Except.ok m') (k : Nat) :
    m' k = if k ∈ rs ∧ ∃ v ∈ sources, m0 k = some v then some dest else m0 k := by
  induction rs generalizing m0 with
  | nil =>
    simp only [mergeRegions, List.foldlM_nil, pure, Except.pure] at h
    have := Except.ok.inj h
    subst this
    simp
  | cons r rs ih =>
    simp only [mergeRegions, List.foldlM_cons, bind, Except.bind] at h
    split at h
    · cases h
    · rename_i m1 hm1
      split at hm1
      · cases hm1
      · rename_i merged hmerged
        have hm1' := (Except.ok.inj hm1).symm
        rw [ih m1 h]
        by_cases hkr : k = r
        · subst hkr
          by_cases hms : merged ∈ sources
          · have e1 : m1 k = some dest := by
              rw [hm1']
              simp [hms]
            have hno : ¬ (k ∈ rs ∧ ∃ v ∈ sources, m1 k = some v) := by
              rintro ⟨_, v, hv, hv'⟩
              rw [e1] at hv'
              exact hd (by rw [Option.some.inj hv']; exact hv)
            rw [if_neg hno, e1, if_pos]
            exact ⟨List.mem_cons_self _ _, merged, hms, hmerged⟩
          · have e1 : m1 = m0 := by
              rw [hm1']
              simp [hms]
            rw [e1]
            have hno : ¬ ∃ v ∈ sources, m0 k = some v := by
              rintro ⟨v, hv, hv'⟩
              rw [hmerged] at hv'
              exact hms (by rw [Option.some.inj hv']; exact hv)
            rw [if_neg (fun hh => hno hh.2), if_neg (fun hh => hno hh.2)]
        · have e1 : m1 k = m0 k := by
            rw [hm1']
            split
            · simp [hkr]
            · rfl
          rw [e1]
          simp only [List.mem_cons, hkr, false_or]

/-- The merge-mapping invariant holds when the loop of `connectRegions` is entered. -/
theorem connectInit_merge (bits : Nat) (g : Generator) (s0 : ConnectState)
    (hreg : ∀ p, g.regions.ref p ≠ null_region bits → g.regions.ref p ≤ g.currentRegion)
    (h : connectInit bits g = Except.ok s0) : MergeInv s0 := by
  unfold connectInit at h
  split at h
  · cases h
  · rename_i cs hcs
    split at h
    · cases h
    · rename_i rs hrs
      have hrange := regionRange_ok bits g rs hrs
      have hs0 := (Except.ok.inj h).symm
      subst hs0
      have hmap : ∀ k, rs.foldl (fun m r => fun k => if k = r ∧ m k = none then some r else m k)
          (fun _ => none) k = if k ≤ g.currentRegion then some k else none := by
        intro k
        rw [initMapping_eq, hrange]
        simp only [List.mem_range, and_true]
        by_cases hk : k ≤ g.currentRegion
        · rw [if_pos hk, if_pos (by omega)]
        · rw [if_neg hk, if_neg (by omega)]
      obtain ⟨_, _, c, d⟩ := initMapping_spec rs (fun _ => none) ∅ (fun k v hkv => by cases hkv)
      refine ⟨?_, ?_, ?_, ?_⟩
      · intro r hr
        simp only at hr ⊢
        exact ⟨r, by rw [hmap, if_pos hr]⟩
      · intro k v hkv
        simp only at hkv ⊢
        rw [hmap] at hkv
        split at hkv
        · rename_i hk
          have := Option.some.inj hkv
          subst this
          rw [hmap, if_pos hk]
        · cases hkv
      · intro v
        simp only
        constructor
        · intro hv
          rcases c v hv with h1 | h1
          · exact absurd h1 (Finset.not_mem_empty _)
          · rw [hrange, List.mem_range] at h1
            exact ⟨v, by rw [hmap, if_pos (by omega)]⟩
        · rintro ⟨k, hk⟩
          rw [hmap] at hk
          split at hk
          · rename_i hk'
            have := Option.some.inj hk
            subst this
            exact d k (by rw [hrange, List.mem_range]; omega)
          · cases hk
      · intro con hcon
        simp only at hcon ⊢
        obtain ⟨hbuilt, hcard⟩ := findConnectors_entries bits g cs hcs con hcon
        have hle : ∀ r ∈ con.2, r ≤ g.currentRegion := by
          intro r hr
          rw [hbuilt] at hr
          obtain ⟨dir, e, hne⟩ := connectorRegions_mem bits g con.1 r hr
          rw [e] at hne ⊢
          exact hreg _ hne
        have hall : ∀ r ∈ con.2,
            (rs.foldl (fun m r => fun k => if k = r ∧ m k = none then some r else m k)
              (fun _ => none) r).isSome = true := by
          intro r hr
          rw [hmap, if_pos (hle r hr)]
          rfl
        refine ⟨con.2.image (fun r =>
          (rs.foldl (fun m r => fun k => if k = r ∧ m k = none then some r else m k)
            (fun _ => none) r).getD 0), ?_, ?_⟩
        · unfold applyMapping
          rw [if_pos hall]
        · have himg : con.2.image (fun r =>
              (rs.foldl (fun m r => fun k => if k = r ∧ m k = none then some r else m k)
                (fun _ => none) r).getD 0) = con.2 := by
            apply Finset.ext
            intro v
            rw [Finset.mem_image]
            constructor
            · rintro ⟨r, hr, hrv⟩
              rw [hmap, if_pos (hle r hr)] at hrv
              simp only [Option.getD_some] at hrv
              rw [← hrv]
              exact hr
            · intro hv
              refine ⟨v, hv, ?_⟩
              rw [hmap, if_pos (hle v hv)]
              rfl
          rw [himg]
          exact hcard

/-- A completed pass through the loop body keeps the merge-mapping invariant. -/
theorem connectStep_merge (bits : Nat) (params : GenParams) (s s' : ConnectState)
    (hconn : ConnInv s) (hinv : MergeInv s) (h : connectStep bits params s = Except.ok s') :
    MergeInv s' := by
  obtain ⟨con, resolved, dest, mapping, g1, hcon, hres, hdest, hmap, hsweep, hcr1, _, _, _, _,
    hm', ho'⟩ := connectStep_ok bits params s s' h
  obtain ⟨hkeys, _, _⟩ := hconn
  obtain ⟨hdef, hidem, hopen, _⟩ := hinv
  obtain ⟨hkept, hcr2, _, _, _⟩ := sweep_spec params con.1 mapping _ _ _ _ hsweep
  have hcr : s'.gen.currentRegion = s.gen.currentRegion := hcr2.trans hcr1
  have hdmem : dest ∈ resolved := Finset.mem_of_min hdest
  have hnot : dest ∉ resolved.erase dest := Finset.not_mem_erase _ _
  have hdval : s.mergeMapping dest = some dest := by
    obtain ⟨r, _, hr⟩ := applyMapping_mem _ _ _ hres dest hdmem
    exact hidem r dest hr
  -- the new mapping, entry by entry
  have hnew : ∀ k, mapping k =
      match s.mergeMapping k with
      | some v => if v ∈ resolved.erase dest then some dest else some v
      | none => none := by
    intro k
    rw [mergeRegions_eq _ _ _ _ _ hnot hmap k]
    cases hk : s.mergeMapping k with
    | none => simp
    | some v =>
      have hkle := (hkeys k v hk).1
      by_cases hv : v ∈ resolved.erase dest
      · rw [if_pos ⟨List.mem_range.2 (by omega), v, hv, rfl⟩]
        simp only [hv, if_true]
      · rw [if_neg]
        · simp only [hv, if_false]
        · rintro ⟨_, v', hv', e⟩
          rw [← Option.some.inj e] at hv'
          exact hv hv'
  have hkeep : ∀ k v, s.mergeMapping k = some v → v ∉ resolved.erase dest →
      mapping k = some v := by
    intro k v hk hv
    rw [hnew, hk]
    simp only [hv, if_false]
  have hcases : ∀ k v', mapping k = some v' →
      (v' = dest ∧ ∃ v, s.mergeMapping k = some v) ∨
        (s.mergeMapping k = some v' ∧ v' ∉ resolved.erase dest) := by
    intro k v' hk
    rw [hnew] at hk
    cases hm : s.mergeMapping k with
    | none => rw [hm] at hk; cases hk
    | some v =>
      rw [hm] at hk
      simp only at hk
      split at hk
      · exact Or.inl ⟨(Option.some.inj hk).symm, v, rfl⟩
      · rename_i hv
        have := Option.some.inj hk
        subst this
        exact Or.inr ⟨rfl, hv⟩
  refine ⟨?_, ?_, ?_, ?_⟩
  · intro r hr
    rw [hcr] at hr
    obtain ⟨v, hv⟩ := hdef r hr
    rw [hm', hnew, hv]
    by_cases hvs : v ∈ resolved.erase dest
    · exact ⟨dest, by simp only [hvs, if_true]⟩
    · exact ⟨v, by simp only [hvs, if_false]⟩
  · intro k v' hk
    rw [hm'] at hk ⊢
    rcases hcases k v' hk with ⟨e, _⟩ | ⟨e, hv⟩
    · rw [e]
      exact hkeep dest dest hdval hnot
    · exact hkeep v' v' (hidem k v' e) hv
  · intro v
    rw [ho', hm', Finset.mem_sdiff]
    constructor
    · rintro ⟨hv, hvs⟩
      obtain ⟨k, hk⟩ := (hopen v).1 hv
      exact ⟨k, hkeep k v hk hvs⟩
    · rintro ⟨k, hk⟩
      rcases hcases k v hk with ⟨e, _⟩ | ⟨e, hv⟩
      · rw [e]
        exact ⟨(hopen dest).2 ⟨dest, hdval⟩, hnot⟩
      · exact ⟨(hopen v).2 ⟨k, e⟩, hv⟩
  · intro c hc
    obtain ⟨_, m1, hm1, hcard1⟩ := hkept c hc
    rw [hm']
    exact ⟨m1, hm1, hcard1⟩

theorem loopReach_merge (bits : Nat) (params : GenParams) (s0 s : ConnectState) (k : Nat)
    (hconn : ConnInv s0) (hinv : MergeInv s0) (h : LoopReach bits params s0 k s) :
    ConnInv s ∧ MergeInv s := by
  induction h with
  | start => exact ⟨hconn, hinv⟩
  | step hreach _ hstep ih =>
    obtain ⟨hc, hm⟩ := ih
    exact ⟨(connectStep_inv bits params _ _ hc hstep).1,
      connectStep_merge bits params _ _ hc hm hstep⟩

/-- C20 (merge-mapping invariant): let the region grid of the generator hold, apart from
`null_region`, only ids up to `currentRegion` (as it does after the carving phases).  Then in
every state of the loop of `connectRegions`, on entry and after each completed pass, the merge
mapping is defined on every region id from 0 to `currentRegion`, every value of the mapping
maps to itself, the open regions are exactly the values of the mapping, and every connector
in the map resolves through the mapping, to at least two regions. -/
theorem connectRegions_merge_invariant (bits : Nat) (params : GenParams) (g : Generator)
    (s0 s : ConnectState) (k : Nat)
    (hreg : ∀ p, g.regions.ref p ≠ null_region bits → g.regions.ref p ≤ g.currentRegion)
    (hinit : connectInit bits g = Except.ok s0) (hreach : LoopReach bits params s0 k s) :
    s.gen.currentRegion = g.currentRegion ∧
      (∀ r, r ≤ s.gen.currentRegion → ∃ v, s.mergeMapping r = some v) ∧
      (∀ r v, s.mergeMapping r = some v → s.mergeMapping v = some v) ∧
      (∀ v, v ∈ s.openRegions ↔ ∃ r, s.mergeMapping r = some v) ∧
      ∀ con ∈ s.connectors,
        ∃ m, applyMapping s.mergeMapping con.2 = Except.ok m ∧ 2 ≤ m.card := by
  obtain ⟨hconn, hgen, _⟩ := connectInit_inv bits g s0 hinit
  have hm0 := connectInit_merge bits g s0 hreg hinit
  obtain ⟨_, hm⟩ := loopReach_merge bits params s0 s k hconn hm0 hreach
  obtain ⟨_, _, hcr⟩ := loopReach_inv bits params s0 s k hconn hreach
  exact ⟨by rw [hcr, hgen], hm⟩

/-- The carving phases on the 9 by 7 example return `exampleCarved`, which satisfies the
carving invariant. -/
theorem exampleCarved_inv : CarveInv 16 exampleCarved :=
  (carvePhases_inv 16 exampleParams exampleDraws false exampleWorld exampleCarved (by decide)
    (by decide) (by decide) (eq_ok_of_faultOf _ _ (by decide!))).1

/-- Witness for C20: the loop on the 9 by 7 example after its first pass. -/
theorem connectRegions_merge_invariant_witness :
    ((∀ p, exampleCarved.regions.ref p ≠ null_region 16 →
        exampleCarved.regions.ref p ≤ exampleCarved.currentRegion) ∧
      connectInit 16 exampleCarved = Except.ok exampleLoop0 ∧
      LoopReach 16 exampleParams exampleLoop0 1 exampleLoop1) ∧
    (exampleLoop1.gen.currentRegion = exampleCarved.currentRegion ∧
      (∀ r, r ≤ exampleLoop1.gen.currentRegion → ∃ v, exampleLoop1.mergeMapping r = some v) ∧
      (∀ r v, exampleLoop1.mergeMapping r = some v → exampleLoop1.mergeMapping v = some v) ∧
      (∀ v, v ∈ exampleLoop1.openRegions ↔ ∃ r, exampleLoop1.mergeMapping r = some v) ∧
      ∀ con ∈ exampleLoop1.connectors,
        ∃ m, applyMapping exampleLoop1.mergeMapping con.2 = Except.ok m ∧ 2 ≤ m.card) :=
  ⟨⟨exampleCarved_inv.regionsBounded, eq_ok_of_faultOf _ _ (by decide!),
      LoopReach.step LoopReach.start (by decide!) (eq_ok_of_faultOf _ _ (by decide!))⟩,
    connectRegions_merge_invariant 16 exampleParams exampleCarved exampleLoop0 exampleLoop1 1
      exampleCarved_inv.regionsBounded (eq_ok_of_faultOf _ _ (by decide!))
      (LoopReach.step LoopReach.start (by decide!) (eq_ok_of_faultOf _ _ (by decide!)))⟩

/-! ## Region ids in start order -/

theorem set2_ref {α : Type} [Inhabited α] (s : Surface α) (p1 p2 q : Point) (v : α)
    (hwf : s.WF) (h1 : s.contains p1 = true) (h2 : s.contains p2 = true) :
    ((s.set p1 v).set p2 v).ref q = if p2 = q then v else if p1 = q then v else s.ref q := by
  rw [Surface.ref_set _ _ _ _ (Surface.set_WF _ _ _ hwf), Surface.ref_set _ _ _ _ hwf,
    Surface.contains_set]
  simp only [h1, h2, true_and]

theorem mazesInv_rng (bits : Nat) (g : Generator) (stack : List Point) (rng : RNG)
    (h : MazesInv bits g stack) : MazesInv bits { g with rng := rng } stack :=
  ⟨h.1.with_rng rng, h.2.1, h.2.2.1, h.2.2.2.1, h.2.2.2.2.1, h.2.2.2.2.2.1, h.2.2.2.2.2.2⟩

theorem mazesRel_refl (g : Generator) : MazesRel g g 0 :=
  ⟨rfl, rfl, rfl, fun _ _ => ⟨rfl, rfl⟩, rfl, fun _ hw hn => absurd hw hn⟩

theorem mazesRel_trans {a b c : Generator} {k j : Nat} (h1 : MazesRel a b k)
    (h2 : MazesRel b c j) : MazesRel a c (k + j) := by
  obtain ⟨r1, w1, e1, f1, c1, o1⟩ := h1
  obtain ⟨r2, w2, e2, f2, c2, o2⟩ := h2
  refine ⟨r2.trans r1, w2.trans w1, e2.trans e1, ?_, by rw [c2, c1, Nat.add_assoc], ?_⟩
  · intro p hp
    obtain ⟨t1, g1⟩ := f1 p hp
    obtain ⟨t2, g2⟩ := f2 p (by rw [t1]; exact hp)
    exact ⟨t2.trans t1, g2.trans g1⟩
  · intro p hw hn
    by_cases hb : b.tiles.ref p = Tile.wall
    · obtain ⟨x1, x2⟩ := o2 p hb hn
      exact ⟨by omega, x2⟩
    · obtain ⟨x1, x2⟩ := o1 p hw hb
      obtain ⟨_, g2⟩ := f2 p hb
      rw [g2]
      exact ⟨x1, by omega⟩

/-- A cell of the grid with odd coordinates lies strictly inside the border when the grid has
odd size. -/
theorem strictlyInside_of_odd (t : Surface Tile) (p : Point) (hw : t.w % 2 = 1)
    (hh : t.h % 2 = 1) (hin : t.contains p = true) (hx : p.x % 2 = 1) (hy : p.y % 2 = 1) :
    StrictlyInside t p := by
  rw [Surface.contains_iff] at hin
  unfold StrictlyInside
  omega

/-- The two cells that a pass of the maze loop writes lie strictly inside the border. -/
theorem strictlyInside_step (t : Surface Tile) (cell : Point) (dir : Dir) (hw : t.w % 2 = 1)
    (hh : t.h % 2 = 1) (hin : t.contains cell = true) (hx : cell.x % 2 = 1)
    (hy : cell.y % 2 = 1) (h3 : t.contains (cell + (toPoint dir).scale 3) = true) :
    StrictlyInside t (cell + toPoint dir) ∧ StrictlyInside t (cell + (toPoint dir).scale 2) := by
  rw [Surface.contains_iff] at hin h3
  unfold StrictlyInside
  cases dir <;> simp only [toPoint, Point.scale, Point.add_x, Point.add_y] at h3 ⊢ <;> omega

theorem borderWall_set (t : Surface Tile) (q : Point) (v : Tile) (hwf : t.WF)
    (hb : BorderWall t) (hq : StrictlyInside t q) : BorderWall (t.set q v) := by
  intro x hx y hy hedge
  rw [Surface.set_w] at hx hedge
  rw [Surface.set_h] at hy hedge
  rw [Surface.ref_set_ne _ _ _ _ hwf]
  · exact hb x hx y hy hedge
  · intro heq
    unfold StrictlyInside at hq
    rw [heq] at hq
    simp only at hq
    omega

/-- One carving pass of the maze loop in the invariant of the maze phase: the two cells
written are wall before the pass and lie strictly inside the border, the invariant is kept,
and open cells keep tile and region id. -/
theorem mazesInv_step (bits : Nat) (g : Generator) (cell : Point) (rest : List Point)
    (dir : Dir) (rng : RNG) (h : MazesInv bits g (cell :: rest)) (hdir : dir ≠ Dir.none)
    (hcan : canCarve g cell dir = true) :
    MazesInv bits
        (carve (carve { g with rng := rng } (cell + toPoint dir) Tile.path)
          (cell + (toPoint dir).scale 2) Tile.path)
        ((cell + (toPoint dir).scale 2) :: cell :: rest) ∧
      MazesRel g
        (carve (carve { g with rng := rng } (cell + toPoint dir) Tile.path)
          (cell + (toPoint dir).scale 2) Tile.path) 0 ∧
      g.tiles.ref (cell + toPoint dir) = Tile.wall ∧
      g.tiles.ref (cell + (toPoint dir).scale 2) = Tile.wall ∧
      StrictlyInside g.tiles (cell + toPoint dir) ∧
      StrictlyInside g.tiles (cell + (toPoint dir).scale 2) := by
  obtain ⟨hc, hk, hcounted, hstack, hw, hh, hb⟩ := h
  obtain ⟨h3, hwall2⟩ := (canCarve_iff g cell dir).1 hcan
  obtain ⟨hcellin, hcx, hcy, hcellopen, hcellreg⟩ := hstack cell (List.mem_cons_self _ _)
  obtain ⟨hin1, hin2⟩ := step_contains g.tiles cell dir hcellin h3
  have hwall1 := kinv_contra hk cell dir hdir hcx hcy hwall2
  obtain ⟨hs1, hs2⟩ := strictlyInside_step g.tiles cell dir hw hh hcellin hcx hcy h3
  have hloop : MazeLoopInv bits g { g with rng := rng } (cell :: rest) :=
    ⟨hc.with_rng rng, hk, hcounted,
      fun c hcm => ⟨(hstack c hcm).1, (hstack c hcm).2.1, (hstack c hcm).2.2.1,
        (hstack c hcm).2.2.2.1⟩, mazeRel_refl g⟩
  obtain ⟨hc', hk', hcounted', hstack', hrel'⟩ :=
    mazeLoopInv_carve bits g { g with rng := rng } cell rest dir hloop hdir hcan
  have htile := fun p => carve2_ref g.tiles (cell + toPoint dir) (cell + (toPoint dir).scale 2) p
    hc.tilesWF hin1 hin2
  have hreg := fun p => set2_ref g.regions (cell + toPoint dir) (cell + (toPoint dir).scale 2) p
    g.currentRegion hc.regionsWF (by rw [regions_contains hc]; exact hin1)
    (by rw [regions_contains hc]; exact hin2)
  have hregkeep : ∀ p, g.tiles.ref p ≠ Tile.wall →
      ((g.regions.set (cell + toPoint dir) g.currentRegion).set
        (cell + (toPoint dir).scale 2) g.currentRegion).ref p = g.regions.ref p := by
    intro p hp
    rw [hreg]
    split
    · rename_i heq
      rw [← heq] at hp
      exact absurd hwall2 hp
    · split
      · rename_i heq
        rw [← heq] at hp
        exact absurd hwall1 hp
      · rfl
  refine ⟨⟨hc', hk', hcounted', ?_, ?_, ?_, ?_⟩, ⟨hrel'.1, hrel'.2.1, hrel'.2.2.1, ?_, rfl, ?_⟩,
    hwall1, hwall2, hs1, hs2⟩
  · intro c hcm
    obtain ⟨a1, a2, a3, a4⟩ := hstack' c hcm
    refine ⟨a1, a2, a3, a4, ?_⟩
    show ((g.regions.set (cell + toPoint dir) g.currentRegion).set
        (cell + (toPoint dir).scale 2) g.currentRegion).ref c = g.currentRegion
    rcases List.mem_cons.1 hcm with rfl | hcm'
    · rw [hreg, if_pos rfl]
    · rw [hregkeep c (hstack c hcm').2.2.2.1]
      exact (hstack c hcm').2.2.2.2
  · show ((g.tiles.set (cell + toPoint dir) Tile.path).set
        (cell + (toPoint dir).scale 2) Tile.path).w % 2 = 1
    rw [Surface.set_w, Surface.set_w]
    exact hw
  · show ((g.tiles.set (cell + toPoint dir) Tile.path).set
        (cell + (toPoint dir).scale 2) Tile.path).h % 2 = 1
    rw [Surface.set_h, Surface.set_h]
    exact hh
  · show BorderWall ((g.tiles.set (cell + toPoint dir) Tile.path).set
        (cell + (toPoint dir).scale 2) Tile.path)
    apply borderWall_set _ _ _ (Surface.set_WF _ _ _ hc.tilesWF)
      (borderWall_set _ _ _ hc.tilesWF hb hs1)
    unfold StrictlyInside at hs2 ⊢
    rw [Surface.set_w, Surface.set_h]
    exact hs2
  · intro p hp
    exact ⟨hrel'.2.2.2 p hp, hregkeep p hp⟩
  · intro p hpw hpn
    show g.currentRegion ≤ ((g.regions.set (cell + toPoint dir) g.currentRegion).set
        (cell + (toPoint dir).scale 2) g.currentRegion).ref p ∧
      ((g.regions.set (cell + toPoint dir) g.currentRegion).set
        (cell + (toPoint dir).scale 2) g.currentRegion).ref p ≤ g.currentRegion
    have hpn' : ((g.tiles.set (cell + toPoint dir) Tile.path).set
        (cell + (toPoint dir).scale 2) Tile.path).ref p ≠ Tile.wall := hpn
    rw [htile] at hpn'
    rw [hreg]
    by_cases e2 : cell + (toPoint dir).scale 2 = p
    · rw [if_pos e2]
      exact ⟨le_refl _, le_refl _⟩
    · rw [if_neg e2] at hpn' ⊢
      by_cases e1 : cell + toPoint dir = p
      · rw [if_pos e1]
        exact ⟨le_refl _, le_refl _⟩
      · rw [if_neg e1] at hpn'
        exact absurd hpw hpn'

/-- The begin of a maze run in the invariant of the maze phase: the start cell lies strictly
inside the border, the new region id is the old one plus 1, the invariant is kept, and open
cells keep tile and region id. -/
theorem mazesInv_begin (bits : Nat) (g g1 : Generator) (x y : Int) (h : MazesInv bits g [])
    (hx1 : 1 ≤ x) (hx2 : x < g.tiles.width) (hx : x % 2 = 1) (hy1 : 1 ≤ y)
    (hy2 : y < g.tiles.height) (hy : y % 2 = 1) (hwall : g.tiles.ref ⟨x, y⟩ = Tile.wall)
    (hstart : startRegion bits g = Except.ok g1) :
    MazesInv bits (carve g1 ⟨x, y⟩ Tile.path) [⟨x, y⟩] ∧
      MazesRel g (carve g1 ⟨x, y⟩ Tile.path) 1 ∧ StrictlyInside g.tiles ⟨x, y⟩ ∧
      ∀ p, g.tiles.ref p = Tile.wall → (carve g1 ⟨x, y⟩ Tile.path).tiles.ref p ≠ Tile.wall →
        (carve g1 ⟨x, y⟩ Tile.path).regions.ref p = g.currentRegion + 1 := by
  obtain ⟨hc, hk, hcounted, _, hw, hh, hb⟩ := h
  have hin : g.tiles.contains ⟨x, y⟩ = true := by
    rw [Surface.contains_iff]
    simp only [Surface.width, Surface.height] at hx2 hy2
    simp only
    omega
  have hs := strictlyInside_of_odd g.tiles ⟨x, y⟩ hw hh hin hx hy
  obtain ⟨hg1, hassert⟩ := startRegion_ok bits g g1 hstart
  have hroom : g.currentRegion + 1 < 2 ^ bits :=
    succ_lt_of_mod_ne_zero _ _ hc.bounded (fun h0 => hassert ⟨hcounted.1, h0⟩)
  have hnext : (g.currentRegion + 1) % 2 ^ bits = g.currentRegion + 1 :=
    Nat.mod_eq_of_lt hroom
  rw [hnext] at hg1
  subst hg1
  have htile : ∀ p, (g.tiles.set ⟨x, y⟩ Tile.path).ref p =
      if (⟨x, y⟩ : Point) = p then Tile.path else g.tiles.ref p := by
    intro p
    rw [Surface.ref_set _ _ _ _ hc.tilesWF]
    simp only [hin, true_and]
  have hreg : ∀ p, (g.regions.set ⟨x, y⟩ (g.currentRegion + 1)).ref p =
      if (⟨x, y⟩ : Point) = p then g.currentRegion + 1 else g.regions.ref p := by
    intro p
    rw [Surface.ref_set _ _ _ _ hc.regionsWF, regions_contains hc]
    simp only [hin, true_and]
  have hmono : ∀ p, g.tiles.ref p ≠ Tile.wall →
      (g.tiles.set ⟨x, y⟩ Tile.path).ref p = g.tiles.ref p := by
    intro p hp
    rw [htile]
    split
    · rename_i heq
      rw [← heq] at hp
      exact absurd hwall hp
    · rfl
  have hregkeep : ∀ p, g.tiles.ref p ≠ Tile.wall →
      (g.regions.set ⟨x, y⟩ (g.currentRegion + 1)).ref p = g.regions.ref p := by
    intro p hp
    rw [hreg]
    split
    · rename_i heq
      rw [← heq] at hp
      exact absurd hwall hp
    · rfl
  have hlt : nonWallCount g.tiles < nonWallCount (g.tiles.set ⟨x, y⟩ Tile.path) :=
    nonWallCount_lt g.tiles _ hc.tilesWF (Surface.set_WF _ _ _ hc.tilesWF) (Surface.set_w _ _ _)
      (Surface.set_h _ _ _) (fun p hp => by rw [hmono p hp]; exact hp) ⟨x, y⟩ hin hwall
      (by rw [htile, if_pos rfl]; exact fun h => by cases h)
  have hc1 := carve_carveInv bits g ⟨x, y⟩ (g.currentRegion + 1) hc hin hroom
    (Or.inr (by omega)) (by omega)
  refine ⟨⟨hc1, ?_, ⟨rfl, ?_⟩, ?_, ?_, ?_, ?_⟩, ⟨rfl, ?_, ?_, ?_, rfl, ?_⟩, hs, ?_⟩
  · intro c d hd hcx hcy hq
    simp only [carve] at hq ⊢
    rw [htile] at hq
    by_cases e : (⟨x, y⟩ : Point) = c + toPoint d
    · exfalso
      rw [Point.eq_iff] at e
      cases d <;> simp only [toPoint, Point.add_x, Point.add_y] at e <;>
        first | omega | exact hd rfl
    · simp only [e, if_false] at hq
      have := hk c d hd hcx hcy hq
      rw [hmono _ this]
      exact this
  · simp only [carve]
    omega
  · intro c hcm
    rw [List.mem_singleton] at hcm
    subst hcm
    simp only [carve, Surface.contains_set]
    refine ⟨hin, hx, hy, ?_, ?_⟩
    · rw [htile, if_pos rfl]
      exact fun h => by cases h
    · rw [hreg, if_pos rfl]
  · simp only [carve, Surface.set_w]
    exact hw
  · simp only [carve, Surface.set_h]
    exact hh
  · simp only [carve]
    exact borderWall_set _ _ _ hc.tilesWF hb hs
  · simp only [carve, Surface.set_w]
  · simp only [carve, Surface.set_h]
  · intro p hp
    simp only [carve]
    exact ⟨hmono p hp, hregkeep p hp⟩
  · intro p hpw hpn
    simp only [carve] at hpn ⊢
    rw [htile] at hpn
    rw [hreg]
    by_cases e : (⟨x, y⟩ : Point) = p
    · rw [if_pos e]
      exact ⟨by omega, le_refl _⟩
    · rw [if_neg e] at hpn
      exact absurd hpw hpn
  · intro p hpw hpn
    simp only [carve] at hpn ⊢
    rw [htile] at hpn
    rw [hreg]
    by_cases e : (⟨x, y⟩ : Point) = p
    · rw [if_pos e]
    · rw [if_neg e] at hpn
      exact absurd hpw hpn

/-- Every state of the maze phase reached from a state in the invariant is in the invariant,
and the way there kept the rooms, the open cells and their region ids and raised the region
counter by the number of maze runs begun. -/
theorem mazesReach_rel (bits : Nat) (params : GenParams) (a : Generator) (sa : List Point)
    (da : Dir) (k : Nat) (b : Generator) (sb : List Point) (db : Dir)
    (ha : MazesInv bits a sa) (h : MazesReach bits params a sa da k b sb db) :
    MazesInv bits b sb ∧ MazesRel a b k := by
  induction h with
  | init => exact ⟨ha, mazesRel_refl a⟩
  | begin x y _ hx1 hx2 hx hy1 hy2 hy hwall hstart ih =>
    obtain ⟨hinv, hrel⟩ := ih
    obtain ⟨hinv', hrel', _⟩ := mazesInv_begin bits _ _ x y hinv hx1 hx2 hx hy1 hy2 hy hwall hstart
    exact ⟨hinv', mazesRel_trans hrel hrel'⟩
  | @step k g g1 cell rest last dir _ hany hchoose ih =>
    obtain ⟨hinv, hrel⟩ := ih
    obtain ⟨htest, hg1⟩ := chooseDir_ok params g g1 _ last dir hchoose
    obtain ⟨hdir, hcan⟩ := (unmadeCells_test g cell dir).1 htest
    obtain ⟨hinv', hrel', _⟩ := mazesInv_step bits g cell rest dir g1.rng hinv hdir hcan
    rw [← hg1] at hinv' hrel'
    exact ⟨hinv', mazesRel_trans hrel hrel'⟩
  | pop _ _ ih =>
    obtain ⟨⟨hc, hk, hcounted, hstack, hw, hh, hb⟩, hrel⟩ := ih
    exact ⟨⟨hc, hk, hcounted, fun c hcm => hstack c (List.mem_cons_of_mem _ hcm), hw, hh, hb⟩,
      hrel⟩

theorem mazesReach_dims (bits : Nat) (params : GenParams) (a : Generator) (sa : List Point)
    (da : Dir) (k : Nat) (b : Generator) (sb : List Point) (db : Dir)
    (h : MazesReach bits params a sa da k b sb db) :
    b.tiles.w = a.tiles.w ∧ b.tiles.h = a.tiles.h := by
  induction h with
  | init => exact ⟨rfl, rfl⟩
  | @begin k g g1 last x y _ _ _ _ _ _ _ _ hstart ih =>
    obtain ⟨hg1, _⟩ := startRegion_ok bits g g1 hstart
    subst hg1
    simp only [carve, Surface.set_w, Surface.set_h]
    exact ih
  | @step k g g1 cell rest last dir _ _ hchoose ih =>
    obtain ⟨_, hg1⟩ := chooseDir_ok params g g1 _ last dir hchoose
    rw [hg1]
    simp only [carve, Surface.set_w, Surface.set_h]
    exact ih
  | pop _ _ ih => exact ih

theorem loopNe_two_mem (b : Int) (xs : List Int) (h : loopNe 1 b 2 = some xs) :
    ∀ x ∈ xs, 1 ≤ x ∧ x < b ∧ x % 2 = 1 := by
  unfold loopNe at h
  split at h
  · rename_i hcond
    have := Option.some.inj h
    subst this
    intro x hx
    simp only [List.mem_map, List.mem_range] at hx
    obtain ⟨k, hk, rfl⟩ := hx
    have hk' : k < (b - 1).toNat / 2 := hk
    obtain ⟨h1, h2⟩ := hcond
    simp only [Nat.cast_ofNat] at h2
    push_cast
    omega
  · cases h

/-- The loop of `growMaze` runs through states of the step relation. -/
theorem growMazeLoop_reach (bits : Nat) (params : GenParams) (g0 : Generator)
    (s0 : List Point) (d0 : Dir) (n k : Nat) (g : Generator) (stack : List Point) (last : Dir)
    (g' : Generator) (hreach : MazesReach bits params g0 s0 d0 k g stack last)
    (h : growMazeLoop params n g stack last = Except.ok g') :
    ∃ last', MazesReach bits params g0 s0 d0 k g' [] last' := by
  induction n generalizing g stack last with
  | zero =>
    cases stack with
    | nil =>
      simp only [growMazeLoop] at h
      cases h
      exact ⟨last, hreach⟩
    | cons cell rest =>
      simp only [growMazeLoop] at h
      cases h
  | succ n ih =>
    cases stack with
    | nil =>
      simp only [growMazeLoop] at h
      cases h
      exact ⟨last, hreach⟩
    | cons cell rest =>
      simp only [growMazeLoop] at h
      split at h
      · rename_i hany
        split at h
        · cases h
        · rename_i dir g1 hchoose
          exact ih _ _ _ (MazesReach.step hreach hany hchoose) h
      · rename_i hany
        have hany' : (unmadeCells g cell).any = false := by
          cases hh : (unmadeCells g cell).any
          · rfl
          · exact absurd hh hany
        exact ih _ _ _ (MazesReach.pop hreach hany') h

theorem growMaze_reach (bits : Nat) (params : GenParams) (g0 : Generator) (s0 : List Point)
    (d0 : Dir) (k : Nat) (g : Generator) (last : Dir) (x y : Int) (g' : Generator)
    (hreach : MazesReach bits params g0 s0 d0 k g [] last) (hx1 : 1 ≤ x)
    (hx2 : x < g.tiles.width) (hx : x % 2 = 1) (hy1 : 1 ≤ y) (hy2 : y < g.tiles.height)
    (hy : y % 2 = 1) (hwall : g.tiles.ref ⟨x, y⟩ = Tile.wall)
    (h : growMaze bits params g ⟨x, y⟩ = Except.ok g') :
    ∃ last', MazesReach bits params g0 s0 d0 (k + 1) g' [] last' := by
  unfold growMaze at h
  split at h
  · cases h
  · rename_i g1 hstart
    exact growMazeLoop_reach bits params g0 s0 d0 _ _ _ _ _ g'
      (MazesReach.begin x y hreach hx1 hx2 hx hy1 hy2 hy hwall hstart) h

theorem growMazesRow_reach (bits : Nat) (params : GenParams) (g0 : Generator)
    (s0 : List Point) (d0 : Dir) (k : Nat) (g : Generator) (last : Dir) (y : Int)
    (g' : Generator) (hreach : MazesReach bits params g0 s0 d0 k g [] last) (hy1 : 1 ≤ y)
    (hy2 : y < g0.tiles.h) (hy : y % 2 = 1) (h : growMazesRow bits params g y = Except.ok g') :
    ∃ k' last', MazesReach bits params g0 s0 d0 k' g' [] last' := by
  have key : ∀ (l : List Int) (a : Generator) (ka : Nat) (la : Dir),
      (∀ x ∈ l, 1 ≤ x ∧ x < g0.tiles.w ∧ x % 2 = 1) →
      MazesReach bits params g0 s0 d0 ka a [] la →
      l.foldlM (fun g1 x => if g1.tiles.ref ⟨x, y⟩ = Tile.wall
          then growMaze bits params g1 ⟨x, y⟩ else Except.ok g1) a = Except.ok g' →
      ∃ k' last', MazesReach bits params g0 s0 d0 k' g' [] last' := by
    intro l
    induction l with
    | nil =>
      intro a ka la _ hra hfold
      cases hfold
      exact ⟨ka, la, hra⟩
    | cons x l ih =>
      intro a ka la hl hra hfold
      obtain ⟨hx1, hx2, hx3⟩ := hl x (List.mem_cons_self _ _)
      have hl' : ∀ x ∈ l, 1 ≤ x ∧ x < g0.tiles.w ∧ x % 2 = 1 :=
        fun x' hx' => hl x' (List.mem_cons_of_mem _ hx')
      obtain ⟨hwa, hha⟩ := mazesReach_dims bits params g0 s0 d0 ka a [] la hra
      simp only [List.foldlM_cons, bind, Except.bind] at hfold
      split at hfold
      · cases hfold
      · rename_i a1 ha1
        split at ha1
        · rename_i hwall
          obtain ⟨l1, hr1⟩ := growMaze_reach bits params g0 s0 d0 ka a la x y a1 hra hx1
            (by simp only [Surface.width, hwa]; exact hx2) hx3 hy1
            (by simp only [Surface.height, hha]; exact hy2) hy hwall ha1
          exact ih a1 _ l1 hl' hr1 hfold
        · have := Except.ok.inj ha1
          subst this
          exact ih a ka la hl' hra hfold
  unfold growMazesRow at h
  split at h
  · cases h
  · rename_i xs hxs
    obtain ⟨hwg, _⟩ := mazesReach_dims bits params g0 s0 d0 k g [] last hreach
    have hmem := loopNe_two_mem _ xs hxs
    exact key xs g k last
      (fun x hx => by
        obtain ⟨a1, a2, a3⟩ := hmem x hx
        simp only [Surface.width, hwg] at a2
        exact ⟨a1, a2, a3⟩)
      hreach h

/-- The generator that `growMazes` returns is a state of the step relation with an empty
stack. -/
theorem growMazes_reach (bits : Nat) (params : GenParams) (g0 g' : Generator)
    (h : growMazes bits params g0 = Except.ok g') :
    ∃ k last, MazesReach bits params g0 [] Dir.none k g' [] last := by
  have key : ∀ (l : List Int) (a : Generator) (ka : Nat) (la : Dir),
      (∀ y ∈ l, 1 ≤ y ∧ y < g0.tiles.h ∧ y % 2 = 1) →
      MazesReach bits params g0 [] Dir.none ka a [] la →
      l.foldlM (growMazesRow bits params) a = Except.ok g' →
      ∃ k' last', MazesReach bits params g0 [] Dir.none k' g' [] last' := by
    intro l
    induction l with
    | nil =>
      intro a ka la _ hra hfold
      cases hfold
      exact ⟨ka, la, hra⟩
    | cons y l ih =>
      intro a ka la hl hra hfold
      obtain ⟨hy1, hy2, hy3⟩ := hl y (List.mem_cons_self _ _)
      simp only [List.foldlM_cons, bind, Except.bind] at hfold
      split at hfold
      · cases hfold
      · rename_i a1 ha1
        obtain ⟨k1, l1, hr1⟩ :=
          growMazesRow_reach bits params g0 [] Dir.none ka a la y a1 hra hy1 hy2 hy3 ha1
        exact ih a1 k1 l1 (fun y' hy' => hl y' (List.mem_cons_of_mem _ hy')) hr1 hfold
  unfold growMazes at h
  split at h
  · cases h
  · rename_i ys hys
    exact key ys g0 0 Dir.none (loopNe_two_mem _ ys hys) MazesReach.init h

/-! ### The grid left by `placeRooms` and `placeExit` -/

/-- After `placeRooms` and `placeExit` from the reset generator the invariant of the maze
phase holds with an empty stack; `placeExit` leaves the rooms, the region grid and the region
counter as they are, and every open cell lies in a room. -/
theorem placeExit_mazesInv (bits : Nat) (params : GenParams) (stream : Nat → Nat)
    (started : Bool) (w : World) (g1 g2 : Generator) (hwf : w.WF) (hw : w.tiles.w % 2 = 1)
    (hh : w.tiles.h % 2 = 1)
    (h1 : placeRooms bits params (reset (Generator.new bits stream w started)) = Except.ok g1)
    (h2 : placeExit g1 = Except.ok g2) :
    MazesInv bits g2 [] ∧ g2.rooms = g1.rooms ∧ g2.regions = g1.regions ∧
      g2.currentRegion = g1.currentRegion ∧
      ∀ p, g2.tiles.ref p ≠ Tile.wall → ∃ r ∈ g2.rooms, r.contains p = true := by
  have hd0 := reset_dims bits stream started w
  have hp1 := placeRooms_placeInv bits params _ g1 (reset_placeInv bits stream started w hwf) h1
  have hd1 := placeRooms_dims bits params _ g1 h1
  obtain ⟨hc2, hr2, hne2, hst2⟩ := placeExit_carveInv bits g1 g2 hp1.1 h2
  have hk2 := placeExit_kinv bits g1 g2 hp1.1 (placeInv_kinv bits g1 hp1) h2
  have hd2 := placeExit_dims g1 g2 h2
  have hw2 : g2.tiles.w = w.tiles.w := by rw [hd2.1, hd1.1, hd0.1]
  have hh2 : g2.tiles.h = w.tiles.h := by rw [hd2.2, hd1.2, hd0.2.1]
  obtain ⟨room, hroom⟩ : ∃ room, g2.rooms.head? = some room := by
    cases hr : g2.rooms with
    | nil => exact absurd hr hne2
    | cons a l => exact ⟨a, rfl⟩
  have hopen : g2.tiles.ref (room.p + (room.s.point).div 2) ≠ Tile.wall := by
    rw [hst2 room hroom]
    exact fun hh => by cases hh
  have hcounted : g2.started = true ∧ g2.currentRegion + 1 ≤ nonWallCount g2.tiles := by
    have hpos := nonWallCount_pos_of_open g2.tiles hc2.tilesWF _ hopen
    rcases hc2.counted with ⟨_, h0⟩ | hs
    · omega
    · exact hs
  have hinroom : ∀ p, g2.tiles.ref p ≠ Tile.wall → ∃ r ∈ g2.rooms, r.contains p = true := by
    intro p hp
    rw [hr2]
    by_cases hp1' : g1.tiles.ref p = Tile.wall
    · -- the cell was written by `placeExit`: it is the centre of the first room
      unfold placeExit at h2
      split at h2
      · cases h2
      · rename_i room1 rest hrooms
        have hg2 := (Except.ok.inj h2).symm
        subst hg2
        have hmem : room1 ∈ g1.rooms := by rw [hrooms]; exact List.mem_cons_self _ _
        have hgeom := hp1.1.roomGeom room1 hmem
        have hcentre : room1.contains (room1.p + (room1.s.point).div 2) = true := by
          rw [rect_contains_iff]
          have e1 : (room1.p + (room1.s.point).div 2).x = room1.p.x + room1.s.w.tdiv 2 := rfl
          have e2 : (room1.p + (room1.s.point).div 2).y = room1.p.y + room1.s.h.tdiv 2 := rfl
          rw [e1, e2]
          have d1 := tdiv_two_cases room1.s.w
          have d2 := tdiv_two_cases room1.s.h
          obtain ⟨_, _, _, _, _, _, g7, g8, _, _⟩ := hgeom
          omega
        have hp' : (g1.tiles.set (room1.p + (room1.s.point).div 2) Tile.stairs).ref p ≠
            Tile.wall := hp
        rw [Surface.ref_set _ _ _ _ hp1.1.tilesWF] at hp'
        split at hp'
        · rename_i hc
          rw [← hc.2]
          exact ⟨room1, hmem, hcentre⟩
        · exact absurd hp1' hp'
    · exact hp1.2 p hp1'
  have hborder : BorderWall g2.tiles := by
    intro x hx y hy hedge
    by_contra hne
    obtain ⟨r, hr, hrp⟩ := hinroom _ hne
    obtain ⟨_, _, _, _, a5, a6, _, _, a9, a10⟩ := hc2.roomGeom r hr
    rw [rect_contains_iff] at hrp
    simp only at hrp
    omega
  have hwodd : g2.tiles.w % 2 = 1 := by rw [hw2]; exact hw
  have hhodd : g2.tiles.h % 2 = 1 := by rw [hh2]; exact hh
  refine ⟨⟨hc2, hk2, hcounted, (fun c hc => by cases hc), hwodd, hhodd, hborder⟩, hr2, ?_, ?_,
    hinroom⟩
  · unfold placeExit at h2
    split at h2
    · cases h2
    · have hg2 := (Except.ok.inj h2).symm
      subst hg2
      rfl
  · unfold placeExit at h2
    split at h2
    · cases h2
    · have hg2 := (Except.ok.inj h2).symm
      subst hg2
      rfl

/-- C18 (maze carving only overwrites wall): on a well-formed world of odd size, for a region
type of any width, let `g2` be the generator after `placeRooms` and `placeExit`.  The generator that `growMazes` returns is a state of the step
relation of the maze phase, and in every state of that relation reached from `g2` the border
is wall; every cell that is open in `g2`, and every cell that is open in the state, keeps its
tile and its region id from then on; a cell at which a maze run can begin lies strictly
inside the border (it is wall by the test of line 171); and the two cells that a pass of the
loop can write, in a direction of `unmadeCells`, are wall and lie strictly inside the
border. -/
theorem growMazes_overwrites_wall_only (bits : Nat) (params : GenParams) (stream : Nat → Nat)
    (started : Bool) (w : World) (g1 g2 : Generator) (hwf : w.WF) (hw : w.tiles.w % 2 = 1)
    (hh : w.tiles.h % 2 = 1)
    (h1 : placeRooms bits params (reset (Generator.new bits stream w started)) = Except.ok g1)
    (h2 : placeExit g1 = Except.ok g2) :
    (∀ g3, growMazes bits params g2 = Except.ok g3 →
        ∃ k last, MazesReach bits params g2 [] Dir.none k g3 [] last) ∧
      ∀ (k : Nat) (g : Generator) (stack : List Point) (last : Dir),
        MazesReach bits params g2 [] Dir.none k g stack last →
        BorderWall g.tiles ∧
          (∀ p, g2.tiles.ref p ≠ Tile.wall →
            g.tiles.ref p = g2.tiles.ref p ∧ g.regions.ref p = g2.regions.ref p) ∧
          (∀ (k' : Nat) (g' : Generator) (stack' : List Point) (last' : Dir),
            MazesReach bits params g stack last k' g' stack' last' →
            ∀ p, g.tiles.ref p ≠ Tile.wall →
              g'.tiles.ref p = g.tiles.ref p ∧ g'.regions.ref p = g.regions.ref p) ∧
          (∀ x y : Int, 1 ≤ x → x < g.tiles.width → x % 2 = 1 → 1 ≤ y → y < g.tiles.height →
            y % 2 = 1 → StrictlyInside g.tiles ⟨x, y⟩) ∧
          ∀ (cell : Point) (rest : List Point) (dir : Dir), stack = cell :: rest →
            (unmadeCells g cell).test dir = true →
            g.tiles.ref (cell + toPoint dir) = Tile.wall ∧
              g.tiles.ref (cell + (toPoint dir).scale 2) = Tile.wall ∧
              StrictlyInside g.tiles (cell + toPoint dir) ∧
              StrictlyInside g.tiles (cell + (toPoint dir).scale 2) := by
  obtain ⟨hinv2, _⟩ := placeExit_mazesInv bits params stream started w g1 g2 hwf hw hh h1 h2
  refine ⟨fun g3 h3 => growMazes_reach bits params g2 g3 h3, ?_⟩
  intro k g stack last hreach
  obtain ⟨hinv, hrel⟩ := mazesReach_rel bits params g2 [] Dir.none k g stack last hinv2 hreach
  refine ⟨hinv.2.2.2.2.2.2, hrel.2.2.2.1, ?_, ?_, ?_⟩
  · intro k' g' stack' last' hreach' p hp
    exact (mazesReach_rel bits params g stack last k' g' stack' last' hinv hreach').2.2.2.2.1 p hp
  · intro x y hx1 hx2 hx hy1 hy2 hy
    apply strictlyInside_of_odd g.tiles ⟨x, y⟩ hinv.2.2.2.2.1 hinv.2.2.2.2.2.1 _ hx hy
    rw [Surface.contains_iff]
    simp only [Surface.width, Surface.height] at hx2 hy2
    simp only
    omega
  · intro cell rest dir hstack htest
    subst hstack
    obtain ⟨hdir, hcan⟩ := (unmadeCells_test g cell dir).1 htest
    obtain ⟨_, _, a, b, c, d⟩ := mazesInv_step bits g cell rest dir g.rng hinv hdir hcan
    exact ⟨a, b, c, d⟩

/-- The run of `placeRooms` on the 9 by 7 example with a region type of 2 bits returns
`fullPlaced`. -/
theorem fullPlaced_eq :
    placeRooms 2 exampleParams (reset (Generator.new 2 exampleDraws exampleWorld false)) =
      Except.ok fullPlaced :=
  eq_ok_of_faultOf _ _ (by decide!)

/-- The run of `placeExit` on `fullPlaced` returns `fullExit`. -/
theorem fullExit_eq : placeExit fullPlaced = Except.ok fullExit :=
  eq_ok_of_faultOf _ _ (by decide!)

/-- Witness for C18: the grid of the 9 by 7 example after `placeRooms` and `placeExit`, with a
region type of 2 bits, fewer values than the grid has cells. -/
theorem growMazes_overwrites_wall_only_witness :
    (exampleWorld.WF ∧ exampleWorld.tiles.w % 2 = 1 ∧ exampleWorld.tiles.h % 2 = 1 ∧
      placeRooms 2 exampleParams (reset (Generator.new 2 exampleDraws exampleWorld false)) =
        Except.ok fullPlaced ∧
      placeExit fullPlaced = Except.ok fullExit) ∧
    ∀ g3, growMazes 2 exampleParams fullExit = Except.ok g3 →
      ∃ k last, MazesReach 2 exampleParams fullExit [] Dir.none k g3 [] last :=
  ⟨⟨by decide, by decide, by decide, fullPlaced_eq, fullExit_eq⟩,
    (growMazes_overwrites_wall_only 2 exampleParams exampleDraws false exampleWorld
      fullPlaced fullExit (by decide) (by decide) (by decide)
      fullPlaced_eq fullExit_eq).1⟩

theorem mazesReach_rooms (bits : Nat) (params : GenParams) (a : Generator) (sa : List Point)
    (da : Dir) (k : Nat) (b : Generator) (sb : List Point) (db : Dir)
    (h : MazesReach bits params a sa da k b sb db) : b.rooms = a.rooms := by
  induction h with
  | init => rfl
  | @begin k g g1 last x y _ _ _ _ _ _ _ _ hstart ih =>
    obtain ⟨hg1, _⟩ := startRegion_ok bits g g1 hstart
    subst hg1
    exact ih
  | @step k g g1 cell rest last dir _ _ hchoose ih =>
    obtain ⟨_, hg1⟩ := chooseDir_ok params g g1 _ last dir hchoose
    rw [hg1]
    exact ih
  | pop _ _ ih => exact ih

theorem connectStep_rooms (bits : Nat) (params : GenParams) (s s' : ConnectState)
    (h : connectStep bits params s = Except.ok s') : s'.gen.rooms = s.gen.rooms := by
  obtain ⟨con, resolved, dest, mapping, g1, _, _, _, _, hsweep, _, _, hr1, _, _, _, _⟩ :=
    connectStep_ok bits params s s' h
  obtain ⟨_, _, _, hr2, _⟩ := sweep_spec params con.1 mapping _ _ _ _ hsweep
  exact hr2.trans hr1

theorem connectLoop_rooms (bits : Nat) (params : GenParams) (n : Nat) (s s' : ConnectState)
    (h : connectLoop bits params n s = Except.ok s') : s'.gen.rooms = s.gen.rooms := by
  induction n generalizing s with
  | zero =>
    rw [connectLoop] at h
    split at h
    · cases h
    · cases h
      rfl
  | succ n ih =>
    rw [connectLoop] at h
    split at h
    · split at h
      · cases h
      · rename_i s1 hs1
        exact (ih s1 h).trans (connectStep_rooms bits params s s1 hs1)
    · cases h
      rfl

/-- The phases after `placeRooms` leave the room list as it is. -/
theorem generate_rooms (bits : Nat) (params : GenParams) (g g' : Generator)
    (h : generate bits params g = Except.ok g') :
    ∃ g1 g2, placeRooms bits params (reset g) = Except.ok g1 ∧ placeExit g1 = Except.ok g2 ∧
      g'.rooms = g1.rooms := by
  obtain ⟨g3, g4, h3, h4, h5⟩ := generate_ok bits params g g' h
  unfold carvePhases at h3
  split at h3
  · cases h3
  · rename_i g1 h1
    split at h3
    · cases h3
    · rename_i g2 h2
      refine ⟨g1, g2, h1, h2, ?_⟩
      have e2 : g2.rooms = g1.rooms := by
        unfold placeExit at h2
        split at h2
        · cases h2
        · have := (Except.ok.inj h2).symm
          subst this
          rfl
      have e3 : g3.rooms = g2.rooms := by
        obtain ⟨k, last, hreach⟩ := growMazes_reach bits params g2 g3 h3
        exact mazesReach_rooms bits params g2 [] Dir.none k g3 [] last hreach
      have e4 : g4.rooms = g3.rooms := by
        unfold connectRegions at h4
        split at h4
        · cases h4
        · rename_i s0 hs0
          split at h4
          · cases h4
          · rename_i s1 hs1
            have := Except.ok.inj h4
            subst this
            obtain ⟨_, hgen, _⟩ := connectInit_inv bits g3 s0 hs0
            rw [connectLoop_rooms bits params _ s0 s1 hs1, hgen]
      have e5 : g'.rooms = g4.rooms := by
        unfold removeDeadEnds at h5
        split at h5
        · cases h5
        · have := Except.ok.inj h5
          subst this
          rfl
      rw [e5, e4, e3, e2]

/-- C12 as amended (rooms that do not fit): `placeRooms` has no rejection for a room that
does not fit the grid.  An attempt that returns either found an earlier room that its
rectangle intersects and left the room list as it is, or appended its rectangle, which
intersects no earlier room; so whenever `generate` returns, `placeRooms` returned with a room
list that is not empty, `placeExit` returned without failing its assertion, and the room list
of the result is that list. -/
theorem generate_room_list_nonempty (bits : Nat) (params : GenParams) (g g' : Generator)
    (h : generate bits params g = Except.ok g') :
    g'.rooms ≠ [] ∧
      (∃ g1 g2, placeRooms bits params (reset g) = Except.ok g1 ∧ g1.rooms ≠ [] ∧
        placeExit g1 = Except.ok g2 ∧ g'.rooms = g1.rooms) ∧
      ∀ ga gb, roomAttempt bits params ga = Except.ok gb →
        (gb.rooms = ga.rooms ∧
            ∃ rect : Rect, ∃ room ∈ ga.rooms, Rect.intersects rect room = true) ∨
          ∃ rect : Rect, gb.rooms = ga.rooms ++ [rect] ∧
            ∀ room ∈ ga.rooms, Rect.intersects rect room = false := by
  obtain ⟨g1, g2, h1, h2, hr⟩ := generate_rooms bits params g g' h
  have hne := placeRooms_rooms bits params _ g1 h1
  refine ⟨by rw [hr]; exact hne, ⟨g1, g2, h1, hne, h2, hr⟩, ?_⟩
  intro ga gb hab
  obtain ⟨size, pos, rng1, rng2, _, _, hcase⟩ := roomAttempt_ok bits params ga gb hab
  rcases hcase with ⟨hany, rfl⟩ | ⟨hany, g3, hstart, rfl⟩
  · left
    obtain ⟨room, hroom, hint⟩ := List.any_eq_true.1 hany
    exact ⟨rfl, ⟨pos, size⟩, room, hroom, hint⟩
  · right
    obtain ⟨hg3, _⟩ := startRegion_ok bits _ g3 hstart
    subst hg3
    refine ⟨⟨pos, size⟩, rfl, fun room hroom => ?_⟩
    have := List.any_eq_false.1 hany room hroom
    simpa using this

/-- The run of `generate` on the 9 by 7 example returns `exampleGenerated`. -/
theorem exampleGenerated_eq :
    generate 16 exampleParams (Generator.new 16 exampleDraws exampleWorld false) =
      Except.ok exampleGenerated :=
  eq_ok_of_faultOf _ _ (by decide!)

/-- Witness for C12 as amended: `generate` on the 9 by 7 example. -/
theorem generate_room_list_nonempty_witness :
    generate 16 exampleParams (Generator.new 16 exampleDraws exampleWorld false) =
        Except.ok exampleGenerated ∧
      exampleGenerated.rooms ≠ [] :=
  ⟨exampleGenerated_eq,
    (generate_room_list_nonempty 16 exampleParams
      (Generator.new 16 exampleDraws exampleWorld false) exampleGenerated
      exampleGenerated_eq).1⟩


end SilverLobster
